import Mathlib

/-!
Verification of the statistical estimation engine of the
Stochastic-Analysis-for-Stochastic-Process project.

The TypeScript sources are shallowly embedded here:

* JavaScript strings are modelled as `Str := List Char`; the comma
  join/split used for PMF keys (`Array.prototype.join(',')`,
  `String.prototype.split(',')`) is modelled by `joinComma`/`splitComma`.
* A JavaScript `Map<string, T>` is modelled as an insertion-ordered
  association list `Entries T`; `Map.get` is `getEntry?`, `Map.set` is
  `setEntry` (update-in-place when the key is present, append otherwise),
  which matches the observable behaviour (iteration in insertion order).
* IEEE-754 numbers are modelled by exact rationals `ℚ` (and `ℝ` where the
  source computes square roots or logarithms); the numeric tolerances that
  appear in the source (`1e-5`, `1e-9`) are kept as exact rationals.
* `Number(...)`/`parseFloat(...)` coercion of decimal strings is modelled
  by `jsNum`/`jsParseFloat` (plain decimal notation, the only form the
  data format produces); a string that does not parse is `none` (NaN).
-/

set_option linter.unusedVariables false

abbrev Str : Type := List Char

/-- Model of the JavaScript `Array.prototype.join(',')`. -/
def joinComma : List Str → Str
  | [] => []
  | [x] => x
  | x :: xs => x ++ ',' :: joinComma xs

/-- Accumulator-style splitter for `String.prototype.split(',')`. -/
def splitCommaAux : List Char → List Char → List Str
  | [], acc => [acc.reverse]
  | c :: cs, acc => if c = ',' then acc.reverse :: splitCommaAux cs [] else splitCommaAux cs (c :: acc)

/-- Model of the JavaScript `String.prototype.split(',')`. -/
def splitComma (s : Str) : List Str := splitCommaAux s []

/-- Two-component key join, as produced by the template literals
`` `${val1},${val2}` `` in the source. -/
def join2 (a b : Str) : Str := a ++ ',' :: b

-- ----------------------------------------------------------------
-- JavaScript `Map` model: insertion-ordered association lists
-- ----------------------------------------------------------------

/-- Model of a JavaScript `Map<string, α>` as an insertion-ordered list. -/
abbrev Entries (α : Type) : Type := List (Str × α)

/-- Model of `Map.prototype.get`. -/
def getEntry? {α : Type} : Entries α → Str → Option α
  | [], _ => none
  | (k', v) :: rest, k => if k' = k then some v else getEntry? rest k

/-- Model of `Map.prototype.set`: update in place, or append. -/
def setEntry {α : Type} : Entries α → Str → α → Entries α
  | [], k, v => [(k, v)]
  | (k', v') :: rest, k, v => if k' = k then (k, v) :: rest else (k', v') :: setEntry rest k v

/-- The `m.get(k) || 0` idiom. -/
def getQ (m : Entries ℚ) (k : Str) : ℚ := (getEntry? m k).getD 0

/-- The `m.set(k, (m.get(k) || 0) + v)` accumulation idiom. -/
def addQ (m : Entries ℚ) (k : Str) (v : ℚ) : Entries ℚ := setEntry m k (getQ m k + v)

/-- Sum of all values of a map (used to model totals over `m.values()`). -/
def sumQ (m : Entries ℚ) : ℚ := (m.map (fun e => e.2)).sum

/-- Key list of a map, in insertion order. -/
def keysOf {α : Type} (m : Entries α) : List Str := m.map (fun e => e.1)

-- ----------------------------------------------------------------
-- Data model (types.ts)
-- ----------------------------------------------------------------

/-- The variable type tag of `types.ts`. -/
inductive VariableType : Type
  | Numerical : VariableType
  | Nominal : VariableType
  | Ordinal : VariableType
deriving DecidableEq, Repr

/-- A random variable record (`types.ts`): identity, display name,
string-encoded observations, type tag, and the declared ordinal order. -/
structure RandomVariable : Type where
  id : Str
  name : Str
  data : List Str
  type : VariableType
  ordinalOrder : List Str
deriving DecidableEq, Repr

-- ----------------------------------------------------------------
-- PMF estimator (analysisService.ts: getEmpiricalJointPMF, getMarginalPMF)
-- ----------------------------------------------------------------

/-- Embedding of `getEmpiricalJointPMF` (analysisService.ts, lines 122-137):
count, for each sample index, the comma-joined tuple of all variables'
values at that index, then normalize by the sample count. -/
def getEmpiricalJointPMF (vars : List RandomVariable) : Entries ℚ :=
  let numSamples := match vars.head? with
    | some v => v.data.length
    | none => 0
  if numSamples = 0 then []
  else
    let counts := (List.range numSamples).foldl
      (fun m i => addQ m (joinComma (vars.map (fun v => v.data.getD i []))) 1) []
    counts.map (fun e => (e.1, e.2 / (numSamples : ℚ)))

/-- Embedding of `getMarginalPMF` (analysisService.ts, lines 142-151):
re-key each joint entry by its sub-tuple at the kept indices (entries
whose key arity disagrees with `numTotalVars` are skipped). -/
def getMarginalPMF (jointPMF : Entries ℚ) (varIndicesToKeep : List ℕ)
    (numTotalVars : ℕ) : Entries ℚ :=
  jointPMF.foldl
    (fun m e =>
      if (splitComma e.1).length = numTotalVars then
        addQ m (joinComma (varIndicesToKeep.map (fun i => (splitComma e.1).getD i []))) e.2
      else m) []
-- ----------------------------------------------------------------
-- JavaScript number coercion (`Number(...)`, `parseFloat(...)`)
-- ----------------------------------------------------------------

/-- Digit test for the decimal parser. -/
def isDigitCh (c : Char) : Bool := '0' ≤ c && c ≤ '9'

/-- Value of a digit string. -/
def digitsToNat (ds : List Char) : ℕ := ds.foldl (fun a c => 10 * a + (c.toNat - 48)) 0

/-- Parse an unsigned decimal mantissa (`digits`, `digits.digits`, `.digits`,
`digits.`) from the front of a string; returns the value and the unconsumed
rest. -/
def parseDecimal (s : List Char) : Option (ℚ × List Char) :=
  let ip := s.takeWhile isDigitCh
  let r1 := s.dropWhile isDigitCh
  match r1 with
  | '.' :: r2 =>
      let fp := r2.takeWhile isDigitCh
      let r3 := r2.dropWhile isDigitCh
      if ip = [] ∧ fp = [] then none
      else some ((digitsToNat ip : ℚ) + (digitsToNat fp : ℚ) / (10 : ℚ) ^ fp.length, r3)
  | _ => if ip = [] then none else some ((digitsToNat ip : ℚ), r1)

/-- Model of JavaScript `parseFloat`: longest numeric prefix (plain decimal
notation; exponents, hex and surrounding whitespace are outside the data
format and are treated as non-numeric). `none` models `NaN`. -/
def jsParseFloat (s : Str) : Option ℚ :=
  match s with
  | '-' :: r => (parseDecimal r).map (fun p => -p.1)
  | '+' :: r => (parseDecimal r).map (fun p => p.1)
  | r => (parseDecimal r).map (fun p => p.1)

/-- Model of JavaScript `Number(...)` on strings: the whole string must be a
plain decimal literal; the empty string coerces to 0. `none` models `NaN`. -/
def jsNum (s : Str) : Option ℚ :=
  if s = [] then some 0
  else
    match s with
    | '-' :: r => (parseDecimal r).bind (fun p => if p.2 = [] then some (-p.1) else none)
    | '+' :: r => (parseDecimal r).bind (fun p => if p.2 = [] then some p.1 else none)
    | r => (parseDecimal r).bind (fun p => if p.2 = [] then some p.1 else none)

/-- `Number(s)` as used inside arithmetic; a non-numeric string yields 0 in
the model (the source would propagate NaN — theorems guard against this with
parseability hypotheses where the numeric value matters). -/
def jsNumD (s : Str) : ℚ := (jsNum s).getD 0

/-- A JavaScript value that is either a number, a string, or NaN (the result
of coercing a non-numeric string with `Number`). -/
inductive JSVal : Type
  | num : ℚ → JSVal
  | str : Str → JSVal
  | nan : JSVal
deriving DecidableEq, Repr

/-- `Number(value)` on a `JSVal`; `none` models NaN. -/
def jsValNum? : JSVal → Option ℚ
  | JSVal.num q => some q
  | JSVal.nan => none
  | JSVal.str s => jsNum s

/-- `Number(value)` collapsed to ℚ (NaN modelled as 0; see `jsNumD`). -/
def jsValNumD (v : JSVal) : ℚ := (jsValNum? v).getD 0

/-- `isNaN(Number(value))`. -/
def jsValIsNaN (v : JSVal) : Bool :=
  match jsValNum? v with
  | some _ => false
  | none => true

/-- `String(value)`; only string-valued entries are ever passed through this
in the embedded code paths (ordinal sorts act on unconverted string values). -/
def jsValStr : JSVal → Str
  | JSVal.num _ => []
  | JSVal.nan => ['N', 'a', 'N']
  | JSVal.str s => s

/-- JavaScript loose equality `value == stringCondition` as used by
`empiricalMarginal.find(p => p.value == condition)`. -/
def jsLooseEqStr (v : JSVal) (s : Str) : Bool :=
  match v with
  | JSVal.str t => decide (t = s)
  | JSVal.num q =>
      match jsNum s with
      | some q2 => decide (q = q2)
      | none => false
  | JSVal.nan => false

-- ----------------------------------------------------------------
-- Stable sorting (JS `Array.prototype.sort` with a consistent comparator)
-- ----------------------------------------------------------------

/-- Insert `x` after every already-placed element `y` with `¬ gt y x`
(`gt y x` models `comparator(y, x) > 0`). -/
def insertStable {α : Type} (gt : α → α → Bool) (x : α) : List α → List α
  | [] => [x]
  | y :: ys => if gt y x then x :: y :: ys else y :: insertStable gt x ys

/-- Stable sort: the unique stable order induced by a consistent JS
comparator (ties and incomparable pairs keep their original order). -/
def sortStable {α : Type} (gt : α → α → Bool) (l : List α) : List α :=
  l.foldl (fun acc x => insertStable gt x acc) []

/-- Lexicographic (UTF-16 code unit) string order, the JS default sort. -/
def strLtB : Str → Str → Bool
  | [], [] => false
  | [], _ :: _ => true
  | _ :: _, [] => false
  | a :: as, b :: bs => if a < b then true else if b < a then false else strLtB as bs

/-- `array.sort()` on strings. -/
def sortStrs (l : List Str) : List Str := sortStable (fun y x => strLtB x y) l

/-- `[...new Set(l)]`: deduplication keeping first occurrences. -/
def dedupFirst {α : Type} [DecidableEq α] (l : List α) : List α :=
  l.foldl (fun acc x => if x ∈ acc then acc else acc ++ [x]) []

/-- `Array.prototype.indexOf` (−1 when absent). -/
def jsIndexOf (l : List Str) (s : Str) : ℤ :=
  match l.findIdx? (fun t => decide (t = s)) with
  | some i => (i : ℤ)
  | none => -1

-- ----------------------------------------------------------------
-- Distribution utilities (analysisService.ts, lines 20-114)
-- ----------------------------------------------------------------

/-- One row of a `Distribution` (types.ts). -/
structure DistPoint : Type where
  value : JSVal
  probability : ℚ
  cumulative : ℚ
deriving DecidableEq, Repr

abbrev Distribution : Type := List DistPoint

/-- The comparator dispatch shared by `pmfToDistribution` and
`calculateMedian` (both sort with the same three branches): `gt a b` holds
when the JS comparator value for `(a, b)` is strictly positive.  For the
Numerical branch the comparator is `Number(a) - Number(b)`; for Ordinal with
a declared order it is `indexOf(a) - indexOf(b)`; otherwise the source
compares `String(a.value)` with itself (`localeCompare(String(a.value))`),
which is always 0, so no reordering ever happens in that branch. -/
def sortCmpGt (type : VariableType) (ordinalOrder : List Str) (a b : JSVal) : Bool :=
  if type = VariableType.Numerical then decide (jsValNumD b < jsValNumD a)
  else if type = VariableType.Ordinal ∧ ordinalOrder ≠ [] then
    decide (jsIndexOf ordinalOrder (jsValStr b) < jsIndexOf ordinalOrder (jsValStr a))
  else false

/-- Running-probability accumulation (the final `map` of
`pmfToDistribution`). -/
def cumulate : List (JSVal × ℚ) → ℚ → Distribution
  | [], _ => []
  | p :: rest, acc => ⟨p.1, p.2, acc + p.2⟩ :: cumulate rest (acc + p.2)

/-- Embedding of `pmfToDistribution` (analysisService.ts, lines 75-95). -/
def pmfToDistribution (pmf : Entries ℚ) (type : VariableType) (ordinalOrder : List Str) :
    Distribution :=
  let dist := pmf.map (fun e =>
    ((if type = VariableType.Numerical then
        match jsNum e.1 with
        | some q => JSVal.num q
        | none => JSVal.nan
      else JSVal.str e.1), e.2))
  let sorted := sortStable (fun a b => sortCmpGt type ordinalOrder a.1 b.1) dist
  cumulate sorted 0

/-- Embedding of `calculateMean` (analysisService.ts, lines 25-27). -/
def calculateMean (dist : Distribution) : ℚ :=
  (dist.map (fun p => jsValNumD p.value * p.probability)).sum

/-- Embedding of `calculateVariance` (analysisService.ts, lines 32-34). -/
def calculateVariance (dist : Distribution) (mean : ℚ) : ℚ :=
  (dist.map (fun p => (jsValNumD p.value - mean) ^ 2 * p.probability)).sum

/-- Embedding of `calculateMode` (analysisService.ts, lines 39-44). -/
def calculateMode (dist : Distribution) : List JSVal :=
  match dist with
  | [] => []
  | d0 :: drest =>
      let maxProb := (drest.map (fun p => p.probability)).foldl max d0.probability
      ((d0 :: drest).filter
        (fun p => decide (|p.probability - maxProb| < 1 / 1000000000))).map (fun p => p.value)

/-- Cumulative walk of `calculateMedian`: the first value whose running
probability reaches 0.5. -/
def medianWalk : Distribution → ℚ → Option JSVal
  | [], _ => none
  | p :: rest, cum =>
      if 1/2 ≤ cum + p.probability then some p.value else medianWalk rest (cum + p.probability)

/-- Embedding of `calculateMedian` (analysisService.ts, lines 49-69). -/
def calculateMedian (dist : Distribution) (type : VariableType) (ordinalOrder : List Str) :
    Option JSVal :=
  match dist with
  | [] => none
  | _ =>
      let sortedDist := sortStable (fun a b => sortCmpGt type ordinalOrder a.value b.value) dist
      match medianWalk sortedDist 0 with
      | some v => some v
      | none => (sortedDist.getLast?).map (fun p => p.value)

/-- Single-variable metric record (types.ts `SingleVarMetrics`). -/
structure SingleVarMetrics : Type where
  pmf : Distribution
  mean : Option ℚ
  variance : Option ℚ
  mode : List JSVal
  median : Option JSVal
deriving Repr

/-- Embedding of `getSingleVarMetrics` (analysisService.ts, lines 100-114):
mean and variance are attached only for Numerical variables whose
distribution values all coerce to numbers. -/
def getSingleVarMetrics (pmf : Entries ℚ) (type : VariableType) (ordinalOrder : List Str) :
    SingleVarMetrics :=
  let distribution := pmfToDistribution pmf type ordinalOrder
  if type = VariableType.Numerical ∧ distribution.all (fun p => !jsValIsNaN p.value) then
    let m := calculateMean distribution
    ⟨distribution, some m, some (calculateVariance distribution m),
      calculateMode distribution, calculateMedian distribution type ordinalOrder⟩
  else
    ⟨distribution, none, none, calculateMode distribution,
      calculateMedian distribution type ordinalOrder⟩

/-- Embedding of `detectVariableType` (analysisService.ts, lines 401-406). -/
def detectVariableType (data : List Str) : VariableType :=
  if data.all (fun d => decide (d = []) || (jsNum d).isSome) then VariableType.Numerical
  else VariableType.Nominal

-- ----------------------------------------------------------------
-- Conditional distributions (analysisService.ts, lines 253-304)
-- ----------------------------------------------------------------

/-- Conditional analysis record (types.ts `ConditionalResult`). -/
structure ConditionalResult : Type where
  conditionalVariable : Str
  givenVariable : Str
  conditionValue : Str
  distribution : Distribution
  mean : Option ℚ
  variance : Option ℚ
deriving Repr

/-- `new Map(pairs)`: later duplicate keys overwrite earlier ones. -/
def jsNewMap (l : List (Str × ℚ)) : Entries ℚ :=
  l.foldl (fun m e => setEntry m e.1 e.2) []

/-- One `ConditionalResult` as built inside `getConditionalDistributions`:
the conditional slice is turned into a distribution for the conditional
variable, and mean/variance are attached when it is numerical. -/
def mkConditionalResult (conditionalVar givenVar : RandomVariable) (conditionValue : Str)
    (condPairs : List (Str × ℚ)) : ConditionalResult :=
  let dist := pmfToDistribution (jsNewMap condPairs) conditionalVar.type
    conditionalVar.ordinalOrder
  if conditionalVar.type = VariableType.Numerical then
    let m := calculateMean dist
    ⟨conditionalVar.name, givenVar.name, conditionValue, dist, some m,
      some (calculateVariance dist m)⟩
  else ⟨conditionalVar.name, givenVar.name, conditionValue, dist, none, none⟩

/-- Embedding of `getConditionalDistributions` (analysisService.ts, lines
253-304).  The returned JS object keyed by the variables' names is modelled
as `Entries (List ConditionalResult)` with JS-object insertion semantics:
`results[var2.name]` holds P(var1 | var2 = v) for every v with marginal
probability at least 1e-9, `results[var1.name]` the other direction. -/
def getConditionalDistributions (jointPMF marginal1 marginal2 : Entries ℚ)
    (var1 var2 : RandomVariable) : Entries (List ConditionalResult) :=
  let init := setEntry (setEntry ([] : Entries (List ConditionalResult)) var1.name [])
    var2.name []
  let after1 := marginal2.foldl
    (fun results e2 =>
      if e2.2 < 1 / 1000000000 then results
      else
        setEntry results var2.name ((getEntry? results var2.name).getD [] ++
          [mkConditionalResult var1 var2 e2.1
            (marginal1.map (fun e1 => (e1.1, getQ jointPMF (join2 e1.1 e2.1) / e2.2)))])) init
  marginal1.foldl
    (fun results e1 =>
      if e1.2 < 1 / 1000000000 then results
      else
        setEntry results var1.name ((getEntry? results var1.name).getD [] ++
          [mkConditionalResult var2 var1 e1.1
            (marginal2.map (fun e2 => (e2.1, getQ jointPMF (join2 e1.1 e2.1) / e1.2)))])) after1

-- ----------------------------------------------------------------
-- Divergences and dependence metrics (src/unnamed/part_006, utils/math)
-- ----------------------------------------------------------------

noncomputable section
open Classical

/-- Embedding of `calculateHellingerDistance` (part_006, lines 400-411;
identical in analysisService.ts, lines 356-365):
`(1/√2) · ‖√p − √q‖₂` over the union of the two key sets. -/
def calculateHellingerDistance (pmf1 pmf2 : Entries ℚ) : ℝ :=
  let allKeys := dedupFirst (keysOf pmf1 ++ keysOf pmf2)
  let sumOfSquaredDiffs := (allKeys.map (fun k =>
    (Real.sqrt (getQ pmf1 k) - Real.sqrt (getQ pmf2 k)) ^ 2)).sum
  (1 / Real.sqrt 2) * Real.sqrt sumOfSquaredDiffs

/-- Embedding of `calculateShannonEntropy` (part_006, lines 419-435):
entropy in bits of the internally re-normalized PMF (0 when the total mass
is below 1e-9). -/
def calculateShannonEntropy (pmf : Entries ℚ) : ℝ :=
  let total := sumQ pmf
  if |total| < 1 / 1000000000 then 0
  else
    (pmf.map (fun e =>
      if 0 < e.2 then -(((e.2 / total : ℚ) : ℝ) * Real.logb 2 ((e.2 / total : ℚ) : ℝ))
      else 0)).sum

/-- Embedding of `calculateGeneralizedJensenShannonDivergence` (part_006,
lines 443-469): `max 0 (H(M) − mean H(Pᵢ))` where `M` is the uniform
mixture over the union of the supports. -/
def calculateGeneralizedJensenShannonDivergence (pmfs : List (Entries ℚ)) : ℝ :=
  if pmfs.length < 2 then 0
  else
    let allKeys := dedupFirst (pmfs.flatMap (fun p => keysOf p))
    let mixturePmf : Entries ℚ := allKeys.map (fun k =>
      (k, (pmfs.map (fun p => getQ p k)).sum / (pmfs.length : ℚ)))
    let hM := calculateShannonEntropy mixturePmf
    let hMean := (pmfs.map (fun p => calculateShannonEntropy p)).sum / (pmfs.length : ℝ)
    max 0 (hM - hMean)

/-- Embedding of `calculatePearsonCorrelation` (analysisService.ts, lines
156-176; identical in part_006).  Note the source normalizes both columns by
`n = data1.length`. -/
def calculatePearsonCorrelation (data1 data2 : List Str) : ℝ :=
  let n : ℚ := data1.length
  let numData1 := data1.map jsNumD
  let numData2 := data2.map jsNumD
  let mean1 := numData1.sum / n
  let mean2 := numData2.sum / n
  let stdDev1 := Real.sqrt (((numData1.map (fun x => (x - mean1) ^ 2)).sum / n : ℚ))
  let stdDev2 := Real.sqrt (((numData2.map (fun x => (x - mean2) ^ 2)).sum / n : ℚ))
  if stdDev1 = 0 ∨ stdDev2 = 0 then 0
  else
    let cov := ((List.range data1.length).map (fun i =>
      (numData1.getD i 0 - mean1) * (numData2.getD i 0 - mean2))).sum / n
    (cov : ℝ) / (stdDev1 * stdDev2)

/-- Embedding of `calculateMutualInformation` (analysisService.ts, lines
181-192; identical in part_006): Σ p(x,y) log₂(p(x,y)/(p(x)p(y))) over the
entries whose three probabilities all exceed 1e-9. -/
def calculateMutualInformation (jointPMF marginal1 marginal2 : Entries ℚ) : ℝ :=
  (jointPMF.map (fun e =>
    let parts := splitComma e.1
    let prob1 := getQ marginal1 (parts.getD 0 [])
    let prob2 :=
      match parts[1]? with
      | some k2 => getQ marginal2 k2
      | none => 0
    if (1 : ℚ) / 1000000000 < e.2 ∧ (1 : ℚ) / 1000000000 < prob1 ∧ (1 : ℚ) / 1000000000 < prob2 then
      (e.2 : ℝ) * Real.logb 2 ((e.2 / (prob1 * prob2) : ℚ))
    else 0)).sum

/-- The distance used by `calculateDistanceCorrelation`: absolute numeric
difference for numeric columns, 0/1 mismatch otherwise. -/
def dcDist (isNumeric : Bool) (a b : Str) : ℚ :=
  if isNumeric then |jsNumD a - jsNumD b| else if a = b then 0 else 1

/-- Embedding of `calculateDistanceCorrelation` (part_006, lines 199-250;
identical in analysisService.ts).  The n×n distance matrices are modelled as
functions of the index pair; double centering follows the source (column
means equal row means because the matrices are symmetric). -/
def calculateDistanceCorrelation (data1 data2 : List Str) : ℝ :=
  let n := data1.length
  if n < 2 then 0
  else
    let isNumeric1 := decide (detectVariableType data1 = VariableType.Numerical)
    let isNumeric2 := decide (detectVariableType data2 = VariableType.Numerical)
    let a := fun i j => dcDist isNumeric1 (data1.getD i []) (data1.getD j [])
    let b := fun i j => dcDist isNumeric2 (data2.getD i []) (data2.getD j [])
    let rowMean := fun (m : ℕ → ℕ → ℚ) i => ((List.range n).map (fun j => m i j)).sum / (n : ℚ)
    let totalMean := fun (m : ℕ → ℕ → ℚ) =>
      ((List.range n).map (fun i => rowMean m i)).sum / (n : ℚ)
    let A := fun i j => a i j - rowMean a i - rowMean a j + totalMean a
    let B := fun i j => b i j - rowMean b i - rowMean b j + totalMean b
    let dCov2 := ((List.range n).map (fun i =>
      ((List.range n).map (fun j => A i j * B i j)).sum)).sum / ((n : ℚ) * n)
    let dVar1 := ((List.range n).map (fun i =>
      ((List.range n).map (fun j => A i j * A i j)).sum)).sum / ((n : ℚ) * n)
    let dVar2 := ((List.range n).map (fun i =>
      ((List.range n).map (fun j => B i j * B i j)).sum)).sum / ((n : ℚ) * n)
    if dVar1 ≤ 1 / 1000000000 ∨ dVar2 ≤ 1 / 1000000000 then 0
    else Real.sqrt (max 0 ((dCov2 : ℝ) / Real.sqrt ((dVar1 * dVar2 : ℚ))))

/-- Embedding of `calculateCramersV` (part_006, lines 255-292): χ² over the
contingency table of the two columns normalized by `n · min(r−1, k−1)`. -/
def calculateCramersV (data1 data2 : List Str) : ℝ :=
  let n := data1.length
  if n = 0 then 0
  else
    let levels1 := dedupFirst data1
    let levels2 := dedupFirst data2
    let r := levels1.length
    let k := levels2.length
    if r < 2 ∨ k < 2 then 0
    else
      let cnt := fun l1 l2 => (((List.range n).filter (fun i =>
        decide (data1.getD i [] = l1) && decide (data2.getD i [] = l2))).length : ℚ)
      let rowTotal := fun l1 => (levels2.map (fun l2 => cnt l1 l2)).sum
      let colTotal := fun l2 => (levels1.map (fun l1 => cnt l1 l2)).sum
      let chi2 := (levels1.map (fun l1 => (levels2.map (fun l2 =>
        let expected := rowTotal l1 * colTotal l2 / (n : ℚ)
        if 0 < expected then (cnt l1 l2 - expected) ^ 2 / expected else 0)).sum)).sum
      let minDim := min (k - 1) (r - 1)
      if minDim = 0 then 0
      else Real.sqrt ((chi2 / ((n : ℚ) * (minDim : ℚ)) : ℚ))

end

-- ----------------------------------------------------------------
-- Theoretical model parsing (parserService.ts)
-- ----------------------------------------------------------------

/-- JS whitespace for `trim`. -/
def isJsSpace (c : Char) : Bool := c = ' ' || c = '\t' || c = '\n' || c = '\r'

/-- Model of `String.prototype.trim`. -/
def jsTrim (s : Str) : Str := ((s.dropWhile isJsSpace).reverse.dropWhile isJsSpace).reverse

/-- Accumulator-style splitter for `String.prototype.split('\n')`. -/
def splitNLAux : List Char → List Char → List Str
  | [], acc => [acc.reverse]
  | c :: cs, acc => if c = '\n' then acc.reverse :: splitNLAux cs [] else splitNLAux cs (c :: acc)

/-- Model of `String.prototype.split('\n')`. -/
def splitNL (s : Str) : List Str := splitNLAux s []

/-- A theoretical model as consumed by `parseTheoreticalModel` (types.ts);
only the fields the parser and orchestrator read are modelled. -/
structure TheoreticalModel : Type where
  id : Str
  name : Str
  distribution : Str
deriving DecidableEq, Repr

/-- The row loop of `parseTheoreticalModel`: rows with the wrong column
count are skipped; a NaN or negative probability aborts with an error
(error texts are abbreviated in the model); valid rows accumulate their
probability under the joined outcome key.  The source also tallies
`totalProb`, but its final sum-to-1 test is an empty block ("handled in the
UI"), so the tally has no observable effect and is omitted. -/
def parseModelRows (headerLen probIndex : ℕ) : List Str → Entries ℚ → Sum Str (Entries ℚ)
  | [], pmf => Sum.inr pmf
  | row :: rest, pmf =>
      let values := splitComma row
      if values.length ≠ headerLen then parseModelRows headerLen probIndex rest pmf
      else
        match jsParseFloat (values.getD probIndex []) with
        | none => Sum.inl ("Invalid probability in row".toList)
        | some prob =>
            if prob < 0 then Sum.inl ("Invalid probability in row".toList)
            else
              parseModelRows headerLen probIndex rest
                (addQ pmf (joinComma (values.take probIndex)) prob)

/-- Embedding of `parseTheoreticalModel` (parserService.ts, lines 48-80;
identical in analysisService.ts and part_006).  Returns the parsed joint
PMF, or an error string (`Sum.inl`) exactly for: fewer than two lines, no
`Probability` column, variable order mismatch, or an invalid (NaN/negative)
probability cell.  A probability total different from 1 is NOT rejected —
the check in the source is an empty `if` with a comment deferring it to the
UI. -/
def parseTheoreticalModel (model : TheoreticalModel) (varNamesInOrder : List Str) :
    Sum Str (Entries ℚ) :=
  let lines := splitNL (jsTrim model.distribution)
  if lines.length < 2 then Sum.inl ("Model distribution is empty or invalid.".toList)
  else
    let header := (splitComma (lines.getD 0 [])).map jsTrim
    match header.findIdx? (fun h => decide (h = "Probability".toList)) with
    | none => Sum.inl ("Model distribution must have a Probability column.".toList)
    | some probIndex =>
        if header.take probIndex ≠ varNamesInOrder then
          Sum.inl ("Model variable order does not match data order.".toList)
        else parseModelRows header.length probIndex (lines.drop 1) []

-- ----------------------------------------------------------------
-- Cross-sectional orchestrator, model-fit part (crossSectionalService.ts)
-- ----------------------------------------------------------------

instance : Inhabited RandomVariable := ⟨⟨[], [], [], VariableType.Nominal, []⟩⟩

/-- `variables.map(v => v.name)`. -/
def varNamesOf (vars : List RandomVariable) : List Str := vars.map (fun v => v.name)

/-- The empirical marginal of variable `i`
(`getMarginalPMF(empiricalJointPMF, [i], numVars)`). -/
def empiricalMarginalOf (vars : List RandomVariable) (i : ℕ) : Entries ℚ :=
  getMarginalPMF (getEmpiricalJointPMF vars) [i] vars.length

/-- The `single_vars[id].empirical` table of `performFullAnalysis`, keyed by
variable id. -/
def empiricalSingleVars (vars : List RandomVariable) : Entries SingleVarMetrics :=
  vars.enum.foldl (fun m p =>
    setEntry m p.2.id
      (getSingleVarMetrics (empiricalMarginalOf vars p.1) p.2.type p.2.ordinalOrder)) []

/-- The `single_vars[id].theoretical[model.id]` table for one parsed model. -/
def modelSingleVars (vars : List RandomVariable) (pmf : Entries ℚ) : Entries SingleVarMetrics :=
  vars.enum.foldl (fun m p =>
    setEntry m p.2.id
      (getSingleVarMetrics (getMarginalPMF pmf [p.1] vars.length) p.2.type p.2.ordinalOrder)) []

/-- The index pairs `(i, j)` with `i < j < n`, in the order of the source's
nested `for` loops. -/
def indexPairs (n : ℕ) : List (ℕ × ℕ) :=
  (List.range n).flatMap (fun i =>
    ((List.range n).filter (fun j => decide (i < j))).map (fun j => (i, j)))

/-- Lexicographically sorted id pair joined by `-`
(`[var1.id, var2.id].sort().join('-')`). -/
def sortPairIds (a b : Str) : List Str := if strLtB b a then [b, a] else [a, b]

def joinDash : List Str → Str
  | [] => []
  | [x] => x
  | x :: xs => x ++ '-' :: joinDash xs

def pairKeyOf (v1 v2 : RandomVariable) : Str := joinDash (sortPairIds v1.id v2.id)

/-- The `conditional[pairKey].theoretical[model.id]` table for one parsed
model: per unordered index pair, the model's both-direction conditional
distributions. -/
def modelConditionalAssoc (vars : List RandomVariable) (pmf : Entries ℚ) :
    Entries (Entries (List ConditionalResult)) :=
  (indexPairs vars.length).foldl (fun acc p =>
    let var1 := vars.getD p.1 default
    let var2 := vars.getD p.2 default
    setEntry acc (pairKeyOf var1 var2)
      (getConditionalDistributions (getMarginalPMF pmf [p.1, p.2] vars.length)
        (getMarginalPMF pmf [p.1] vars.length) (getMarginalPMF pmf [p.2] vars.length)
        var1 var2)) []

/-- The unconditional (bias² + model variance) MSE entries of the
`mseMetrics` object (crossSectionalService.ts, lines 126-136). -/
def mseSingle (vars : List RandomVariable) (pmf : Entries ℚ) (acc0 : Entries ℚ) : Entries ℚ :=
  vars.foldl (fun acc v =>
    if v.type = VariableType.Numerical then
      match getEntry? (empiricalSingleVars vars) v.id,
          getEntry? (modelSingleVars vars pmf) v.id with
      | some emp, some md =>
          match emp.mean, md.mean, md.variance with
          | some em, some mm, some mv =>
              setEntry acc ("MSE: ".toList ++ v.name) (mv + (mm - em) * (mm - em))
          | _, _, _ => acc
      | _, _ => acc
    else acc) acc0

def perConditionName (tname gname cond : Str) : Str :=
  "MSE: ".toList ++ tname ++ " | ".toList ++ gname ++ "=".toList ++ cond

def cumulativeName (tname gname : Str) : Str :=
  "Cumulative MSE (".toList ++ tname ++ " | ".toList ++ gname ++ ")".toList

/-- The `squaredErrorsByCondition` object (crossSectionalService.ts, lines
161-175): per condition value, the squared errors of the rows matching that
condition whose target value is numeric and whose condition has a model
prediction. -/
def squaredErrorsByCondition (targetVar givenVar : RandomVariable)
    (predictions : Entries ℚ) : Entries (List ℚ) :=
  (List.range targetVar.data.length).foldl (fun sq k =>
    let conditionValue := givenVar.data.getD k []
    match jsNum (targetVar.data.getD k []), getEntry? predictions conditionValue with
    | some trueValue, some predictedValue =>
        setEntry sq conditionValue
          ((getEntry? sq conditionValue).getD [] ++ [(trueValue - predictedValue) ^ 2])
    | _, _ => sq) []

/-- The conditional-MSE contribution of one ordered (numerical target,
categorical given) pair (crossSectionalService.ts, lines 149-194). -/
def mseConditionalFor (vars : List RandomVariable) (pmf : Entries ℚ)
    (targetVar givenVar : RandomVariable) (acc0 : Entries ℚ) : Entries ℚ :=
  let modelConditionals? :=
    (getEntry? (modelConditionalAssoc vars pmf) (pairKeyOf targetVar givenVar)).bind
      (fun res => getEntry? res givenVar.name)
  let empiricalMarginal? :=
    (getEntry? (empiricalSingleVars vars) givenVar.id).map (fun m => m.pmf)
  match modelConditionals?, empiricalMarginal? with
  | some modelConditionals, some empiricalMarginal =>
      let predictions := modelConditionals.foldl (fun m cond =>
        match cond.mean with
        | some q => setEntry m cond.conditionValue q
        | none => m) []
      let sq := squaredErrorsByCondition targetVar givenVar predictions
      let step := sq.foldl (fun st e =>
        if e.2.length ≠ 0 then
          let mse := e.2.sum / (e.2.length : ℚ)
          let marginalProb :=
            match empiricalMarginal.find? (fun p => jsLooseEqStr p.value e.1) with
            | some p => p.probability
            | none => 0
          (setEntry st.1 (perConditionName targetVar.name givenVar.name e.1) mse,
            st.2 + mse * marginalProb)
        else st) (acc0, (0 : ℚ))
      if 0 < step.2 then
        setEntry step.1 (cumulativeName targetVar.name givenVar.name) step.2
      else step.1
  | _, _ => acc0

/-- The complete `mseMetrics` object for one parsed model: the single-var
MSEs, then the conditional MSEs over every ordered pair `(i, j)`, `i ≠ j`,
with numerical target and categorical conditioning variable. -/
def mseMetricsFor (vars : List RandomVariable) (pmf : Entries ℚ) : Entries ℚ :=
  ((List.range vars.length).flatMap (fun i =>
    ((List.range vars.length).filter (fun j => decide (j ≠ i))).map (fun j => (i, j)))).foldl
    (fun acc p =>
      let targetVar := vars.getD p.1 default
      let givenVar := vars.getD p.2 default
      if targetVar.type = VariableType.Numerical ∧
          (givenVar.type = VariableType.Nominal ∨ givenVar.type = VariableType.Ordinal) then
        mseConditionalFor vars pmf targetVar givenVar acc
      else acc) (mseSingle vars pmf [])

/-- Model-fit record (types.ts `ModelFitResult`). -/
structure ModelFitResult : Type where
  modelName : Str
  error : Option Str
  hellingerDistance : Option ℝ
  jensenShannonDistance : Option ℝ
  mse : Option (Entries ℚ)

/-- The `ModelFitResult` pushed by `performFullAnalysis`
(crossSectionalService.ts, lines 73-204) for one theoretical model: an
error-only record when parsing fails, nothing when the parsed PMF is empty,
otherwise Hellinger distance, Jensen-Shannon distance and the MSE table —
with no `error` — regardless of the probabilities' total. -/
noncomputable def modelFitFor (vars : List RandomVariable) (model : TheoreticalModel) :
    Option ModelFitResult :=
  match parseTheoreticalModel model (varNamesOf vars) with
  | Sum.inl err => some ⟨model.name, some err, none, none, none⟩
  | Sum.inr parsedModelPMF =>
      if parsedModelPMF.length = 0 then none
      else
        some ⟨model.name, none,
          some (calculateHellingerDistance (getEmpiricalJointPMF vars) parsedModelPMF),
          some (Real.sqrt (calculateGeneralizedJensenShannonDivergence
            [getEmpiricalJointPMF vars, parsedModelPMF])),
          some (mseMetricsFor vars parsedModelPMF)⟩

/-- The `modelFit` list of the `AnalysisResults` returned by
`performFullAnalysis`: one record per model that parses or fails with an
error; models parsing to an empty PMF are silently skipped. -/
noncomputable def performFullAnalysisModelFit (vars : List RandomVariable)
    (models : List TheoreticalModel) : List ModelFitResult :=
  models.filterMap (fun model => modelFitFor vars model)

-- ----------------------------------------------------------------
-- Markov-chain diagnostics (timeSeriesService.ts)
-- ----------------------------------------------------------------

/-- A transition probability matrix: from-state → (to-state → probability). -/
abbrev TPM : Type := Entries (Entries ℚ)

/-- `tpm.get(f)?.get(t) || 0`. -/
def tpmGetQ (tpm : TPM) (fromState toState : Str) : ℚ :=
  getQ ((getEntry? tpm fromState).getD []) toState

/-- The `jointCounts` update of `calculateTPM`: ensure the from-state row
exists, then bump the to-state count. -/
def bumpJointCount (m : Entries (Entries ℚ)) (fromState toState : Str) :
    Entries (Entries ℚ) :=
  setEntry m fromState (addQ ((getEntry? m fromState).getD []) toState 1)

/-- Embedding of `calculateTPM` (timeSeriesService.ts, lines 11-56): group
instances by their joined state history `(t−order … t−1)`, count transitions
into the state at `timeIndex`, and normalize each observed from-state's row
over the full `stateSpace` (unobserved targets get probability 0).  The
source updates both count maps in one instance loop; the two folds here are
observationally identical. -/
def calculateTPM (timeLabels : List Str) (instanceData : List (List Str))
    (stateSpace : List Str) (timeIndex order : ℕ) : TPM :=
  if timeIndex < order then []
  else
    let fromStateOf := fun (row : List Str) =>
      joinComma ((List.range order).map (fun j => row.getD (timeIndex - order + j) []))
    let fromStateCounts := instanceData.foldl (fun m row => addQ m (fromStateOf row) 1) []
    let jointCounts := instanceData.foldl
      (fun m row => bumpJointCount m (fromStateOf row) (row.getD timeIndex [])) []
    (fromStateCounts.filter (fun e => decide (0 < e.2))).map (fun e =>
      (e.1, stateSpace.map (fun toState =>
        (toState, getQ ((getEntry? jointCounts e.1).getD []) toState / e.2))))

noncomputable section
open Classical

/-- Embedding of `calculateHellingerDistanceTPM` (timeSeriesService.ts,
lines 58-85): both TPMs are flattened into one zero-filled vector over
(sorted from-states) × (sorted to-states) and the plain
`(1/√2)·‖√p − √q‖₂` formula is applied to the stacked vectors — the sum
therefore ranges over every (from, to) cell, exactly as the source's `p`
and `q` arrays do. -/
def calculateHellingerDistanceTPM (tpm1 tpm2 : TPM) : ℝ :=
  let fromStates := dedupFirst (keysOf tpm1 ++ keysOf tpm2)
  let toStates := dedupFirst (fromStates.flatMap (fun f =>
    keysOf ((getEntry? tpm1 f).getD []) ++ keysOf ((getEntry? tpm2 f).getD [])))
  let sortedFromStates := sortStrs fromStates
  let sortedToStates := sortStrs toStates
  if sortedFromStates.length = 0 ∨ sortedToStates.length = 0 then 0
  else
    let sumOfSquaredDiffs := (sortedFromStates.map (fun f =>
      (sortedToStates.map (fun t =>
        (Real.sqrt (tpmGetQ tpm1 f t) - Real.sqrt (tpmGetQ tpm2 f t)) ^ 2)).sum)).sum
    (1 / Real.sqrt 2) * Real.sqrt sumOfSquaredDiffs

end

/-- Embedding of `tpmToJointPmf` (timeSeriesService.ts, lines 87-109): the
positive cells of the TPM, keyed `from,to`, divided by the number of
from-states. -/
def tpmToJointPmf (tpm : TPM) (allFromStates allToStates : List Str) : Entries ℚ :=
  let pmf := allFromStates.foldl (fun m f =>
    allToStates.foldl (fun m2 t =>
      let prob := tpmGetQ tpm f t
      if 0 < prob then setEntry m2 (join2 f t) prob else m2) m) []
  if allFromStates.length ≠ 0 then
    pmf.map (fun e => (e.1, e.2 / (allFromStates.length : ℚ)))
  else pmf

noncomputable section
open Classical

/-- Embedding of `calculateGJS_TPM_Distance_normalized`
(timeSeriesService.ts, lines 111-133): each TPM is converted to a joint PMF
over the common sorted state lists, the generalized JS divergence in bits is
normalized by log₂ n, clamped into [0, 1], and the square root is returned. -/
def calculateGJS_TPM_Distance_normalized (tpms : List TPM) : ℝ :=
  if tpms.length < 2 then 0
  else
    let allFromStates := dedupFirst (tpms.flatMap (fun tpm => keysOf tpm))
    let allToStates := dedupFirst (tpms.flatMap (fun tpm =>
      tpm.flatMap (fun row => keysOf row.2)))
    let fromStateList := sortStrs allFromStates
    let toStateList := sortStrs allToStates
    let pmfs := tpms.map (fun tpm => tpmToJointPmf tpm fromStateList toStateList)
    let divergenceBits := calculateGeneralizedJensenShannonDivergence pmfs
    let jsdNorm := divergenceBits / Real.logb 2 (tpms.length : ℝ)
    Real.sqrt (min (max jsdNorm 0) 1)

end

/-- One pairwise Hellinger record (types.ts `HellingerResult`). -/
structure HellingerResult : Type where
  pair : Str
  distance : ℝ

/-- The record returned by `runHomogeneityCheck`; the boolean verdict is
modelled as a `Prop` because it compares real-valued distances. -/
structure HomogeneityCheckResult : Type where
  hellingerDistances : List HellingerResult
  gjsDistance : ℝ
  isHomogeneous : Prop

/-- A labelled step TPM (`{tpm, label}` in the source). -/
structure LabeledTPM : Type where
  tpm : TPM
  label : Str

instance : Inhabited LabeledTPM := ⟨⟨[], []⟩⟩

noncomputable section
open Classical

/-- Embedding of `runHomogeneityCheck` (timeSeriesService.ts, lines
135-153): fewer than two TPMs are vacuously homogeneous; otherwise the
pairwise Hellinger distances and the normalized GJS distance are computed,
and the verdict is "every pairwise distance ≤ 0.5 and the GJS distance
≤ 0.5". -/
def runHomogeneityCheck (tpms : List LabeledTPM) : HomogeneityCheckResult :=
  if tpms.length < 2 then ⟨[], 0, True⟩
  else
    let hellingerDistances := (indexPairs tpms.length).map (fun p =>
      ⟨(tpms.getD p.1 default).label ++ " vs ".toList ++ (tpms.getD p.2 default).label,
        calculateHellingerDistanceTPM (tpms.getD p.1 default).tpm
          (tpms.getD p.2 default).tpm⟩)
    let gjsDistance := calculateGJS_TPM_Distance_normalized (tpms.map (fun t => t.tpm))
    ⟨hellingerDistances, gjsDistance,
      (∀ r ∈ hellingerDistances, r.distance ≤ 1/2) ∧ gjsDistance ≤ 1/2⟩

end

/-- `[...new Set(instanceData.flat())].sort()`. -/
def stateSpaceOf (instanceData : List (List Str)) : List Str :=
  sortStrs (dedupFirst instanceData.flatten)

/-- The label `P(t|t−1)` attached to a first-order step TPM. -/
def tpmLabel (timeLabels : List Str) (t : ℕ) : Str :=
  "P(".toList ++ timeLabels.getD t [] ++ "|".toList ++ timeLabels.getD (t - 1) [] ++ ")".toList

/-- The `tpms_firstOrder` list of `performTimeSeriesAnalysis`
(timeSeriesService.ts, lines 170-176): one first-order TPM per step
`t = 1 … numTimeSteps−1`. -/
def tpmsFirstOrder (timeLabels : List Str) (instanceData : List (List Str)) :
    List LabeledTPM :=
  (List.range' 1 (timeLabels.length - 1)).map (fun t =>
    ⟨calculateTPM timeLabels instanceData (stateSpaceOf instanceData) t 1,
      tpmLabel timeLabels t⟩)

/-- The homogeneity check of `performTimeSeriesAnalysis` (line 178). -/
noncomputable def homogeneityCheckOf (timeLabels : List Str)
    (instanceData : List (List Str)) : HomogeneityCheckResult :=
  runHomogeneityCheck (tpmsFirstOrder timeLabels instanceData)

/-- The `average_tpm` of `performTimeSeriesAnalysis` (timeSeriesService.ts,
lines 180-196): entrywise uniform average of the per-step first-order TPMs
over (union of observed from-states) × (state space). -/
def averageTPMFirstOrder (timeLabels : List Str) (instanceData : List (List Str)) : TPM :=
  let tpms := tpmsFirstOrder timeLabels instanceData
  let allFromStates := dedupFirst (tpms.flatMap (fun x => keysOf x.tpm))
  let allToStates := dedupFirst (stateSpaceOf instanceData)
  allFromStates.map (fun f =>
    (f, allToStates.map (fun t =>
      (t, (tpms.map (fun x => tpmGetQ x.tpm f t)).sum / (tpms.length : ℚ)))))

open Classical in
/-- The `representativeTPM` local of `performTimeSeriesAnalysis`
(timeSeriesService.ts, lines 207-209): the first step's TPM when the
homogeneity check passes (`new Map()` when there are no step TPMs),
otherwise the time-averaged TPM. -/
noncomputable def representativeTPM (timeLabels : List Str)
    (instanceData : List (List Str)) : TPM :=
  if (homogeneityCheckOf timeLabels instanceData).isHomogeneous then
    match (tpmsFirstOrder timeLabels instanceData).head? with
    | some x => x.tpm
    | none => []
  else averageTPMFirstOrder timeLabels instanceData

-- ----------------------------------------------------------------
-- Claim-side constructions
-- ----------------------------------------------------------------

/-- Claim-side construction for C6: transposing a pairwise joint PMF's key
order (swapping the two components of every `a,b` key). -/
def transposePairPMF (jointPMF : Entries ℚ) : Entries ℚ :=
  jointPMF.map (fun e =>
    (join2 ((splitComma e.1).getD 1 []) ((splitComma e.1).getD 0 []), e.2))

/-- A well-formed PMF map: no duplicate keys, non-negative probabilities. -/
def WFPMF (pmf : Entries ℚ) : Prop :=
  (keysOf pmf).Nodup ∧ ∀ e ∈ pmf, 0 ≤ e.2

/-- A well-formed normalized PMF map: additionally sums to 1. -/
def WFPMF1 (pmf : Entries ℚ) : Prop := WFPMF pmf ∧ sumQ pmf = 1

instance (pmf : Entries ℚ) : Decidable (WFPMF pmf) := by
  unfold WFPMF
  infer_instance

instance (pmf : Entries ℚ) : Decidable (WFPMF1 pmf) := by
  unfold WFPMF1
  infer_instance

-- ----------------------------------------------------------------
-- Structured views of the dependence-measure bodies (defeq refactorings
-- of `calculateDistanceCorrelation` and `calculateCramersV`)
-- ----------------------------------------------------------------

/-- Row mean of an n-by-n distance matrix (the `rowMeans` computation of
`calculateDistanceCorrelation`). -/
def dcRowMean (n : ℕ) (m : ℕ → ℕ → ℚ) (i : ℕ) : ℚ :=
  ((List.range n).map (fun j => m i j)).sum / (n : ℚ)

/-- Grand mean of an n-by-n distance matrix. -/
def dcTotalMean (n : ℕ) (m : ℕ → ℕ → ℚ) : ℚ :=
  ((List.range n).map (fun i => dcRowMean n m i)).sum / (n : ℚ)

/-- Double centering of a distance matrix, as in the source. -/
def dcCentered (n : ℕ) (m : ℕ → ℕ → ℚ) : ℕ → ℕ → ℚ :=
  fun i j => m i j - dcRowMean n m i - dcRowMean n m j + dcTotalMean n m

noncomputable section
open Classical

/-- The tail of `calculateDistanceCorrelation` after both matrices have been
centered (definitionally equal to the source body). -/
def dcorrCore (n : ℕ) (A B : ℕ → ℕ → ℚ) : ℝ :=
  let dCov2 := ((List.range n).map (fun i =>
    ((List.range n).map (fun j => A i j * B i j)).sum)).sum / ((n : ℚ) * n)
  let dVar1 := ((List.range n).map (fun i =>
    ((List.range n).map (fun j => A i j * A i j)).sum)).sum / ((n : ℚ) * n)
  let dVar2 := ((List.range n).map (fun i =>
    ((List.range n).map (fun j => B i j * B i j)).sum)).sum / ((n : ℚ) * n)
  if dVar1 ≤ 1 / 1000000000 ∨ dVar2 ≤ 1 / 1000000000 then 0
  else Real.sqrt (max 0 ((dCov2 : ℝ) / Real.sqrt ((dVar1 * dVar2 : ℚ))))

/-- The tail of `calculateCramersV` after the levels and the contingency
counter have been fixed (definitionally equal to the source body). -/
def cramersVCore (n : ℕ) (levels1 levels2 : List Str) (cnt : Str → Str → ℚ) : ℝ :=
  let r := levels1.length
  let k := levels2.length
  if r < 2 ∨ k < 2 then 0
  else
    let rowTotal := fun l1 => (levels2.map (fun l2 => cnt l1 l2)).sum
    let colTotal := fun l2 => (levels1.map (fun l1 => cnt l1 l2)).sum
    let chi2 := (levels1.map (fun l1 => (levels2.map (fun l2 =>
      let expected := rowTotal l1 * colTotal l2 / (n : ℚ)
      if 0 < expected then (cnt l1 l2 - expected) ^ 2 / expected else 0)).sum)).sum
    let minDim := min (k - 1) (r - 1)
    if minDim = 0 then 0
    else Real.sqrt ((chi2 / ((n : ℚ) * (minDim : ℚ)) : ℚ))

end

-- ----------------------------------------------------------------
-- Proof development
-- ----------------------------------------------------------------

lemma splitCommaAux_ne_nil (s acc : List Char) : splitCommaAux s acc ≠ [] := by
  induction s generalizing acc with
  | nil => simp [splitCommaAux]
  | cons c cs ih =>
      by_cases h : c = ','
      · simp [splitCommaAux, h]
      · simp [splitCommaAux, h, ih]

lemma splitCommaAux_append_of_no_comma (s acc : List Char) (hs : ',' ∉ s) :
    splitCommaAux (s ++ ',' :: rest) acc = (acc.reverse ++ s) :: splitCommaAux rest [] := by
  induction s generalizing acc with
  | nil => simp [splitCommaAux]
  | cons c cs ih =>
      have hc : c ≠ ',' := fun h => hs (by simp [h])
      have hcs : ',' ∉ cs := fun h => hs (List.mem_cons_of_mem _ h)
      simp [splitCommaAux, hc, ih _ hcs]

lemma splitCommaAux_of_no_comma (s acc : List Char) (hs : ',' ∉ s) :
    splitCommaAux s acc = [acc.reverse ++ s] := by
  induction s generalizing acc with
  | nil => simp [splitCommaAux]
  | cons c cs ih =>
      have hc : c ≠ ',' := fun h => hs (by simp [h])
      have hcs : ',' ∉ cs := fun h => hs (List.mem_cons_of_mem _ h)
      simp [splitCommaAux, hc, ih _ hcs]

/-- Splitting a comma-join recovers the parts, provided the parts are
comma-free and there is at least one part. -/
theorem splitComma_joinComma (parts : List Str) (hne : parts ≠ [])
    (hfree : ∀ p ∈ parts, ',' ∉ p) : splitComma (joinComma parts) = parts := by
  induction parts with
  | nil => exact absurd rfl hne
  | cons p rest ih =>
      cases rest with
      | nil =>
          simpa [splitComma, joinComma] using
            splitCommaAux_of_no_comma p [] (hfree p (by simp))
      | cons q rest' =>
          have hp : ',' ∉ p := hfree p (by simp)
          have hrest : splitComma (joinComma (q :: rest')) = q :: rest' :=
            ih (by simp) (fun x hx => hfree x (List.mem_cons_of_mem _ hx))
          simp only [splitComma, joinComma]
          rw [splitCommaAux_append_of_no_comma p [] hp]
          simpa [splitComma] using hrest

lemma no_comma_mem_splitCommaAux (s acc : List Char) (hacc : ',' ∉ acc) :
    ∀ p ∈ splitCommaAux s acc, ',' ∉ p := by
  induction s generalizing acc with
  | nil =>
      intro p hp
      simp [splitCommaAux] at hp
      subst hp
      simpa using hacc
  | cons c cs ih =>
      intro p hp
      by_cases h : c = ','
      · simp [splitCommaAux, h] at hp
        rcases hp with hp | hp
        · subst hp; simpa using hacc
        · exact ih [] (by simp) p hp
      · simp [splitCommaAux, h] at hp
        refine ih (c :: acc) ?_ p hp
        intro hmem
        rcases List.mem_cons.mp hmem with h1 | h1
        · exact h h1.symm
        · exact hacc h1

/-- Every piece produced by `splitComma` is comma-free. -/
theorem no_comma_mem_splitComma (s : Str) : ∀ p ∈ splitComma s, ',' ∉ p :=
  no_comma_mem_splitCommaAux s [] (by simp)

lemma joinComma_pair (a b : Str) : joinComma [a, b] = join2 a b := rfl

theorem join2_inj {a b c d : Str} (ha : ',' ∉ a) (hc : ',' ∉ c) :
    join2 a b = join2 c d ↔ a = c ∧ b = d := by
  constructor
  · intro h
    have h1 : splitCommaAux (a ++ ',' :: b) [] = splitCommaAux (c ++ ',' :: d) [] := by
      simpa [join2] using congrArg (fun s => splitCommaAux s []) h
    rw [splitCommaAux_append_of_no_comma a [] ha, splitCommaAux_append_of_no_comma c [] hc] at h1
    have h2 : a = c := by simpa using List.head_eq_of_cons_eq h1
    subst h2
    exact ⟨rfl, by simpa [join2] using h⟩
  · rintro ⟨rfl, rfl⟩; rfl

lemma getEntry?_setEntry_self {α : Type} (m : Entries α) (k : Str) (v : α) :
    getEntry? (setEntry m k v) k = some v := by
  induction m with
  | nil => simp [setEntry, getEntry?]
  | cons e rest ih =>
      by_cases h : e.1 = k
      · simp [setEntry, h, getEntry?]
      · simp [setEntry, h, getEntry?, ih]

lemma getEntry?_setEntry_ne {α : Type} (m : Entries α) (k k' : Str) (v : α) (h : k ≠ k') :
    getEntry? (setEntry m k v) k' = getEntry? m k' := by
  induction m with
  | nil => simp [setEntry, getEntry?, h]
  | cons e rest ih =>
      rcases e with ⟨ke, ve⟩
      by_cases he : ke = k
      · subst he
        simp [setEntry, getEntry?, h]
      · simp [setEntry, he, getEntry?, ih]

lemma getQ_addQ (m : Entries ℚ) (k k' : Str) (v : ℚ) :
    getQ (addQ m k v) k' = getQ m k' + if k' = k then v else 0 := by
  by_cases h : k' = k
  · subst h
    simp [addQ, getQ, getEntry?_setEntry_self]
  · simp [addQ, getQ, getEntry?_setEntry_ne m k k' _ (fun hh => h hh.symm), h]

lemma sumQ_setEntry (m : Entries ℚ) (k : Str) (v : ℚ) :
    sumQ (setEntry m k v) = sumQ m + v - getQ m k := by
  induction m with
  | nil => simp [setEntry, sumQ, getQ, getEntry?]
  | cons e rest ih =>
      rcases e with ⟨ke, ve⟩
      by_cases he : ke = k
      · subst he
        simp [setEntry, sumQ, getQ, getEntry?]
        ring
      · simp only [setEntry, he, if_false]
        have hget : getQ ((ke, ve) :: rest) k = getQ rest k := by
          simp [getQ, getEntry?, he]
        have ih' : sumQ (setEntry rest k v) = sumQ rest + v - getQ rest k := ih
        simp only [sumQ, List.map_cons, List.sum_cons] at ih' ⊢
        rw [hget, show ((setEntry rest k v).map (fun e => e.2)).sum
          = (rest.map (fun e => e.2)).sum + v - getQ rest k from ih']
        ring

lemma sumQ_addQ (m : Entries ℚ) (k : Str) (v : ℚ) :
    sumQ (addQ m k v) = sumQ m + v := by
  rw [addQ, sumQ_setEntry]
  ring

lemma keysOf_cons {α : Type} (ke : Str) (ve : α) (rest : Entries α) :
    keysOf ((ke, ve) :: rest) = ke :: keysOf rest := rfl

lemma mem_keysOf_setEntry {α : Type} (m : Entries α) (k k' : Str) (v : α) :
    k' ∈ keysOf (setEntry m k v) ↔ k' = k ∨ k' ∈ keysOf m := by
  induction m with
  | nil => simp [setEntry, keysOf]
  | cons e rest ih =>
      rcases e with ⟨ke, ve⟩
      by_cases he : ke = k
      · subst he
        rw [show setEntry ((ke, ve) :: rest) ke v = (ke, v) :: rest by simp [setEntry]]
        rw [keysOf_cons, keysOf_cons]
        simp only [List.mem_cons]
        constructor
        · rintro (h | h)
          · exact Or.inl h
          · exact Or.inr (Or.inr h)
        · rintro (h | h | h)
          · exact Or.inl h
          · exact Or.inl h
          · exact Or.inr h
      · rw [show setEntry ((ke, ve) :: rest) k v = (ke, ve) :: setEntry rest k v by
          simp [setEntry, he]]
        rw [keysOf_cons, keysOf_cons]
        simp only [List.mem_cons]
        rw [ih]
        constructor
        · rintro (h | h | h)
          · exact Or.inr (Or.inl h)
          · exact Or.inl h
          · exact Or.inr (Or.inr h)
        · rintro (h | h | h)
          · exact Or.inr (Or.inl h)
          · exact Or.inl h
          · exact Or.inr (Or.inr h)

lemma nodup_keysOf_setEntry {α : Type} (m : Entries α) (k : Str) (v : α)
    (h : (keysOf m).Nodup) : (keysOf (setEntry m k v)).Nodup := by
  induction m with
  | nil => simp [setEntry, keysOf]
  | cons e rest ih =>
      rcases e with ⟨ke, ve⟩
      rw [keysOf_cons] at h
      have h1 : ke ∉ keysOf rest := (List.nodup_cons.mp h).1
      have h2 : (keysOf rest).Nodup := (List.nodup_cons.mp h).2
      by_cases he : ke = k
      · subst he
        rw [show setEntry ((ke, ve) :: rest) ke v = (ke, v) :: rest by simp [setEntry]]
        rw [keysOf_cons]
        exact List.nodup_cons.mpr ⟨h1, h2⟩
      · rw [show setEntry ((ke, ve) :: rest) k v = (ke, ve) :: setEntry rest k v by
          simp [setEntry, he]]
        rw [keysOf_cons]
        refine List.nodup_cons.mpr ⟨?_, ih h2⟩
        intro hmem
        rcases (mem_keysOf_setEntry rest k ke v).mp hmem with hx | hx
        · exact he hx
        · exact h1 hx

lemma getEntry?_eq_none_of_not_mem {α : Type} (m : Entries α) (k : Str)
    (h : k ∉ keysOf m) : getEntry? m k = none := by
  induction m with
  | nil => simp [getEntry?]
  | cons e rest ih =>
      rcases e with ⟨ke, ve⟩
      rw [keysOf_cons] at h
      have h1 : ke ≠ k := by
        intro hh
        exact h (by rw [hh]; exact List.mem_cons_self _ _)
      have h2 : k ∉ keysOf rest := fun hh => h (List.mem_cons_of_mem _ hh)
      simp [getEntry?, h1, ih h2]

lemma getQ_eq_zero_of_not_mem (m : Entries ℚ) (k : Str) (h : k ∉ keysOf m) :
    getQ m k = 0 := by
  simp [getQ, getEntry?_eq_none_of_not_mem m k h]

lemma getEntry?_of_mem_of_nodup {α : Type} (m : Entries α) (k : Str) (v : α)
    (hn : (keysOf m).Nodup) (hmem : (k, v) ∈ m) : getEntry? m k = some v := by
  induction m with
  | nil => simp at hmem
  | cons e rest ih =>
      rcases e with ⟨ke, ve⟩
      rw [keysOf_cons] at hn
      have hn1 : ke ∉ keysOf rest := (List.nodup_cons.mp hn).1
      have hn2 : (keysOf rest).Nodup := (List.nodup_cons.mp hn).2
      rcases List.mem_cons.mp hmem with h1 | h1
      · cases h1.symm
        simp [getEntry?]
      · have hk : ke ≠ k := by
          intro hh
          subst hh
          exact hn1 (List.mem_map_of_mem (fun e => e.1) h1)
        simp [getEntry?, hk, ih hn2 h1]

-- ----------------------------------------------------------------
-- Accumulation folds (the `m.set(k, (m.get(k) || 0) + w)` loops)
-- ----------------------------------------------------------------

lemma sumQ_foldl_add {β : Type} (l : List β) (c : β → Prop) [DecidablePred c]
    (f : β → Str) (w : β → ℚ) (m0 : Entries ℚ) :
    sumQ (l.foldl (fun m b => if c b then addQ m (f b) (w b) else m) m0)
      = sumQ m0 + ((l.filter (fun b => decide (c b))).map w).sum := by
  induction l generalizing m0 with
  | nil => simp
  | cons b rest ih =>
      simp only [List.foldl_cons]
      by_cases hb : c b
      · rw [if_pos hb, ih (addQ m0 (f b) (w b)), sumQ_addQ]
        simp [List.filter_cons, hb]
        try ring
      · rw [if_neg hb, ih m0]
        simp [List.filter_cons, hb]

lemma getQ_foldl_add {β : Type} (l : List β) (c : β → Prop) [DecidablePred c]
    (f : β → Str) (w : β → ℚ) (m0 : Entries ℚ) (k : Str) :
    getQ (l.foldl (fun m b => if c b then addQ m (f b) (w b) else m) m0) k
      = getQ m0 k + ((l.filter (fun b => decide (c b) && decide (f b = k))).map w).sum := by
  induction l generalizing m0 with
  | nil => simp
  | cons b rest ih =>
      simp only [List.foldl_cons]
      by_cases hb : c b
      · rw [if_pos hb, ih (addQ m0 (f b) (w b)), getQ_addQ]
        by_cases hk : f b = k
        · simp [List.filter_cons, hb, hk]
          try ring
        · have hk' : ¬k = f b := fun hh => hk hh.symm
          simp [List.filter_cons, hb, hk, hk']
      · rw [if_neg hb, ih m0]
        simp [List.filter_cons, hb]

lemma mem_keysOf_foldl_add {β : Type} (l : List β) (c : β → Prop) [DecidablePred c]
    (f : β → Str) (w : β → ℚ) (m0 : Entries ℚ) (k : Str) :
    k ∈ keysOf (l.foldl (fun m b => if c b then addQ m (f b) (w b) else m) m0)
      ↔ k ∈ keysOf m0 ∨ ∃ b ∈ l, c b ∧ f b = k := by
  induction l generalizing m0 with
  | nil => simp
  | cons b rest ih =>
      simp only [List.foldl_cons]
      by_cases hb : c b
      · rw [if_pos hb, ih (addQ m0 (f b) (w b))]
        have hmem : k ∈ keysOf (addQ m0 (f b) (w b)) ↔ k = f b ∨ k ∈ keysOf m0 :=
          mem_keysOf_setEntry m0 (f b) k _
        rw [hmem]
        constructor
        · rintro ((h1 | h1) | h1)
          · exact Or.inr ⟨b, List.mem_cons_self _ _, hb, h1.symm⟩
          · exact Or.inl h1
          · rcases h1 with ⟨b1, hb1, hcb1, hfb1⟩
            exact Or.inr ⟨b1, List.mem_cons_of_mem _ hb1, hcb1, hfb1⟩
        · rintro (h1 | ⟨b1, hb1, hcb1, hfb1⟩)
          · exact Or.inl (Or.inr h1)
          · rcases List.mem_cons.mp hb1 with h2 | h2
            · subst h2
              exact Or.inl (Or.inl hfb1.symm)
            · exact Or.inr ⟨b1, h2, hcb1, hfb1⟩
      · rw [if_neg hb, ih m0]
        constructor
        · rintro (h1 | ⟨b1, hb1, hcb1, hfb1⟩)
          · exact Or.inl h1
          · exact Or.inr ⟨b1, List.mem_cons_of_mem _ hb1, hcb1, hfb1⟩
        · rintro (h1 | ⟨b1, hb1, hcb1, hfb1⟩)
          · exact Or.inl h1
          · rcases List.mem_cons.mp hb1 with h2 | h2
            · subst h2
              exact absurd hcb1 hb
            · exact Or.inr ⟨b1, h2, hcb1, hfb1⟩

lemma nodup_keysOf_foldl_add {β : Type} (l : List β) (c : β → Prop) [DecidablePred c]
    (f : β → Str) (w : β → ℚ) (m0 : Entries ℚ) (h0 : (keysOf m0).Nodup) :
    (keysOf (l.foldl (fun m b => if c b then addQ m (f b) (w b) else m) m0)).Nodup := by
  induction l generalizing m0 with
  | nil => simpa
  | cons b rest ih =>
      simp only [List.foldl_cons]
      by_cases hb : c b
      · rw [if_pos hb]
        exact ih (addQ m0 (f b) (w b)) (nodup_keysOf_setEntry m0 (f b) _ h0)
      · rw [if_neg hb]
        exact ih m0 h0

lemma sumQ_foldl_add_all {β : Type} (l : List β) (f : β → Str) (w : β → ℚ) (m0 : Entries ℚ) :
    sumQ (l.foldl (fun m b => addQ m (f b) (w b)) m0) = sumQ m0 + (l.map w).sum := by
  induction l generalizing m0 with
  | nil => simp
  | cons b rest ih =>
      simp only [List.foldl_cons, List.map_cons, List.sum_cons]
      rw [ih (addQ m0 (f b) (w b)), sumQ_addQ]
      ring

lemma getQ_foldl_add_all {β : Type} (l : List β) (f : β → Str) (w : β → ℚ)
    (m0 : Entries ℚ) (k : Str) :
    getQ (l.foldl (fun m b => addQ m (f b) (w b)) m0) k
      = getQ m0 k + ((l.filter (fun b => decide (f b = k))).map w).sum := by
  induction l generalizing m0 with
  | nil => simp
  | cons b rest ih =>
      simp only [List.foldl_cons, List.filter_cons]
      rw [ih (addQ m0 (f b) (w b)), getQ_addQ]
      by_cases hk : f b = k
      · simp [hk]
        try ring
      · have hk' : ¬k = f b := fun hh => hk hh.symm
        simp [hk, hk']

lemma mem_keysOf_foldl_add_all {β : Type} (l : List β) (f : β → Str) (w : β → ℚ)
    (m0 : Entries ℚ) (k : Str) :
    k ∈ keysOf (l.foldl (fun m b => addQ m (f b) (w b)) m0)
      ↔ k ∈ keysOf m0 ∨ ∃ b ∈ l, f b = k := by
  induction l generalizing m0 with
  | nil => simp
  | cons b rest ih =>
      simp only [List.foldl_cons]
      rw [ih (addQ m0 (f b) (w b))]
      have hmem : k ∈ keysOf (addQ m0 (f b) (w b)) ↔ k = f b ∨ k ∈ keysOf m0 :=
        mem_keysOf_setEntry m0 (f b) k _
      rw [hmem]
      constructor
      · rintro ((h1 | h1) | h1)
        · exact Or.inr ⟨b, List.mem_cons_self _ _, h1.symm⟩
        · exact Or.inl h1
        · rcases h1 with ⟨b1, hb1, hfb1⟩
          exact Or.inr ⟨b1, List.mem_cons_of_mem _ hb1, hfb1⟩
      · rintro (h1 | ⟨b1, hb1, hfb1⟩)
        · exact Or.inl (Or.inr h1)
        · rcases List.mem_cons.mp hb1 with h2 | h2
          · subst h2
            exact Or.inl (Or.inl hfb1.symm)
          · exact Or.inr ⟨b1, h2, hfb1⟩

lemma nodup_keysOf_foldl_add_all {β : Type} (l : List β) (f : β → Str) (w : β → ℚ)
    (m0 : Entries ℚ) (h0 : (keysOf m0).Nodup) :
    (keysOf (l.foldl (fun m b => addQ m (f b) (w b)) m0)).Nodup := by
  induction l generalizing m0 with
  | nil => simpa
  | cons b rest ih =>
      simp only [List.foldl_cons]
      exact ih (addQ m0 (f b) (w b)) (nodup_keysOf_setEntry m0 (f b) _ h0)

lemma keysOf_map_snd {α β : Type} (m : Entries α) (g : Str → α → β) :
    keysOf (m.map (fun e => (e.1, g e.1 e.2))) = keysOf m := by
  induction m with
  | nil => rfl
  | cons e rest ih => simp [keysOf] at ih ⊢; try exact ih

lemma sum_map_one {β : Type} (l : List β) : (l.map (fun _ => (1 : ℚ))).sum = l.length := by
  induction l with
  | nil => simp
  | cons b rest ih => simp [ih]; try ring

lemma sumQ_map_div (m : Entries ℚ) (c : ℚ) :
    sumQ (m.map (fun e => (e.1, e.2 / c))) = sumQ m / c := by
  induction m with
  | nil => simp [sumQ]
  | cons e rest ih =>
      simp only [sumQ, List.map_cons, List.sum_cons] at ih ⊢
      rw [ih]
      ring

lemma getQ_map_div (m : Entries ℚ) (c : ℚ) (k : Str) :
    getQ (m.map (fun e => (e.1, e.2 / c))) k = getQ m k / c := by
  induction m with
  | nil => simp [getQ, getEntry?]
  | cons e rest ih =>
      rcases e with ⟨ke, ve⟩
      by_cases hk : ke = k
      · simp [getQ, getEntry?, hk]
      · simpa [getQ, getEntry?, hk] using ih

lemma getD_mem_of_lt {α : Type} (l : List α) (i : ℕ) (d : α) (h : i < l.length) :
    l.getD i d ∈ l := by
  induction l generalizing i with
  | nil => simp at h
  | cons a rest ih =>
      cases i with
      | zero => simp [List.getD]
      | succ n =>
          simp only [List.getD_cons_succ]
          exact List.mem_cons_of_mem _ (ih n (by simpa using h))

lemma keysOf_map_div (m : Entries ℚ) (c : ℚ) :
    keysOf (m.map (fun e => (e.1, e.2 / c))) = keysOf m :=
  keysOf_map_snd m (fun _ v => v / c)

lemma empirical_unfold (v0 : RandomVariable) (vrest : List RandomVariable) (N : ℕ)
    (hN : 0 < N) (h0 : v0.data.length = N) :
    getEmpiricalJointPMF (v0 :: vrest)
      = ((List.range N).foldl
          (fun m i =>
            addQ m (joinComma ((v0 :: vrest).map (fun v => v.data.getD i []))) 1) []).map
          (fun e => (e.1, e.2 / (N : ℚ))) := by
  simp only [getEmpiricalJointPMF, List.head?_cons, h0, if_neg (Nat.pos_iff_ne_zero.mp hN)]

lemma empirical_sumQ (v0 : RandomVariable) (vrest : List RandomVariable) (N : ℕ)
    (hN : 0 < N) (h0 : v0.data.length = N) :
    sumQ (getEmpiricalJointPMF (v0 :: vrest)) = 1 := by
  rw [empirical_unfold v0 vrest N hN h0, sumQ_map_div, sumQ_foldl_add_all]
  have hNQ : (N : ℚ) ≠ 0 := Nat.cast_ne_zero.mpr (Nat.pos_iff_ne_zero.mp hN)
  simp [sum_map_one, sumQ]
  exact div_self hNQ

lemma empirical_keys_characterization (v0 : RandomVariable) (vrest : List RandomVariable)
    (N : ℕ) (hN : 0 < N) (h0 : v0.data.length = N) (k : Str) :
    k ∈ keysOf (getEmpiricalJointPMF (v0 :: vrest))
      ↔ ∃ i ∈ List.range N,
          joinComma ((v0 :: vrest).map (fun v => v.data.getD i [])) = k := by
  rw [empirical_unfold v0 vrest N hN h0, keysOf_map_div, mem_keysOf_foldl_add_all]
  simp [keysOf]

lemma empirical_keys_split (v0 : RandomVariable) (vrest : List RandomVariable)
    (N : ℕ) (hN : 0 < N) (h0 : v0.data.length = N)
    (hlen : ∀ v ∈ v0 :: vrest, v.data.length = N)
    (hfree : ∀ v ∈ v0 :: vrest, ∀ s ∈ v.data, ',' ∉ s) :
    ∀ k ∈ keysOf (getEmpiricalJointPMF (v0 :: vrest)),
      splitComma k = (v0 :: vrest).map (fun v => v.data.getD ((fun j => j) 0) []) →
        True := fun _ _ _ => trivial

lemma empirical_key_split_parts (v0 : RandomVariable) (vrest : List RandomVariable)
    (N i : ℕ) (hi : i < N)
    (hlen : ∀ v ∈ v0 :: vrest, v.data.length = N)
    (hfree : ∀ v ∈ v0 :: vrest, ∀ s ∈ v.data, ',' ∉ s) :
    splitComma (joinComma ((v0 :: vrest).map (fun v => v.data.getD i [])))
      = (v0 :: vrest).map (fun v => v.data.getD i []) := by
  refine splitComma_joinComma _ (by simp) ?_
  intro p hp
  rcases List.mem_map.mp hp with ⟨v, hv, rfl⟩
  have hiv : i < v.data.length := by rw [hlen v hv]; exact hi
  exact hfree v hv _ (getD_mem_of_lt _ _ _ hiv)

lemma empirical_keys_len (v0 : RandomVariable) (vrest : List RandomVariable)
    (N : ℕ) (hN : 0 < N) (h0 : v0.data.length = N)
    (hlen : ∀ v ∈ v0 :: vrest, v.data.length = N)
    (hfree : ∀ v ∈ v0 :: vrest, ∀ s ∈ v.data, ',' ∉ s) :
    ∀ k ∈ keysOf (getEmpiricalJointPMF (v0 :: vrest)),
      (splitComma k).length = (v0 :: vrest).length := by
  intro k hk
  rcases (empirical_keys_characterization v0 vrest N hN h0 k).mp hk with ⟨i, hi, rfl⟩
  rw [empirical_key_split_parts v0 vrest N i (List.mem_range.mp hi) hlen hfree]
  simp

/-- The sum of a marginal equals the sum of the joint when every joint key
has the expected arity (no entry is skipped by the defensive check). -/
lemma sumQ_getMarginalPMF_of_full_arity (jointPMF : Entries ℚ) (idx : List ℕ) (n : ℕ)
    (harity : ∀ k ∈ keysOf jointPMF, (splitComma k).length = n) :
    sumQ (getMarginalPMF jointPMF idx n) = sumQ jointPMF := by
  unfold getMarginalPMF
  rw [sumQ_foldl_add jointPMF (fun e => (splitComma e.1).length = n)
    (fun e => joinComma (idx.map (fun i => (splitComma e.1).getD i []))) (fun e => e.2) []]
  have hfilter : jointPMF.filter (fun e => decide ((splitComma e.1).length = n)) = jointPMF := by
    refine List.filter_eq_self.mpr ?_
    intro e he
    exact decide_eq_true (harity e.1 (List.mem_map_of_mem (fun x => x.1) he))
  rw [hfilter]
  simp [sumQ]

/-- C2. For every non-empty list of variables with equal-length (positive)
data whose cells contain no commas (the shape produced by the input parser),
and every variable index `i`, the single-variable marginal
`getMarginalPMF (getEmpiricalJointPMF vars) [i] numVars` has probabilities
summing to exactly 1 — in particular within the claimed 1e-9 tolerance. -/
theorem C2_single_variable_marginal_sums_to_one (vars : List RandomVariable)
    (i N : ℕ) (hne : vars ≠ []) (hN : 0 < N)
    (hlen : ∀ v ∈ vars, v.data.length = N)
    (hfree : ∀ v ∈ vars, ∀ s ∈ v.data, ',' ∉ s)
    (hi : i < vars.length) :
    sumQ (getMarginalPMF (getEmpiricalJointPMF vars) [i] vars.length) = 1 ∧
    |sumQ (getMarginalPMF (getEmpiricalJointPMF vars) [i] vars.length) - 1|
      ≤ 1 / 1000000000 := by
  rcases List.exists_cons_of_ne_nil hne with ⟨v0, vrest, rfl⟩
  have h0 : v0.data.length = N := hlen v0 (List.mem_cons_self _ _)
  have hmain :
      sumQ (getMarginalPMF (getEmpiricalJointPMF (v0 :: vrest)) [i] (v0 :: vrest).length)
        = 1 := by
    rw [sumQ_getMarginalPMF_of_full_arity _ _ _
      (empirical_keys_len v0 vrest N hN h0 hlen hfree)]
    exact empirical_sumQ v0 vrest N hN h0
  refine ⟨hmain, ?_⟩
  rw [hmain]
  norm_num

/-- Witness for C2 at a concrete dataset: one nominal variable with three
samples. -/
theorem C2_single_variable_marginal_sums_to_one_witness :
    (([⟨['x'], ['X'], [['a'], ['b'], ['a']], VariableType.Nominal, []⟩]
        : List RandomVariable) ≠ [] ∧ (0 : ℕ) < 3) ∧
    sumQ (getMarginalPMF
      (getEmpiricalJointPMF
        [⟨['x'], ['X'], [['a'], ['b'], ['a']], VariableType.Nominal, []⟩]) [0]
      ([(⟨['x'], ['X'], [['a'], ['b'], ['a']], VariableType.Nominal, []⟩ : RandomVariable)]).length) = 1 ∧
    |sumQ (getMarginalPMF
      (getEmpiricalJointPMF
        [⟨['x'], ['X'], [['a'], ['b'], ['a']], VariableType.Nominal, []⟩]) [0]
      ([(⟨['x'], ['X'], [['a'], ['b'], ['a']], VariableType.Nominal, []⟩ : RandomVariable)]).length) - 1|
      ≤ 1 / 1000000000 :=
  ⟨⟨by decide, by decide⟩,
    C2_single_variable_marginal_sums_to_one
      [⟨['x'], ['X'], [['a'], ['b'], ['a']], VariableType.Nominal, []⟩] 0 3
      (by decide) (by decide) (by decide) (by decide) (by decide)⟩
-- ----------------------------------------------------------------
-- Counting machinery for empirical marginals (C3)
-- ----------------------------------------------------------------

lemma countP_split {β : Type} (l : List β) (p q : β → Bool)
    (hdisj : ∀ b ∈ l, ¬(p b = true ∧ q b = true)) :
    l.countP (fun b => p b || q b) = l.countP p + l.countP q := by
  induction l with
  | nil => simp
  | cons b rest ih =>
      have hrest := ih (fun x hx => hdisj x (List.mem_cons_of_mem _ hx))
      rw [List.countP_cons, List.countP_cons, List.countP_cons, hrest]
      by_cases hp : p b
      · have hq : ¬q b = true := fun hq => hdisj b (List.mem_cons_self _ _) ⟨hp, hq⟩
        simp [hp, hq]
        ring
      · simp [hp]
        by_cases hq : q b <;> simp [hq] <;> ring

lemma sum_countP_fiber_and {β : Type} (K : List Str) (hK : K.Nodup) (l : List β)
    (g : β → Str) (Q : β → Bool) :
    (K.map (fun v => (l.countP (fun b => decide (g b = v) && Q b) : ℚ))).sum
      = (l.countP (fun b => decide (g b ∈ K) && Q b) : ℚ) := by
  induction K with
  | nil => simp
  | cons k ks ih =>
      have hk : k ∉ ks := (List.nodup_cons.mp hK).1
      have hks : ks.Nodup := (List.nodup_cons.mp hK).2
      simp only [List.map_cons, List.sum_cons, ih hks]
      have hsplit : l.countP (fun b => decide (g b ∈ k :: ks) && Q b)
          = l.countP (fun b => decide (g b = k) && Q b)
            + l.countP (fun b => decide (g b ∈ ks) && Q b) := by
        rw [← countP_split]
        · refine List.countP_congr ?_
          intro b _
          by_cases h1 : g b = k
          · simp [h1, hk]
          · by_cases h2 : g b ∈ ks <;> simp [h1, h2]
        · intro b _
          rintro ⟨h1, h2⟩
          simp only [Bool.and_eq_true, decide_eq_true_eq] at h1 h2
          exact hk (h1.1 ▸ h2.1)
      rw [hsplit]
      push_cast
      ring

lemma sum_countP_fiber {β : Type} (K : List Str) (hK : K.Nodup) (l : List β)
    (g : β → Str) :
    (K.map (fun v => (l.countP (fun b => decide (g b = v)) : ℚ))).sum
      = (l.countP (fun b => decide (g b ∈ K)) : ℚ) := by
  have h := sum_countP_fiber_and K hK l g (fun _ => true)
  simp only [Bool.and_true] at h
  exact h

lemma entry_value_sum_by_keys (m : Entries ℚ) (hn : (keysOf m).Nodup)
    (P : Str → Prop) [DecidablePred P] :
    (((m.filter (fun en => decide (P en.1))).map (fun en => en.2)).sum
      = (((keysOf m).filter (fun k => decide (P k))).map (fun k => getQ m k)).sum) := by
  induction m with
  | nil => simp [keysOf]
  | cons e rest ih =>
      rcases e with ⟨ke, ve⟩
      rw [keysOf_cons] at hn
      have h1 : ke ∉ keysOf rest := (List.nodup_cons.mp hn).1
      have h2 : (keysOf rest).Nodup := (List.nodup_cons.mp hn).2
      have hgr : (((keysOf rest).filter (fun k => decide (P k))).map
          (fun k => getQ ((ke, ve) :: rest) k)).sum
          = (((keysOf rest).filter (fun k => decide (P k))).map (fun k => getQ rest k)).sum := by
        refine congrArg _ (List.map_congr_left ?_)
        intro k hkmem
        have hkr : k ∈ keysOf rest := (List.mem_filter.mp hkmem).1
        have : ke ≠ k := fun hh => h1 (hh ▸ hkr)
        simp [getQ, getEntry?, this]
      have hself : getQ ((ke, ve) :: rest) ke = ve := by simp [getQ, getEntry?]
      by_cases hP : P ke
      · have hf1 : ((ke, ve) :: rest).filter (fun en => decide (P en.1))
            = (ke, ve) :: rest.filter (fun en => decide (P en.1)) :=
          List.filter_cons_of_pos (by simpa using hP)
        have hf2 : (ke :: keysOf rest).filter (fun k => decide (P k))
            = ke :: (keysOf rest).filter (fun k => decide (P k)) :=
          List.filter_cons_of_pos (by simpa using hP)
        rw [keysOf_cons, hf1, hf2, List.map_cons, List.map_cons, List.sum_cons,
          List.sum_cons, ih h2, hgr, hself]
      · have hf1 : ((ke, ve) :: rest).filter (fun en => decide (P en.1))
            = rest.filter (fun en => decide (P en.1)) :=
          List.filter_cons_of_neg (by simpa using hP)
        have hf2 : (ke :: keysOf rest).filter (fun k => decide (P k))
            = (keysOf rest).filter (fun k => decide (P k)) :=
          List.filter_cons_of_neg (by simpa using hP)
        rw [keysOf_cons, hf1, hf2, ih h2, hgr]

lemma list_sum_map_div {β : Type} (l : List β) (f : β → ℚ) (c : ℚ) :
    (l.map (fun b => f b / c)).sum = (l.map f).sum / c := by
  induction l with
  | nil => simp
  | cons b rest ih => simp [ih]; ring

/-- `getQ` of the empirical joint PMF counts the samples whose outcome key
matches. -/
lemma getQ_empirical (v0 : RandomVariable) (vrest : List RandomVariable) (N : ℕ)
    (hN : 0 < N) (h0 : v0.data.length = N) (k : Str) :
    getQ (getEmpiricalJointPMF (v0 :: vrest)) k
      = ((List.range N).countP (fun s =>
          decide (joinComma ((v0 :: vrest).map (fun v => v.data.getD s [])) = k)) : ℚ)
        / (N : ℚ) := by
  rw [empirical_unfold v0 vrest N hN h0, getQ_map_div, getQ_foldl_add_all]
  simp only [getQ, getEntry?, Option.getD_none]
  rw [sum_map_one, List.countP_eq_length_filter]
  norm_num

/-- `getQ` of a marginal of the empirical joint PMF counts the samples whose
projected tuple matches. -/
lemma getQ_marginal_empirical (v0 : RandomVariable) (vrest : List RandomVariable) (N : ℕ)
    (hN : 0 < N) (h0 : v0.data.length = N)
    (hlen : ∀ v ∈ v0 :: vrest, v.data.length = N)
    (hfree : ∀ v ∈ v0 :: vrest, ∀ s ∈ v.data, ',' ∉ s)
    (idx : List ℕ) (v : Str) :
    getQ (getMarginalPMF (getEmpiricalJointPMF (v0 :: vrest)) idx (v0 :: vrest).length) v
      = ((List.range N).countP (fun s =>
          decide (joinComma (idx.map (fun i2 =>
            (((v0 :: vrest).map (fun vv => vv.data.getD s [])).getD i2 []))) = v)) : ℚ)
        / (N : ℚ) := by
  set e := getEmpiricalJointPMF (v0 :: vrest) with he
  have harity : ∀ k ∈ keysOf e, (splitComma k).length = (v0 :: vrest).length :=
    empirical_keys_len v0 vrest N hN h0 hlen hfree
  unfold getMarginalPMF
  rw [getQ_foldl_add e (fun en => (splitComma en.1).length = (v0 :: vrest).length)
    (fun en => joinComma (idx.map (fun i2 => (splitComma en.1).getD i2 []))) (fun en => en.2) [] v]
  simp only [getQ, getEntry?, Option.getD_none, zero_add]
  have hfcongr : e.filter (fun en =>
      decide ((splitComma en.1).length = (v0 :: vrest).length) &&
        decide (joinComma (idx.map (fun i2 => (splitComma en.1).getD i2 [])) = v))
      = e.filter (fun en =>
        decide (joinComma (idx.map (fun i2 => (splitComma en.1).getD i2 [])) = v)) := by
    refine List.filter_congr ?_
    intro en hen
    have := harity en.1 (List.mem_map_of_mem (fun x => x.1) hen)
    simp [this]
  rw [hfcongr]
  have hnodup : (keysOf e).Nodup := by
    rw [he, empirical_unfold v0 vrest N hN h0, keysOf_map_div]
    exact nodup_keysOf_foldl_add_all _ _ _ _ (by simp [keysOf])
  rw [entry_value_sum_by_keys e hnodup
    (fun k => joinComma (idx.map (fun i2 => (splitComma k).getD i2 [])) = v)]
  have hgetQ : ∀ k ∈ (keysOf e).filter (fun k =>
      decide (joinComma (idx.map (fun i2 => (splitComma k).getD i2 [])) = v)),
      getQ e k = ((List.range N).countP (fun s =>
        decide (joinComma ((v0 :: vrest).map (fun vv => vv.data.getD s [])) = k)) : ℚ) / N := by
    intro k _
    exact getQ_empirical v0 vrest N hN h0 k
  rw [List.map_congr_left hgetQ, list_sum_map_div]
  congr 1
  rw [sum_countP_fiber ((keysOf e).filter (fun k =>
      decide (joinComma (idx.map (fun i2 => (splitComma k).getD i2 [])) = v)))
    (List.Nodup.filter _ hnodup) (List.range N)
    (fun s => joinComma ((v0 :: vrest).map (fun vv => vv.data.getD s [])))]
  refine congrArg _ (List.countP_congr ?_)
  intro s hs
  have hsN : s < N := List.mem_range.mp hs
  have hsplit : splitComma (joinComma ((v0 :: vrest).map (fun vv => vv.data.getD s [])))
      = (v0 :: vrest).map (fun vv => vv.data.getD s []) :=
    empirical_key_split_parts v0 vrest N s hsN hlen hfree
  have hmemkey : joinComma ((v0 :: vrest).map (fun vv => vv.data.getD s [])) ∈ keysOf e := by
    rw [he]
    exact (empirical_keys_characterization v0 vrest N hN h0 _).mpr ⟨s, hs, rfl⟩
  have hiff : (joinComma ((v0 :: vrest).map (fun vv => vv.data.getD s []))
      ∈ (keysOf e).filter (fun k =>
        decide (joinComma (idx.map (fun i2 => (splitComma k).getD i2 [])) = v)))
      ↔ joinComma (idx.map (fun i2 =>
          (((v0 :: vrest).map (fun vv => vv.data.getD s [])).getD i2 []))) = v := by
    rw [List.mem_filter]
    constructor
    · rintro ⟨-, hc⟩
      rw [hsplit] at hc
      exact of_decide_eq_true hc
    · intro hv
      refine ⟨hmemkey, decide_eq_true ?_⟩
      rw [hsplit]
      exact hv
  simpa using hiff

lemma nodup_keysOf_getMarginalPMF (jointPMF : Entries ℚ) (idx : List ℕ) (n : ℕ) :
    (keysOf (getMarginalPMF jointPMF idx n)).Nodup := by
  unfold getMarginalPMF
  exact nodup_keysOf_foldl_add _ _ _ _ [] (by simp [keysOf])

lemma mem_keysOf_marginal_empirical (v0 : RandomVariable) (vrest : List RandomVariable)
    (N : ℕ) (hN : 0 < N) (h0 : v0.data.length = N)
    (hlen : ∀ v ∈ v0 :: vrest, v.data.length = N)
    (hfree : ∀ v ∈ v0 :: vrest, ∀ s ∈ v.data, ',' ∉ s)
    (idx : List ℕ) (k : Str) :
    k ∈ keysOf (getMarginalPMF (getEmpiricalJointPMF (v0 :: vrest)) idx (v0 :: vrest).length)
      ↔ ∃ s ∈ List.range N,
          joinComma (idx.map (fun i2 =>
            (((v0 :: vrest).map (fun vv => vv.data.getD s [])).getD i2 []))) = k := by
  set e := getEmpiricalJointPMF (v0 :: vrest) with he
  have harity : ∀ kk ∈ keysOf e, (splitComma kk).length = (v0 :: vrest).length :=
    empirical_keys_len v0 vrest N hN h0 hlen hfree
  unfold getMarginalPMF
  rw [mem_keysOf_foldl_add e (fun en => (splitComma en.1).length = (v0 :: vrest).length)
    (fun en => joinComma (idx.map (fun i2 => (splitComma en.1).getD i2 []))) (fun en => en.2) [] k]
  simp only [keysOf, List.map_nil, List.not_mem_nil, false_or]
  constructor
  · rintro ⟨en, hen, -, hproj⟩
    have hkey : en.1 ∈ keysOf e := List.mem_map_of_mem (fun x => x.1) hen
    rcases (empirical_keys_characterization v0 vrest N hN h0 en.1).mp hkey with ⟨s, hs, hout⟩
    refine ⟨s, hs, ?_⟩
    have hsplit := empirical_key_split_parts v0 vrest N s (List.mem_range.mp hs) hlen hfree
    rw [← hproj, ← hout, hsplit]
  · rintro ⟨s, hs, hproj⟩
    have hkey : joinComma ((v0 :: vrest).map (fun vv => vv.data.getD s [])) ∈ keysOf e :=
      (empirical_keys_characterization v0 vrest N hN h0 _).mpr ⟨s, hs, rfl⟩
    rcases List.mem_map.mp hkey with ⟨en, hen, hfst⟩
    refine ⟨en, hen, harity en.1 (List.mem_map_of_mem (fun x => x.1) hen), ?_⟩
    have hsplit := empirical_key_split_parts v0 vrest N s (List.mem_range.mp hs) hlen hfree
    rw [hfst, hsplit]
    exact hproj

lemma cell_no_comma (v0 : RandomVariable) (vrest : List RandomVariable) (N s i : ℕ)
    (hs : s < N) (hlen : ∀ v ∈ v0 :: vrest, v.data.length = N)
    (hfree : ∀ v ∈ v0 :: vrest, ∀ t ∈ v.data, ',' ∉ t) :
    ',' ∉ ((v0 :: vrest).map (fun vv => vv.data.getD s [])).getD i [] := by
  by_cases hi : i < ((v0 :: vrest).map (fun vv => vv.data.getD s [])).length
  · have hmem := getD_mem_of_lt _ i [] hi
    rcases List.mem_map.mp hmem with ⟨v, hv, hvv⟩
    rw [← hvv]
    have : s < v.data.length := by rw [hlen v hv]; exact hs
    exact hfree v hv _ (getD_mem_of_lt _ _ _ this)
  · rw [List.getD_eq_default _ _ (by omega)]
    simp

/-- The key pairwise identity: summing the pair marginal over the first
component's observed values yields the second component's marginal. -/
lemma sum_pair_marginal_eq_single (v0 : RandomVariable) (vrest : List RandomVariable)
    (N : ℕ) (hN : 0 < N) (h0 : v0.data.length = N)
    (hlen : ∀ v ∈ v0 :: vrest, v.data.length = N)
    (hfree : ∀ v ∈ v0 :: vrest, ∀ s ∈ v.data, ',' ∉ s)
    (i j : ℕ) (val2 : Str)
    (hval2free : ',' ∉ val2) :
    ((keysOf (getMarginalPMF (getEmpiricalJointPMF (v0 :: vrest)) [i]
        (v0 :: vrest).length)).map (fun val1 =>
      getQ (getMarginalPMF (getEmpiricalJointPMF (v0 :: vrest)) [i, j]
        (v0 :: vrest).length) (join2 val1 val2))).sum
      = getQ (getMarginalPMF (getEmpiricalJointPMF (v0 :: vrest)) [j]
          (v0 :: vrest).length) val2 := by
  set K1 := keysOf (getMarginalPMF (getEmpiricalJointPMF (v0 :: vrest)) [i]
    (v0 :: vrest).length) with hK1
  have hK1nodup : K1.Nodup := nodup_keysOf_getMarginalPMF _ _ _
  have hK1free : ∀ val1 ∈ K1, ',' ∉ val1 := by
    intro val1 hval1
    rcases (mem_keysOf_marginal_empirical v0 vrest N hN h0 hlen hfree [i] val1).mp
      hval1 with ⟨s, hs, hout⟩
    rw [← hout]
    simp only [List.map_cons, List.map_nil, joinComma]
    exact cell_no_comma v0 vrest N s i (List.mem_range.mp hs) hlen hfree
  have hterm : ∀ val1 ∈ K1,
      getQ (getMarginalPMF (getEmpiricalJointPMF (v0 :: vrest)) [i, j]
        (v0 :: vrest).length) (join2 val1 val2)
      = ((List.range N).countP (fun s =>
          decide ((((v0 :: vrest).map (fun vv => vv.data.getD s [])).getD i []) = val1) &&
          decide ((((v0 :: vrest).map (fun vv => vv.data.getD s [])).getD j []) = val2)) : ℚ)
        / (N : ℚ) := by
    intro val1 hval1
    rw [getQ_marginal_empirical v0 vrest N hN h0 hlen hfree [i, j] (join2 val1 val2)]
    congr 2
    refine List.countP_congr ?_
    intro s hs
    have hsN : s < N := List.mem_range.mp hs
    have hinj := join2_inj (a := ((v0 :: vrest).map (fun vv => vv.data.getD s [])).getD i [])
      (b := ((v0 :: vrest).map (fun vv => vv.data.getD s [])).getD j [])
      (c := val1) (d := val2)
      (cell_no_comma v0 vrest N s i hsN hlen hfree) (hK1free val1 hval1)
    constructor
    · intro h
      have h2 := hinj.mp (of_decide_eq_true h)
      exact (Bool.and_eq_true _ _).mpr ⟨decide_eq_true h2.1, decide_eq_true h2.2⟩
    · intro h
      simp only [Bool.and_eq_true, decide_eq_true_eq] at h
      exact decide_eq_true (hinj.mpr h)
  rw [List.map_congr_left hterm, list_sum_map_div, sum_countP_fiber_and K1 hK1nodup
    (List.range N) (fun s => (((v0 :: vrest).map (fun vv => vv.data.getD s [])).getD i []))
    (fun s => decide ((((v0 :: vrest).map (fun vv => vv.data.getD s [])).getD j []) = val2))]
  rw [getQ_marginal_empirical v0 vrest N hN h0 hlen hfree [j] val2]
  congr 2
  refine List.countP_congr ?_
  intro s hs
  have hmem1 : (((v0 :: vrest).map (fun vv => vv.data.getD s [])).getD i []) ∈ K1 := by
    rw [hK1]
    exact (mem_keysOf_marginal_empirical v0 vrest N hN h0 hlen hfree [i] _).mpr
      ⟨s, hs, rfl⟩
  constructor
  · intro h
    simp only [Bool.and_eq_true, decide_eq_true_eq] at h
    exact decide_eq_true h.2
  · intro h
    have h2 := of_decide_eq_true h
    refine (Bool.and_eq_true _ _).mpr ⟨decide_eq_true hmem1, decide_eq_true ?_⟩
    exact h2

/-- The second direction of the pairwise identity: summing the pair marginal
over the second component's observed values yields the first component's
marginal. -/
lemma sum_pair_marginal_eq_single_fst (v0 : RandomVariable) (vrest : List RandomVariable)
    (N : ℕ) (hN : 0 < N) (h0 : v0.data.length = N)
    (hlen : ∀ v ∈ v0 :: vrest, v.data.length = N)
    (hfree : ∀ v ∈ v0 :: vrest, ∀ s ∈ v.data, ',' ∉ s)
    (i j : ℕ) (val1 : Str)
    (hval1free : ',' ∉ val1) :
    ((keysOf (getMarginalPMF (getEmpiricalJointPMF (v0 :: vrest)) [j]
        (v0 :: vrest).length)).map (fun val2 =>
      getQ (getMarginalPMF (getEmpiricalJointPMF (v0 :: vrest)) [i, j]
        (v0 :: vrest).length) (join2 val1 val2))).sum
      = getQ (getMarginalPMF (getEmpiricalJointPMF (v0 :: vrest)) [i]
          (v0 :: vrest).length) val1 := by
  set K2 := keysOf (getMarginalPMF (getEmpiricalJointPMF (v0 :: vrest)) [j]
    (v0 :: vrest).length) with hK2
  have hK2nodup : K2.Nodup := nodup_keysOf_getMarginalPMF _ _ _
  have hterm : ∀ val2 ∈ K2,
      getQ (getMarginalPMF (getEmpiricalJointPMF (v0 :: vrest)) [i, j]
        (v0 :: vrest).length) (join2 val1 val2)
      = ((List.range N).countP (fun s =>
          decide ((((v0 :: vrest).map (fun vv => vv.data.getD s [])).getD j []) = val2) &&
          decide ((((v0 :: vrest).map (fun vv => vv.data.getD s [])).getD i []) = val1)) : ℚ)
        / (N : ℚ) := by
    intro val2 hval2
    rw [getQ_marginal_empirical v0 vrest N hN h0 hlen hfree [i, j] (join2 val1 val2)]
    congr 2
    refine List.countP_congr ?_
    intro s hs
    have hsN : s < N := List.mem_range.mp hs
    have hinj := join2_inj (a := ((v0 :: vrest).map (fun vv => vv.data.getD s [])).getD i [])
      (b := ((v0 :: vrest).map (fun vv => vv.data.getD s [])).getD j [])
      (c := val1) (d := val2)
      (cell_no_comma v0 vrest N s i hsN hlen hfree) hval1free
    constructor
    · intro h
      have h2 := hinj.mp (of_decide_eq_true h)
      exact (Bool.and_eq_true _ _).mpr ⟨decide_eq_true h2.2, decide_eq_true h2.1⟩
    · intro h
      simp only [Bool.and_eq_true, decide_eq_true_eq] at h
      exact decide_eq_true (hinj.mpr ⟨h.2, h.1⟩)
  rw [List.map_congr_left hterm, list_sum_map_div, sum_countP_fiber_and K2 hK2nodup
    (List.range N) (fun s => (((v0 :: vrest).map (fun vv => vv.data.getD s [])).getD j []))
    (fun s => decide ((((v0 :: vrest).map (fun vv => vv.data.getD s [])).getD i []) = val1))]
  rw [getQ_marginal_empirical v0 vrest N hN h0 hlen hfree [i] val1]
  congr 2
  refine List.countP_congr ?_
  intro s hs
  have hmem2 : (((v0 :: vrest).map (fun vv => vv.data.getD s [])).getD j []) ∈ K2 := by
    rw [hK2]
    exact (mem_keysOf_marginal_empirical v0 vrest N hN h0 hlen hfree [j] _).mpr
      ⟨s, hs, rfl⟩
  constructor
  · intro h
    simp only [Bool.and_eq_true, decide_eq_true_eq] at h
    exact decide_eq_true h.2
  · intro h
    have h2 := of_decide_eq_true h
    exact (Bool.and_eq_true _ _).mpr ⟨decide_eq_true hmem2, decide_eq_true h2⟩

-- ----------------------------------------------------------------
-- Stable sort is a permutation; distribution sums are preserved
-- ----------------------------------------------------------------

lemma insertStable_perm {α : Type} (gt : α → α → Bool) (x : α) (l : List α) :
    (insertStable gt x l).Perm (x :: l) := by
  induction l with
  | nil => simp [insertStable]
  | cons y ys ih =>
      by_cases h : gt y x
      · simp [insertStable, h]
      · simp only [insertStable, h, if_false, Bool.false_eq_true]
        exact (ih.cons y).trans (List.Perm.swap x y ys)

lemma sortStable_foldl_perm {α : Type} (gt : α → α → Bool) (l acc : List α) :
    (l.foldl (fun acc x => insertStable gt x acc) acc).Perm (acc ++ l) := by
  induction l generalizing acc with
  | nil => simp
  | cons x xs ih =>
      simp only [List.foldl_cons]
      refine (ih (insertStable gt x acc)).trans ?_
      have h1 : (insertStable gt x acc ++ xs).Perm ((x :: acc) ++ xs) :=
        (insertStable_perm gt x acc).append_right xs
      refine h1.trans ?_
      simpa using List.perm_middle.symm

lemma sortStable_perm {α : Type} (gt : α → α → Bool) (l : List α) :
    (sortStable gt l).Perm l := by
  simpa [sortStable] using sortStable_foldl_perm gt l []

lemma cumulate_map_prob (l : List (JSVal × ℚ)) (acc : ℚ) :
    (cumulate l acc).map (fun p => p.probability) = l.map (fun p => p.2) := by
  induction l generalizing acc with
  | nil => simp [cumulate]
  | cons p rest ih => simp [cumulate, ih]

/-- The probabilities of `pmfToDistribution` sum to the total mass of the
input PMF map (sorting permutes, cumulation preserves each probability). -/
lemma sum_prob_pmfToDistribution (pmf : Entries ℚ) (type : VariableType)
    (ordinalOrder : List Str) :
    ((pmfToDistribution pmf type ordinalOrder).map (fun p => p.probability)).sum
      = sumQ pmf := by
  unfold pmfToDistribution
  rw [cumulate_map_prob]
  have hperm := (sortStable_perm (fun a b => sortCmpGt type ordinalOrder a.1 b.1)
    (pmf.map (fun e =>
      ((if type = VariableType.Numerical then
          match jsNum e.1 with
          | some q => JSVal.num q
          | none => JSVal.nan
        else JSVal.str e.1), e.2)))).map (fun p => p.2)
  rw [hperm.sum_eq]
  rw [List.map_map]
  rfl

-- ----------------------------------------------------------------
-- `new Map(pairs)` on duplicate-free pairs
-- ----------------------------------------------------------------

lemma setEntry_append_of_not_mem {α : Type} (m : Entries α) (k : Str) (v : α)
    (h : k ∉ keysOf m) : setEntry m k v = m ++ [(k, v)] := by
  induction m with
  | nil => simp [setEntry]
  | cons e rest ih =>
      rcases e with ⟨ke, ve⟩
      rw [keysOf_cons] at h
      have h1 : ke ≠ k := by
        intro hh
        exact h (by rw [hh]; exact List.mem_cons_self _ _)
      have h2 : k ∉ keysOf rest := fun hh => h (List.mem_cons_of_mem _ hh)
      simp [setEntry, h1, ih h2]

lemma foldl_setEntry_append (l : List (Str × ℚ)) (acc : Entries ℚ)
    (hn : (l.map (fun e => e.1)).Nodup) (hdisj : ∀ e ∈ l, e.1 ∉ keysOf acc) :
    l.foldl (fun m e => setEntry m e.1 e.2) acc = acc ++ l := by
  induction l generalizing acc with
  | nil => simp
  | cons e es ih =>
      simp only [List.foldl_cons]
      have hstep : setEntry acc e.1 e.2 = acc ++ [(e.1, e.2)] :=
        setEntry_append_of_not_mem acc e.1 e.2 (hdisj e (List.mem_cons_self _ _))
      rw [hstep]
      have hn2 : (es.map (fun x => x.1)).Nodup := (List.nodup_cons.mp hn).2
      have hdisj2 : ∀ x ∈ es, x.1 ∉ keysOf (acc ++ [(e.1, e.2)]) := by
        intro x hx hmem
        have : keysOf (acc ++ [(e.1, e.2)]) = keysOf acc ++ [e.1] := by
          simp [keysOf]
        rw [this] at hmem
        rcases List.mem_append.mp hmem with hmem | hmem
        · exact hdisj x (List.mem_cons_of_mem _ hx) hmem
        · have hxe : x.1 = e.1 := by simpa using hmem
          have hx1 : x.1 ∈ es.map (fun y => y.1) := List.mem_map_of_mem (fun y => y.1) hx
          rw [hxe] at hx1
          exact (List.nodup_cons.mp hn).1 hx1
      rw [ih (acc ++ [(e.1, e.2)]) hn2 hdisj2]
      simp

lemma jsNewMap_eq_self (l : List (Str × ℚ)) (hn : (l.map (fun e => e.1)).Nodup) :
    jsNewMap l = l := by
  unfold jsNewMap
  rw [foldl_setEntry_append l [] hn (by simp [keysOf])]
  simp

-- ----------------------------------------------------------------
-- The skip-or-push folds of `getConditionalDistributions`
-- ----------------------------------------------------------------

lemma foldl_skip_push_getD {β γ : Type} (l : List β) (c : β → Prop) [DecidablePred c]
    (f : β → γ) (kname : Str) (init : Entries (List γ)) :
    (getEntry? (l.foldl (fun results e =>
        if c e then results
        else setEntry results kname ((getEntry? results kname).getD [] ++ [f e])) init)
      kname).getD []
    = (getEntry? init kname).getD [] ++ ((l.filter (fun e => !decide (c e))).map f) := by
  induction l generalizing init with
  | nil => simp
  | cons e es ih =>
      simp only [List.foldl_cons, List.filter_cons]
      by_cases hc : c e
      · rw [if_pos hc, ih init]
        simp [hc]
      · rw [if_neg hc,
          ih (setEntry init kname ((getEntry? init kname).getD [] ++ [f e]))]
        rw [getEntry?_setEntry_self]
        simp [hc]

lemma foldl_skip_push_other {β γ : Type} (l : List β) (c : β → Prop) [DecidablePred c]
    (f : β → γ) (kname k' : Str) (hne : kname ≠ k') (init : Entries (List γ)) :
    getEntry? (l.foldl (fun results e =>
        if c e then results
        else setEntry results kname ((getEntry? results kname).getD [] ++ [f e])) init)
      k'
    = getEntry? init k' := by
  induction l generalizing init with
  | nil => simp
  | cons e es ih =>
      simp only [List.foldl_cons]
      by_cases hc : c e
      · rw [if_pos hc, ih init]
      · rw [if_neg hc,
          ih (setEntry init kname ((getEntry? init kname).getD [] ++ [f e])),
          getEntry?_setEntry_ne _ _ _ _ hne]

lemma mkConditionalResult_conditionValue (cv gv : RandomVariable) (c : Str)
    (pairs : List (Str × ℚ)) : (mkConditionalResult cv gv c pairs).conditionValue = c := by
  unfold mkConditionalResult
  by_cases h : cv.type = VariableType.Numerical <;> simp [h]

lemma mkConditionalResult_distribution (cv gv : RandomVariable) (c : Str)
    (pairs : List (Str × ℚ)) :
    (mkConditionalResult cv gv c pairs).distribution
      = pmfToDistribution (jsNewMap pairs) cv.type cv.ordinalOrder := by
  unfold mkConditionalResult
  by_cases h : cv.type = VariableType.Numerical <;> simp [h]

/-- The list stored under the second variable's name: one conditional per
entry of the second marginal with probability at least 1e-9. -/
lemma getConditionalDistributions_snd_list (jointPMF m1 m2 : Entries ℚ)
    (var1 var2 : RandomVariable) (hname : var1.name ≠ var2.name) :
    (getEntry? (getConditionalDistributions jointPMF m1 m2 var1 var2) var2.name).getD []
      = ((m2.filter (fun e2 => !decide (e2.2 < (1 : ℚ) / 1000000000))).map (fun e2 =>
          mkConditionalResult var1 var2 e2.1
            (m1.map (fun e1 => (e1.1, getQ jointPMF (join2 e1.1 e2.1) / e2.2))))) := by
  unfold getConditionalDistributions
  rw [foldl_skip_push_other m1 (fun e1 => e1.2 < (1 : ℚ) / 1000000000) _ var1.name var2.name
    hname]
  rw [foldl_skip_push_getD m2 (fun e2 => e2.2 < (1 : ℚ) / 1000000000) _ var2.name]
  rw [getEntry?_setEntry_self]
  simp

/-- The list stored under the first variable's name: one conditional per
entry of the first marginal with probability at least 1e-9. -/
lemma getConditionalDistributions_fst_list (jointPMF m1 m2 : Entries ℚ)
    (var1 var2 : RandomVariable) (hname : var1.name ≠ var2.name) :
    (getEntry? (getConditionalDistributions jointPMF m1 m2 var1 var2) var1.name).getD []
      = ((m1.filter (fun e1 => !decide (e1.2 < (1 : ℚ) / 1000000000))).map (fun e1 =>
          mkConditionalResult var2 var1 e1.1
            (m2.map (fun e2 => (e2.1, getQ jointPMF (join2 e1.1 e2.1) / e1.2))))) := by
  unfold getConditionalDistributions
  rw [foldl_skip_push_getD m1 (fun e1 => e1.2 < (1 : ℚ) / 1000000000) _ var1.name]
  rw [foldl_skip_push_other m2 (fun e2 => e2.2 < (1 : ℚ) / 1000000000) _ var2.name var1.name
    (fun h => hname h.symm)]
  rw [getEntry?_setEntry_ne _ _ _ _ (fun h => hname h.symm), getEntry?_setEntry_self]
  simp

lemma keysOf_map_of_fst_eq {α : Type} (m : Entries ℚ) (f : Str × ℚ → Str × α)
    (hf : ∀ e, (f e).1 = e.1) : keysOf (m.map f) = keysOf m := by
  unfold keysOf
  rw [List.map_map]
  exact List.map_congr_left (fun e _ => hf e)

lemma single_marginal_key_no_comma (v0 : RandomVariable) (vrest : List RandomVariable)
    (N : ℕ) (hN : 0 < N) (h0 : v0.data.length = N)
    (hlen : ∀ v ∈ v0 :: vrest, v.data.length = N)
    (hfree : ∀ v ∈ v0 :: vrest, ∀ s ∈ v.data, ',' ∉ s)
    (j : ℕ) (k : Str)
    (hk : k ∈ keysOf (getMarginalPMF (getEmpiricalJointPMF (v0 :: vrest)) [j]
      (v0 :: vrest).length)) : ',' ∉ k := by
  rcases (mem_keysOf_marginal_empirical v0 vrest N hN h0 hlen hfree [j] k).mp hk
    with ⟨s, hs, hout⟩
  rw [← hout]
  exact cell_no_comma v0 vrest N s j (List.mem_range.mp hs) hlen hfree

lemma sumQ_condPairs (jointPMF mOther : Entries ℚ) (c : Str) (p : ℚ) :
    sumQ (mOther.map (fun e1 => (e1.1, getQ jointPMF (join2 e1.1 c) / p)))
      = ((keysOf mOther).map (fun v => getQ jointPMF (join2 v c))).sum / p := by
  unfold sumQ keysOf
  rw [List.map_map, List.map_map]
  rw [show ((fun e => e.2) ∘ fun e1 => (e1.1, getQ jointPMF (join2 e1.1 c) / p))
    = fun e1 : Str × ℚ => getQ jointPMF (join2 e1.1 c) / p from rfl]
  rw [show ((fun v => getQ jointPMF (join2 v c)) ∘ fun e : Str × ℚ => e.1)
    = fun e1 : Str × ℚ => getQ jointPMF (join2 e1.1 c) from rfl]
  exact list_sum_map_div mOther (fun e1 => getQ jointPMF (join2 e1.1 c)) p

/-- C3. Applied to the pair joint PMF and the two single marginals derived
from the same empirical joint PMF, `getConditionalDistributions` produces,
for every conditioning value whose marginal probability is at least 1e-9
(and only for those — values below the threshold yield no entry, so no
division by zero occurs), a conditional distribution over the target
variable whose probabilities sum exactly to 1.  Both directions are stated. -/
theorem C3_conditional_distributions_normalized (vars : List RandomVariable)
    (i j N : ℕ) (hne : vars ≠ []) (hN : 0 < N)
    (hlen : ∀ v ∈ vars, v.data.length = N)
    (hfree : ∀ v ∈ vars, ∀ s ∈ v.data, ',' ∉ s)
    (hname : (vars.getD i default).name ≠ (vars.getD j default).name) :
    (∀ r ∈ (getEntry? (getConditionalDistributions
        (getMarginalPMF (getEmpiricalJointPMF vars) [i, j] vars.length)
        (getMarginalPMF (getEmpiricalJointPMF vars) [i] vars.length)
        (getMarginalPMF (getEmpiricalJointPMF vars) [j] vars.length)
        (vars.getD i default) (vars.getD j default)) (vars.getD j default).name).getD [],
      (1 : ℚ) / 1000000000
          ≤ getQ (getMarginalPMF (getEmpiricalJointPMF vars) [j] vars.length)
              r.conditionValue
        ∧ (r.distribution.map (fun p => p.probability)).sum = 1) ∧
    (∀ r ∈ (getEntry? (getConditionalDistributions
        (getMarginalPMF (getEmpiricalJointPMF vars) [i, j] vars.length)
        (getMarginalPMF (getEmpiricalJointPMF vars) [i] vars.length)
        (getMarginalPMF (getEmpiricalJointPMF vars) [j] vars.length)
        (vars.getD i default) (vars.getD j default)) (vars.getD i default).name).getD [],
      (1 : ℚ) / 1000000000
          ≤ getQ (getMarginalPMF (getEmpiricalJointPMF vars) [i] vars.length)
              r.conditionValue
        ∧ (r.distribution.map (fun p => p.probability)).sum = 1) := by
  rcases List.exists_cons_of_ne_nil hne with ⟨v0, vrest, rfl⟩
  have h0 : v0.data.length = N := hlen v0 (List.mem_cons_self _ _)
  set joint := getMarginalPMF (getEmpiricalJointPMF (v0 :: vrest)) [i, j]
    (v0 :: vrest).length with hjoint
  set m1 := getMarginalPMF (getEmpiricalJointPMF (v0 :: vrest)) [i]
    (v0 :: vrest).length with hm1
  set m2 := getMarginalPMF (getEmpiricalJointPMF (v0 :: vrest)) [j]
    (v0 :: vrest).length with hm2
  have hm1nodup : (keysOf m1).Nodup := nodup_keysOf_getMarginalPMF _ _ _
  have hm2nodup : (keysOf m2).Nodup := nodup_keysOf_getMarginalPMF _ _ _
  constructor
  · intro r hr
    rw [getConditionalDistributions_snd_list joint m1 m2 _ _ hname] at hr
    rcases List.mem_map.mp hr with ⟨e2, he2f, hre⟩
    have he2 : e2 ∈ m2 := (List.mem_filter.mp he2f).1
    have hkeep : ¬(e2.2 < (1 : ℚ) / 1000000000) := by
      have := (List.mem_filter.mp he2f).2
      simpa using this
    have hthr : (1 : ℚ) / 1000000000 ≤ e2.2 := le_of_not_lt hkeep
    have he2pos : e2.2 ≠ 0 := by
      intro h
      rw [h] at hthr
      norm_num at hthr
    have hg2 : getQ m2 e2.1 = e2.2 := by
      have hmem : (e2.1, e2.2) ∈ m2 := by
        rw [Prod.mk.eta]
        exact he2
      simp [getQ, getEntry?_of_mem_of_nodup m2 e2.1 e2.2 hm2nodup hmem]
    have hcv : r.conditionValue = e2.1 := by
      rw [← hre, mkConditionalResult_conditionValue]
    constructor
    · rw [hcv, hg2]
      exact hthr
    · rw [← hre, mkConditionalResult_distribution]
      rw [sum_prob_pmfToDistribution, jsNewMap_eq_self _ (by
        show (keysOf (m1.map (fun e1 => (e1.1, getQ joint (join2 e1.1 e2.1) / e2.2)))).Nodup
        rw [keysOf_map_of_fst_eq m1
          (fun e1 => (e1.1, getQ joint (join2 e1.1 e2.1) / e2.2)) (fun e => rfl)]
        exact hm1nodup)]
      rw [sumQ_condPairs joint m1 e2.1 e2.2]
      have hfreec : ',' ∉ e2.1 :=
        single_marginal_key_no_comma v0 vrest N hN h0 hlen hfree j e2.1
          (List.mem_map_of_mem (fun x => x.1) he2)
      rw [hm1, hjoint, sum_pair_marginal_eq_single v0 vrest N hN h0 hlen hfree i j e2.1
        hfreec]
      rw [← hm2, hg2]
      exact div_self he2pos
  · intro r hr
    rw [getConditionalDistributions_fst_list joint m1 m2 _ _ hname] at hr
    rcases List.mem_map.mp hr with ⟨e1, he1f, hre⟩
    have he1 : e1 ∈ m1 := (List.mem_filter.mp he1f).1
    have hkeep : ¬(e1.2 < (1 : ℚ) / 1000000000) := by
      have := (List.mem_filter.mp he1f).2
      simpa using this
    have hthr : (1 : ℚ) / 1000000000 ≤ e1.2 := le_of_not_lt hkeep
    have he1pos : e1.2 ≠ 0 := by
      intro h
      rw [h] at hthr
      norm_num at hthr
    have hg1 : getQ m1 e1.1 = e1.2 := by
      have hmem : (e1.1, e1.2) ∈ m1 := by
        rw [Prod.mk.eta]
        exact he1
      simp [getQ, getEntry?_of_mem_of_nodup m1 e1.1 e1.2 hm1nodup hmem]
    have hcv : r.conditionValue = e1.1 := by
      rw [← hre, mkConditionalResult_conditionValue]
    constructor
    · rw [hcv, hg1]
      exact hthr
    · rw [← hre, mkConditionalResult_distribution]
      rw [sum_prob_pmfToDistribution, jsNewMap_eq_self _ (by
        show (keysOf (m2.map (fun e2 => (e2.1, getQ joint (join2 e1.1 e2.1) / e1.2)))).Nodup
        rw [keysOf_map_of_fst_eq m2
          (fun e2 => (e2.1, getQ joint (join2 e1.1 e2.1) / e1.2)) (fun e => rfl)]
        exact hm2nodup)]
      have hsum2 : sumQ (m2.map (fun e2 => (e2.1, getQ joint (join2 e1.1 e2.1) / e1.2)))
          = ((keysOf m2).map (fun v => getQ joint (join2 e1.1 v))).sum / e1.2 := by
        unfold sumQ keysOf
        rw [List.map_map, List.map_map]
        exact list_sum_map_div m2 (fun e2 => getQ joint (join2 e1.1 e2.1)) e1.2
      rw [hsum2]
      have hfreec : ',' ∉ e1.1 :=
        single_marginal_key_no_comma v0 vrest N hN h0 hlen hfree i e1.1
          (List.mem_map_of_mem (fun x => x.1) he1)
      rw [hm2, hjoint, sum_pair_marginal_eq_single_fst v0 vrest N hN h0 hlen hfree i j e1.1
        hfreec]
      rw [← hm1, hg1]
      exact div_self he1pos

/-- Witness for C3 at a concrete two-variable dataset. -/
theorem C3_conditional_distributions_normalized_witness :
    (([(⟨['x'], ['X'], [['a'], ['b']], VariableType.Nominal, []⟩ : RandomVariable),
        ⟨['y'], ['Y'], [['c'], ['d']], VariableType.Nominal, []⟩] : List RandomVariable) ≠ []
      ∧ (([(⟨['x'], ['X'], [['a'], ['b']], VariableType.Nominal, []⟩ : RandomVariable),
          ⟨['y'], ['Y'], [['c'], ['d']], VariableType.Nominal, []⟩].getD 0 default).name
        ≠ ([(⟨['x'], ['X'], [['a'], ['b']], VariableType.Nominal, []⟩ : RandomVariable),
          ⟨['y'], ['Y'], [['c'], ['d']], VariableType.Nominal, []⟩].getD 1 default).name)) ∧
    ((∀ r ∈ (getEntry? (getConditionalDistributions
        (getMarginalPMF (getEmpiricalJointPMF
          [⟨['x'], ['X'], [['a'], ['b']], VariableType.Nominal, []⟩,
            ⟨['y'], ['Y'], [['c'], ['d']], VariableType.Nominal, []⟩]) [0, 1]
          ([(⟨['x'], ['X'], [['a'], ['b']], VariableType.Nominal, []⟩ : RandomVariable),
            ⟨['y'], ['Y'], [['c'], ['d']], VariableType.Nominal, []⟩]).length)
        (getMarginalPMF (getEmpiricalJointPMF
          [⟨['x'], ['X'], [['a'], ['b']], VariableType.Nominal, []⟩,
            ⟨['y'], ['Y'], [['c'], ['d']], VariableType.Nominal, []⟩]) [0]
          ([(⟨['x'], ['X'], [['a'], ['b']], VariableType.Nominal, []⟩ : RandomVariable),
            ⟨['y'], ['Y'], [['c'], ['d']], VariableType.Nominal, []⟩]).length)
        (getMarginalPMF (getEmpiricalJointPMF
          [⟨['x'], ['X'], [['a'], ['b']], VariableType.Nominal, []⟩,
            ⟨['y'], ['Y'], [['c'], ['d']], VariableType.Nominal, []⟩]) [1]
          ([(⟨['x'], ['X'], [['a'], ['b']], VariableType.Nominal, []⟩ : RandomVariable),
            ⟨['y'], ['Y'], [['c'], ['d']], VariableType.Nominal, []⟩]).length)
        ([(⟨['x'], ['X'], [['a'], ['b']], VariableType.Nominal, []⟩ : RandomVariable),
            ⟨['y'], ['Y'], [['c'], ['d']], VariableType.Nominal, []⟩].getD 0 default)
        ([(⟨['x'], ['X'], [['a'], ['b']], VariableType.Nominal, []⟩ : RandomVariable),
            ⟨['y'], ['Y'], [['c'], ['d']], VariableType.Nominal, []⟩].getD 1 default))
        ([(⟨['x'], ['X'], [['a'], ['b']], VariableType.Nominal, []⟩ : RandomVariable),
            ⟨['y'], ['Y'], [['c'], ['d']], VariableType.Nominal, []⟩].getD 1 default).name).getD [],
      (1 : ℚ) / 1000000000
          ≤ getQ (getMarginalPMF (getEmpiricalJointPMF
              [⟨['x'], ['X'], [['a'], ['b']], VariableType.Nominal, []⟩,
                ⟨['y'], ['Y'], [['c'], ['d']], VariableType.Nominal, []⟩]) [1]
              ([(⟨['x'], ['X'], [['a'], ['b']], VariableType.Nominal, []⟩ : RandomVariable),
                ⟨['y'], ['Y'], [['c'], ['d']], VariableType.Nominal, []⟩]).length)
              r.conditionValue
        ∧ (r.distribution.map (fun p => p.probability)).sum = 1) ∧
      (∀ r ∈ (getEntry? (getConditionalDistributions
        (getMarginalPMF (getEmpiricalJointPMF
          [⟨['x'], ['X'], [['a'], ['b']], VariableType.Nominal, []⟩,
            ⟨['y'], ['Y'], [['c'], ['d']], VariableType.Nominal, []⟩]) [0, 1]
          ([(⟨['x'], ['X'], [['a'], ['b']], VariableType.Nominal, []⟩ : RandomVariable),
            ⟨['y'], ['Y'], [['c'], ['d']], VariableType.Nominal, []⟩]).length)
        (getMarginalPMF (getEmpiricalJointPMF
          [⟨['x'], ['X'], [['a'], ['b']], VariableType.Nominal, []⟩,
            ⟨['y'], ['Y'], [['c'], ['d']], VariableType.Nominal, []⟩]) [0]
          ([(⟨['x'], ['X'], [['a'], ['b']], VariableType.Nominal, []⟩ : RandomVariable),
            ⟨['y'], ['Y'], [['c'], ['d']], VariableType.Nominal, []⟩]).length)
        (getMarginalPMF (getEmpiricalJointPMF
          [⟨['x'], ['X'], [['a'], ['b']], VariableType.Nominal, []⟩,
            ⟨['y'], ['Y'], [['c'], ['d']], VariableType.Nominal, []⟩]) [1]
          ([(⟨['x'], ['X'], [['a'], ['b']], VariableType.Nominal, []⟩ : RandomVariable),
            ⟨['y'], ['Y'], [['c'], ['d']], VariableType.Nominal, []⟩]).length)
        ([(⟨['x'], ['X'], [['a'], ['b']], VariableType.Nominal, []⟩ : RandomVariable),
            ⟨['y'], ['Y'], [['c'], ['d']], VariableType.Nominal, []⟩].getD 0 default)
        ([(⟨['x'], ['X'], [['a'], ['b']], VariableType.Nominal, []⟩ : RandomVariable),
            ⟨['y'], ['Y'], [['c'], ['d']], VariableType.Nominal, []⟩].getD 1 default))
        ([(⟨['x'], ['X'], [['a'], ['b']], VariableType.Nominal, []⟩ : RandomVariable),
            ⟨['y'], ['Y'], [['c'], ['d']], VariableType.Nominal, []⟩].getD 0 default).name).getD [],
      (1 : ℚ) / 1000000000
          ≤ getQ (getMarginalPMF (getEmpiricalJointPMF
              [⟨['x'], ['X'], [['a'], ['b']], VariableType.Nominal, []⟩,
                ⟨['y'], ['Y'], [['c'], ['d']], VariableType.Nominal, []⟩]) [0]
              ([(⟨['x'], ['X'], [['a'], ['b']], VariableType.Nominal, []⟩ : RandomVariable),
                ⟨['y'], ['Y'], [['c'], ['d']], VariableType.Nominal, []⟩]).length)
              r.conditionValue
        ∧ (r.distribution.map (fun p => p.probability)).sum = 1)) :=
  ⟨⟨by decide, by decide⟩,
    C3_conditional_distributions_normalized
      [⟨['x'], ['X'], [['a'], ['b']], VariableType.Nominal, []⟩,
        ⟨['y'], ['Y'], [['c'], ['d']], VariableType.Nominal, []⟩] 0 1 2
      (by decide) (by decide) (by decide) (by decide) (by decide)⟩

-- ----------------------------------------------------------------
-- `[...new Set(...)]` facts and sums over key unions (C4, C5)
-- ----------------------------------------------------------------

lemma mem_dedupFirst_foldl {α : Type} [DecidableEq α] (l acc : List α) (x : α) :
    x ∈ l.foldl (fun acc y => if y ∈ acc then acc else acc ++ [y]) acc
      ↔ x ∈ acc ∨ x ∈ l := by
  induction l generalizing acc with
  | nil => simp
  | cons y ys ih =>
      simp only [List.foldl_cons]
      by_cases h : y ∈ acc
      · rw [if_pos h, ih acc]
        constructor
        · rintro (h1 | h1)
          · exact Or.inl h1
          · exact Or.inr (List.mem_cons_of_mem _ h1)
        · rintro (h1 | h1)
          · exact Or.inl h1
          · rcases List.mem_cons.mp h1 with h2 | h2
            · exact Or.inl (h2 ▸ h)
            · exact Or.inr h2
      · rw [if_neg h, ih (acc ++ [y])]
        simp only [List.mem_append, List.mem_singleton, List.mem_cons,
          List.not_mem_nil, or_false]
        tauto

lemma mem_dedupFirst {α : Type} [DecidableEq α] (l : List α) (x : α) :
    x ∈ dedupFirst l ↔ x ∈ l := by
  unfold dedupFirst
  rw [mem_dedupFirst_foldl]
  simp

lemma nodup_dedupFirst_foldl {α : Type} [DecidableEq α] (l acc : List α)
    (hacc : acc.Nodup) :
    (l.foldl (fun acc y => if y ∈ acc then acc else acc ++ [y]) acc).Nodup := by
  induction l generalizing acc with
  | nil => simpa
  | cons y ys ih =>
      simp only [List.foldl_cons]
      by_cases h : y ∈ acc
      · rw [if_pos h]
        exact ih acc hacc
      · rw [if_neg h]
        refine ih (acc ++ [y]) ?_
        have hperm : (acc ++ [y]).Perm (y :: acc) := List.perm_append_singleton y acc
        rw [hperm.nodup_iff]
        exact List.nodup_cons.mpr ⟨h, hacc⟩

lemma nodup_dedupFirst {α : Type} [DecidableEq α] (l : List α) : (dedupFirst l).Nodup :=
  nodup_dedupFirst_foldl l [] (by simp)

lemma getQ_nonneg (p : Entries ℚ) (hp : ∀ e ∈ p, 0 ≤ e.2) (k : Str) : 0 ≤ getQ p k := by
  induction p with
  | nil => simp [getQ, getEntry?]
  | cons e rest ih =>
      rcases e with ⟨ke, ve⟩
      by_cases h : ke = k
      · simpa [getQ, getEntry?, h] using hp (ke, ve) (List.mem_cons_self _ _)
      · simpa [getQ, getEntry?, h] using
          ih (fun x hx => hp x (List.mem_cons_of_mem _ hx))

lemma sum_map_add_reals {α : Type} (l : List α) (f g : α → ℝ) :
    (l.map (fun x => f x + g x)).sum = (l.map f).sum + (l.map g).sum := by
  induction l with
  | nil => simp
  | cons x xs ih => simp [ih]; ring

lemma list_sum_eq_zero_iff_real (l : List ℝ) (h : ∀ x ∈ l, 0 ≤ x) :
    l.sum = 0 ↔ ∀ x ∈ l, x = 0 := by
  induction l with
  | nil => simp
  | cons x xs ih =>
      have hx : 0 ≤ x := h x (List.mem_cons_self _ _)
      have hxs : ∀ y ∈ xs, 0 ≤ y := fun y hy => h y (List.mem_cons_of_mem _ hy)
      have hsum : 0 ≤ xs.sum := List.sum_nonneg hxs
      simp only [List.sum_cons, List.mem_cons]
      constructor
      · intro h0
        have hx0 : x = 0 := by linarith [hsum, hx, h0.le, h0.ge]
        have hxs0 : xs.sum = 0 := by linarith
        intro y hy
        rcases hy with rfl | hy
        · exact hx0
        · exact (ih hxs).mp hxs0 y hy
      · intro hall
        have hx0 : x = 0 := hall x (Or.inl rfl)
        have : xs.sum = 0 := (ih hxs).mpr (fun y hy => hall y (Or.inr hy))
        rw [hx0, this, add_zero]

lemma sum_map_eq_filter_of_zero {α : Type} (l : List α) (P : α → Prop) [DecidablePred P]
    (f : α → ℝ) (h0 : ∀ x ∈ l, ¬P x → f x = 0) :
    (l.map f).sum = ((l.filter (fun x => decide (P x))).map f).sum := by
  induction l with
  | nil => simp
  | cons x xs ih =>
      have ih2 := ih (fun y hy => h0 y (List.mem_cons_of_mem _ hy))
      by_cases hP : P x
      · rw [List.filter_cons_of_pos (by simpa using hP)]
        simp [ih2]
      · rw [List.filter_cons_of_neg (by simpa using hP)]
        simp [h0 x (List.mem_cons_self _ _) hP, ih2]

lemma sum_map_eq_of_same_mem {α : Type} [DecidableEq α] (l1 l2 : List α)
    (h1 : l1.Nodup) (h2 : l2.Nodup) (hmem : ∀ x, x ∈ l1 ↔ x ∈ l2) (f : α → ℝ) :
    (l1.map f).sum = (l2.map f).sum :=
  (((List.perm_ext_iff_of_nodup h1 h2).mpr hmem).map f).sum_eq

/-- The sum of `getQ p` over any duplicate-free superset of the keys of a
normalized well-formed PMF is 1. -/
lemma sum_getQ_over_superset (p : Entries ℚ) (K : List Str) (hp : WFPMF1 p)
    (hK : K.Nodup) (hsub : ∀ k ∈ keysOf p, k ∈ K) :
    (K.map (fun k => ((getQ p k : ℚ) : ℝ))).sum = 1 := by
  rcases hp with ⟨⟨hnodup, hnn⟩, hsum⟩
  rw [sum_map_eq_filter_of_zero K (fun k => k ∈ keysOf p) _ (by
    intro k _ hk
    rw [getQ_eq_zero_of_not_mem p k hk]
    simp)]
  have hfmem : ∀ x, x ∈ K.filter (fun k => decide (k ∈ keysOf p)) ↔ x ∈ keysOf p := by
    intro x
    rw [List.mem_filter]
    constructor
    · rintro ⟨-, h⟩
      exact of_decide_eq_true h
    · intro h
      exact ⟨hsub x h, decide_eq_true h⟩
  rw [sum_map_eq_of_same_mem _ _ (List.Nodup.filter _ hK) hnodup hfmem]
  have : ((keysOf p).map (fun k => ((getQ p k : ℚ) : ℝ))).sum
      = (((keysOf p).map (fun k => getQ p k)).sum : ℝ) := by
    induction keysOf p with
    | nil => simp
    | cons k ks ih => simp [ih]
  rw [this]
  have hkey : ((keysOf p).map (fun k => getQ p k)).sum = sumQ p := by
    have h := entry_value_sum_by_keys p hnodup (fun _ => True)
    simp only [decide_True, List.filter_true] at h
    rw [← h]
    rfl
  rw [hkey, hsum]
  simp

/-- C4: for well-formed normalized PMF maps, `calculateHellingerDistance` is
symmetric, lies in `[0, 1]`, and is zero exactly when the two PMFs agree on
every key. -/
theorem C4_hellinger_symmetric_bounded_zero_iff (p1 p2 : Entries ℚ)
    (h1 : WFPMF1 p1) (h2 : WFPMF1 p2) :
    calculateHellingerDistance p1 p2 = calculateHellingerDistance p2 p1 ∧
    0 ≤ calculateHellingerDistance p1 p2 ∧
    calculateHellingerDistance p1 p2 ≤ 1 ∧
    (calculateHellingerDistance p1 p2 = 0 ↔ ∀ k, getQ p1 k = getQ p2 k) := by
  have hnn1 : ∀ k, (0:ℝ) ≤ (getQ p1 k : ℝ) := fun k => by
    exact_mod_cast getQ_nonneg p1 h1.1.2 k
  have hnn2 : ∀ k, (0:ℝ) ≤ (getQ p2 k : ℝ) := fun k => by
    exact_mod_cast getQ_nonneg p2 h2.1.2 k
  have hs2pos : (0:ℝ) < Real.sqrt 2 := Real.sqrt_pos.mpr (by norm_num)
  have hKnodup : (dedupFirst (keysOf p1 ++ keysOf p2)).Nodup := nodup_dedupFirst _
  have hSnn : (0:ℝ) ≤ ((dedupFirst (keysOf p1 ++ keysOf p2)).map (fun k =>
      (Real.sqrt (getQ p1 k) - Real.sqrt (getQ p2 k)) ^ 2)).sum := by
    apply List.sum_nonneg
    intro x hx
    rcases List.mem_map.mp hx with ⟨k, -, rfl⟩
    exact sq_nonneg _
  refine ⟨?_, ?_, ?_, ?_⟩
  · -- symmetry
    have hmem : ∀ x, x ∈ dedupFirst (keysOf p1 ++ keysOf p2)
        ↔ x ∈ dedupFirst (keysOf p2 ++ keysOf p1) := by
      intro x
      rw [mem_dedupFirst, mem_dedupFirst, List.mem_append, List.mem_append]
      tauto
    have hsum := sum_map_eq_of_same_mem _ _ (nodup_dedupFirst _) (nodup_dedupFirst _)
      hmem (fun k => (Real.sqrt (getQ p1 k) - Real.sqrt (getQ p2 k)) ^ 2)
    have hfg : (fun k => (Real.sqrt (getQ p1 k) - Real.sqrt (getQ p2 k)) ^ 2)
        = (fun k => (Real.sqrt (getQ p2 k) - Real.sqrt (getQ p1 k)) ^ 2) := by
      funext k
      ring
    show (1 / Real.sqrt 2) * Real.sqrt ((List.map (fun k =>
        (Real.sqrt (getQ p1 k) - Real.sqrt (getQ p2 k)) ^ 2)
        (dedupFirst (keysOf p1 ++ keysOf p2))).sum)
      = (1 / Real.sqrt 2) * Real.sqrt ((List.map (fun k =>
        (Real.sqrt (getQ p2 k) - Real.sqrt (getQ p1 k)) ^ 2)
        (dedupFirst (keysOf p2 ++ keysOf p1))).sum)
    rw [hsum, hfg]
  · -- nonnegativity
    unfold calculateHellingerDistance
    positivity
  · -- upper bound
    have hterm : ∀ k ∈ dedupFirst (keysOf p1 ++ keysOf p2),
        (Real.sqrt (getQ p1 k) - Real.sqrt (getQ p2 k)) ^ 2
          ≤ (getQ p1 k : ℝ) + (getQ p2 k : ℝ) := by
      intro k _
      have e1 : Real.sqrt (getQ p1 k) ^ 2 = (getQ p1 k : ℝ) := Real.sq_sqrt (hnn1 k)
      have e2 : Real.sqrt (getQ p2 k) ^ 2 = (getQ p2 k : ℝ) := Real.sq_sqrt (hnn2 k)
      have hsnn : 0 ≤ Real.sqrt (getQ p1 k) * Real.sqrt (getQ p2 k) := by positivity
      nlinarith
    have hsum1 : ((dedupFirst (keysOf p1 ++ keysOf p2)).map
        (fun k => ((getQ p1 k : ℚ) : ℝ))).sum = 1 := by
      apply sum_getQ_over_superset p1 _ h1 hKnodup
      intro k hk
      rw [mem_dedupFirst, List.mem_append]
      exact Or.inl hk
    have hsum2 : ((dedupFirst (keysOf p1 ++ keysOf p2)).map
        (fun k => ((getQ p2 k : ℚ) : ℝ))).sum = 1 := by
      apply sum_getQ_over_superset p2 _ h2 hKnodup
      intro k hk
      rw [mem_dedupFirst, List.mem_append]
      exact Or.inr hk
    have hS2 : ((dedupFirst (keysOf p1 ++ keysOf p2)).map (fun k =>
        (Real.sqrt (getQ p1 k) - Real.sqrt (getQ p2 k)) ^ 2)).sum ≤ 2 := by
      calc ((dedupFirst (keysOf p1 ++ keysOf p2)).map (fun k =>
            (Real.sqrt (getQ p1 k) - Real.sqrt (getQ p2 k)) ^ 2)).sum
          ≤ ((dedupFirst (keysOf p1 ++ keysOf p2)).map (fun k =>
            ((getQ p1 k : ℚ) : ℝ) + ((getQ p2 k : ℚ) : ℝ))).sum := by
            apply List.sum_le_sum
            intro k hk
            exact hterm k hk
        _ = 2 := by
            rw [sum_map_add_reals, hsum1, hsum2]
            norm_num
    unfold calculateHellingerDistance
    have hle : Real.sqrt ((dedupFirst (keysOf p1 ++ keysOf p2)).map (fun k =>
        (Real.sqrt (getQ p1 k) - Real.sqrt (getQ p2 k)) ^ 2)).sum ≤ Real.sqrt 2 :=
      Real.sqrt_le_sqrt hS2
    calc (1 / Real.sqrt 2) * Real.sqrt ((dedupFirst (keysOf p1 ++ keysOf p2)).map
          (fun k => (Real.sqrt (getQ p1 k) - Real.sqrt (getQ p2 k)) ^ 2)).sum
        ≤ (1 / Real.sqrt 2) * Real.sqrt 2 :=
          mul_le_mul_of_nonneg_left hle (by positivity)
      _ = 1 := by
          rw [one_div, inv_mul_cancel₀ (ne_of_gt hs2pos)]
  · -- zero iff identical
    unfold calculateHellingerDistance
    rw [mul_eq_zero]
    have h12 : ¬((1:ℝ) / Real.sqrt 2 = 0) := by positivity
    rw [or_iff_right h12, Real.sqrt_eq_zero hSnn,
      list_sum_eq_zero_iff_real _ (by
        intro x hx
        rcases List.mem_map.mp hx with ⟨k, -, rfl⟩
        exact sq_nonneg _)]
    constructor
    · intro hall k
      by_cases hk : k ∈ dedupFirst (keysOf p1 ++ keysOf p2)
      · have h0 := hall _ (List.mem_map.mpr ⟨k, hk, rfl⟩)
        have hsq : Real.sqrt (getQ p1 k) = Real.sqrt (getQ p2 k) := by
          have := sq_eq_zero_iff.mp h0
          linarith [this]
        have : ((getQ p1 k : ℚ) : ℝ) = ((getQ p2 k : ℚ) : ℝ) :=
          (Real.sqrt_inj (hnn1 k) (hnn2 k)).mp hsq
        exact_mod_cast this
      · rw [mem_dedupFirst, List.mem_append] at hk
        push_neg at hk
        rw [getQ_eq_zero_of_not_mem p1 k hk.1, getQ_eq_zero_of_not_mem p2 k hk.2]
    · intro heq x hx
      rcases List.mem_map.mp hx with ⟨k, -, rfl⟩
      rw [heq k]
      ring

/-- Concrete instantiation of the C4 theorem at a one-point PMF. -/
theorem C4_hellinger_symmetric_bounded_zero_iff_witness :
    WFPMF1 [(['a'], (1:ℚ))] ∧
    (0 ≤ calculateHellingerDistance [(['a'], (1:ℚ))] [(['a'], (1:ℚ))] ∧
     calculateHellingerDistance [(['a'], (1:ℚ))] [(['a'], (1:ℚ))] ≤ 1) :=
  ⟨by simp [WFPMF1, WFPMF, sumQ, keysOf],
   (C4_hellinger_symmetric_bounded_zero_iff [(['a'], (1:ℚ))] [(['a'], (1:ℚ))]
      (by simp [WFPMF1, WFPMF, sumQ, keysOf]) (by simp [WFPMF1, WFPMF, sumQ, keysOf])).2.1,
   (C4_hellinger_symmetric_bounded_zero_iff [(['a'], (1:ℚ))] [(['a'], (1:ℚ))]
      (by simp [WFPMF1, WFPMF, sumQ, keysOf]) (by simp [WFPMF1, WFPMF, sumQ, keysOf])).2.2.1⟩

-- ----------------------------------------------------------------
-- Generalized Jensen-Shannon divergence support (C5)
-- ----------------------------------------------------------------

lemma sum_map_eq_filter_of_zeroM {α M : Type} [AddCommMonoid M] (l : List α)
    (P : α → Prop) [DecidablePred P] (f : α → M) (h0 : ∀ x ∈ l, ¬P x → f x = 0) :
    (l.map f).sum = ((l.filter (fun x => decide (P x))).map f).sum := by
  induction l with
  | nil => simp
  | cons x xs ih =>
      have ih2 := ih (fun y hy => h0 y (List.mem_cons_of_mem _ hy))
      by_cases hP : P x
      · rw [List.filter_cons_of_pos (by simpa using hP)]
        simp [ih2]
      · rw [List.filter_cons_of_neg (by simpa using hP)]
        simp [h0 x (List.mem_cons_self _ _) hP, ih2]

lemma sum_map_eq_of_same_memM {α M : Type} [DecidableEq α] [AddCommMonoid M]
    (l1 l2 : List α) (h1 : l1.Nodup) (h2 : l2.Nodup)
    (hmem : ∀ x, x ∈ l1 ↔ x ∈ l2) (f : α → M) :
    (l1.map f).sum = (l2.map f).sum :=
  (((List.perm_ext_iff_of_nodup h1 h2).mpr hmem).map f).sum_eq

/-- Rational-valued version of `sum_getQ_over_superset`. -/
lemma sum_getQ_over_superset_q (p : Entries ℚ) (K : List Str) (hp : WFPMF1 p)
    (hK : K.Nodup) (hsub : ∀ k ∈ keysOf p, k ∈ K) :
    (K.map (fun k => getQ p k)).sum = 1 := by
  rcases hp with ⟨⟨hnodup, _⟩, hsum⟩
  rw [sum_map_eq_filter_of_zeroM K (fun k => k ∈ keysOf p) _ (by
    intro k _ hk
    exact getQ_eq_zero_of_not_mem p k hk)]
  have hfmem : ∀ x, x ∈ K.filter (fun k => decide (k ∈ keysOf p)) ↔ x ∈ keysOf p := by
    intro x
    rw [List.mem_filter]
    constructor
    · rintro ⟨-, h⟩
      exact of_decide_eq_true h
    · intro h
      exact ⟨hsub x h, decide_eq_true h⟩
  rw [sum_map_eq_of_same_memM _ _ (List.Nodup.filter _ hK) hnodup hfmem]
  have hkey : ((keysOf p).map (fun k => getQ p k)).sum = sumQ p := by
    have h := entry_value_sum_by_keys p hnodup (fun _ => True)
    simp only [decide_True, List.filter_true] at h
    rw [← h]
    rfl
  rw [hkey, hsum]

lemma cast_list_sum_q (l : List ℚ) :
    ((l.sum : ℚ) : ℝ) = (l.map (fun q : ℚ => (q:ℝ))).sum := by
  induction l with
  | nil => simp
  | cons q qs ih => push_cast [ih]; simp [ih]

/-- Summing any function of the values of a map with duplicate-free keys is
the same as summing that function of `getQ` over the key list. -/
lemma entry_fn_sum_by_keys (m : Entries ℚ) (hn : (keysOf m).Nodup) (G : ℚ → ℝ) :
    (m.map (fun e => G e.2)).sum = ((keysOf m).map (fun k => G (getQ m k))).sum := by
  induction m with
  | nil => simp [keysOf]
  | cons e rest ih =>
      rw [keysOf_cons] at hn
      have hne : e.1 ∉ keysOf rest := (List.nodup_cons.mp hn).1
      have hrest : (keysOf rest).Nodup := (List.nodup_cons.mp hn).2
      rw [keysOf_cons]
      simp only [List.map_cons, List.sum_cons]
      have hself : getQ (e :: rest) e.1 = e.2 := by
        rcases e with ⟨ke, ve⟩
        simp [getQ, getEntry?]
      have hcong : (keysOf rest).map (fun k => G (getQ (e :: rest) k))
          = (keysOf rest).map (fun k => G (getQ rest k)) := by
        apply List.map_congr_left
        intro k hk
        have hkne : e.1 ≠ k := fun h => hne (h ▸ hk)
        rcases e with ⟨ke, ve⟩
        simp [getQ, getEntry?, hkne]
      rw [hself, hcong, ih hrest]

/-- Summing a function of `getQ` that vanishes at 0 over a duplicate-free
superset of the keys is the same as summing it over the keys. -/
lemma sum_fn_getQ_over_superset (p : Entries ℚ) (K : List Str)
    (hn : (keysOf p).Nodup) (hK : K.Nodup) (hsub : ∀ k ∈ keysOf p, k ∈ K)
    (G : ℚ → ℝ) (hG0 : G 0 = 0) :
    (K.map (fun k => G (getQ p k))).sum = ((keysOf p).map (fun k => G (getQ p k))).sum := by
  rw [sum_map_eq_filter_of_zeroM K (fun k => k ∈ keysOf p) _ (by
    intro k _ hk
    rw [getQ_eq_zero_of_not_mem p k hk, hG0])]
  apply sum_map_eq_of_same_memM _ _ (List.Nodup.filter _ hK) hn
  intro x
  rw [List.mem_filter]
  constructor
  · rintro ⟨-, h⟩
    exact of_decide_eq_true h
  · intro h
    exact ⟨hsub x h, decide_eq_true h⟩

lemma sum_map_addM {α M : Type} [AddCommMonoid M] (l : List α) (f g : α → M) :
    (l.map (fun x => f x + g x)).sum = (l.map f).sum + (l.map g).sum := by
  induction l with
  | nil => simp
  | cons x xs ih =>
      simp only [List.map_cons, List.sum_cons, ih]
      abel

lemma list_sum_comm {α β M : Type} [AddCommMonoid M] (l1 : List α) (l2 : List β)
    (F : α → β → M) :
    (l1.map (fun a => (l2.map (fun b => F a b)).sum)).sum
      = (l2.map (fun b => (l1.map (fun a => F a b)).sum)).sum := by
  induction l1 with
  | nil => simp
  | cons a as ih =>
      simp only [List.map_cons, List.sum_cons, ih]
      rw [sum_map_addM l2 (fun b => F a b) (fun b => (as.map (fun a => F a b)).sum)]

lemma sum_map_div_reals {α : Type} (l : List α) (f : α → ℝ) (c : ℝ) :
    (l.map (fun x => f x / c)).sum = (l.map f).sum / c := by
  induction l with
  | nil => simp
  | cons x xs ih => simp [ih]; ring

/-- Tangent-line bound for `negMulLog` at a point `m > 0`: the function lies
below its tangent, with equality exactly at the point of tangency. -/
lemma negMulLog_tangent (x m : ℝ) (hx : 0 ≤ x) (hm : 0 < m) :
    Real.negMulLog x ≤ Real.negMulLog m + (-Real.log m - 1) * (x - m) ∧
    (Real.negMulLog x = Real.negMulLog m + (-Real.log m - 1) * (x - m) ↔ x = m) := by
  rcases eq_or_lt_of_le hx with hx0 | hxpos
  · -- x = 0: the tangent value is m > 0 while negMulLog 0 = 0
    have hxm : (0:ℝ) ≠ m := ne_of_lt hm
    have hval : Real.negMulLog m + (-Real.log m - 1) * ((0:ℝ) - m) = m := by
      rw [Real.negMulLog]
      ring
    constructor
    · rw [← hx0, Real.negMulLog_zero, hval]
      exact hm.le
    · rw [← hx0, Real.negMulLog_zero, hval]
  · -- x > 0: from log (m/x) ≤ m/x − 1, strict unless m = x
    have hmx : (0:ℝ) < m / x := div_pos hm hxpos
    have hlog : Real.log (m / x) ≤ m / x - 1 := Real.log_le_sub_one_of_pos hmx
    have hexp : Real.log (m / x) = Real.log m - Real.log x :=
      Real.log_div (ne_of_gt hm) (ne_of_gt hxpos)
    have hkey : x * (Real.log m - Real.log x) ≤ m - x := by
      have h2 := mul_le_mul_of_nonneg_left hlog hxpos.le
      rw [hexp] at h2
      have h3 : x * (m / x - 1) = m - x := by field_simp
      linarith
    constructor
    · rw [Real.negMulLog, Real.negMulLog]
      nlinarith [hkey]
    · constructor
      · intro heq
        by_contra hne
        have hne2 : m / x ≠ 1 := by
          intro h
          exact hne ((div_eq_one_iff_eq (ne_of_gt hxpos)).mp h).symm
        have hstrict : Real.log (m / x) < m / x - 1 :=
          Real.log_lt_sub_one_of_pos hmx hne2
        have hkey2 : x * (Real.log m - Real.log x) < m - x := by
          have h2 := mul_lt_mul_of_pos_left hstrict hxpos
          rw [hexp] at h2
          have h3 : x * (m / x - 1) = m - x := by field_simp
          linarith
        rw [Real.negMulLog, Real.negMulLog] at heq
        nlinarith [hkey2]
      · intro h
        rw [h]
        ring

lemma sum_map_const_real {α : Type} (l : List α) (a : ℝ) :
    (l.map (fun _ => a)).sum = l.length * a := by
  induction l with
  | nil => simp
  | cons x xs ih => simp [ih]; ring

lemma sum_map_sub_reals {α : Type} (l : List α) (f g : α → ℝ) :
    (l.map (fun x => f x - g x)).sum = (l.map f).sum - (l.map g).sum := by
  induction l with
  | nil => simp
  | cons x xs ih => simp [ih]; ring

lemma sum_map_mul_left_real {α : Type} (l : List α) (c : ℝ) (f : α → ℝ) :
    (l.map (fun x => c * f x)).sum = c * (l.map f).sum := by
  induction l with
  | nil => simp
  | cons x xs ih => simp [ih]; ring

lemma sum_map_id_real (l : List ℝ) : (l.map (fun x => x)).sum = l.sum := by
  simp

/-- Strict Jensen inequality for `negMulLog` on a list of nonnegative reals:
the mean of the values of `negMulLog` is at most `negMulLog` of the mean,
with equality exactly when all list elements are equal to the mean. -/
lemma jensen_negMulLog_list (l : List ℝ) (hl : ∀ x ∈ l, 0 ≤ x) (hne : l ≠ []) :
    (l.map Real.negMulLog).sum / l.length ≤ Real.negMulLog (l.sum / l.length) ∧
    ((l.map Real.negMulLog).sum / l.length = Real.negMulLog (l.sum / l.length) ↔
      ∀ x ∈ l, x = l.sum / l.length) := by
  have hn : (0:ℝ) < l.length := by
    have : 0 < l.length := List.length_pos.mpr hne
    exact_mod_cast this
  by_cases hs : l.sum = 0
  · -- all elements vanish, both sides are 0
    have hall : ∀ x ∈ l, x = 0 := (list_sum_eq_zero_iff_real l hl).mp hs
    have hmap : l.map Real.negMulLog = l.map (fun _ => (0:ℝ)) := by
      apply List.map_congr_left
      intro x hx
      rw [hall x hx, Real.negMulLog_zero]
    rw [hmap, sum_map_const_real, hs]
    simp only [mul_zero, zero_div, Real.negMulLog_zero]
    refine ⟨le_refl 0, ?_⟩
    constructor
    · intro _
      exact hall
    · intro _
      trivial
  · -- positive total mass: tangent-line argument at the mean
    have hspos : 0 < l.sum := lt_of_le_of_ne (List.sum_nonneg hl) (Ne.symm hs)
    set m := l.sum / l.length with hm_def
    have hm : 0 < m := div_pos hspos hn
    set c := -Real.log m - 1 with hc_def
    have hlm : (l.length : ℝ) * m = l.sum := by
      rw [hm_def]
      field_simp
    have htan : ∀ x ∈ l, Real.negMulLog x ≤ Real.negMulLog m + c * (x - m) :=
      fun x hx => (negMulLog_tangent x m (hl x hx) hm).1
    have htan_iff : ∀ x ∈ l,
        (Real.negMulLog m + c * (x - m)) - Real.negMulLog x = 0 ↔ x = m := by
      intro x hx
      rw [sub_eq_zero]
      constructor
      · intro h
        exact (negMulLog_tangent x m (hl x hx) hm).2.mp h.symm
      · intro h
        exact ((negMulLog_tangent x m (hl x hx) hm).2.mpr h).symm
    have hSumTan : (l.map (fun x => Real.negMulLog m + c * (x - m))).sum
        = (l.length : ℝ) * Real.negMulLog m := by
      rw [sum_map_addM l (fun _ => Real.negMulLog m) (fun x => c * (x - m))]
      rw [sum_map_const_real, sum_map_mul_left_real]
      have : (l.map (fun x => x - m)).sum = l.sum - (l.length : ℝ) * m := by
        rw [sum_map_sub_reals l (fun x => x) (fun _ => m), sum_map_id_real,
          sum_map_const_real]
      rw [this, hlm]
      ring
    have hd_nonneg : ∀ y ∈ l.map (fun x =>
        (Real.negMulLog m + c * (x - m)) - Real.negMulLog x), 0 ≤ y := by
      intro y hy
      rcases List.mem_map.mp hy with ⟨x, hx, rfl⟩
      exact sub_nonneg.mpr (htan x hx)
    have hSumD : (l.map (fun x =>
        (Real.negMulLog m + c * (x - m)) - Real.negMulLog x)).sum
        = (l.length : ℝ) * Real.negMulLog m - (l.map Real.negMulLog).sum := by
      rw [sum_map_sub_reals l (fun x => Real.negMulLog m + c * (x - m)) Real.negMulLog,
        hSumTan]
    have hSumD_nonneg : 0 ≤ (l.map (fun x =>
        (Real.negMulLog m + c * (x - m)) - Real.negMulLog x)).sum :=
      List.sum_nonneg hd_nonneg
    constructor
    · rw [div_le_iff hn]
      nlinarith [hSumD_nonneg, hSumD]
    · rw [div_eq_iff (ne_of_gt hn)]
      constructor
      · intro heq
        have hzero : (l.map (fun x =>
            (Real.negMulLog m + c * (x - m)) - Real.negMulLog x)).sum = 0 := by
          rw [hSumD]
          nlinarith [heq]
        have hall := (list_sum_eq_zero_iff_real _ hd_nonneg).mp hzero
        intro x hx
        exact (htan_iff x hx).mp (hall _ (List.mem_map.mpr ⟨x, hx, rfl⟩))
      · intro hall
        have hzero : (l.map (fun x =>
            (Real.negMulLog m + c * (x - m)) - Real.negMulLog x)).sum = 0 := by
          apply (list_sum_eq_zero_iff_real _ hd_nonneg).mpr
          intro y hy
          rcases List.mem_map.mp hy with ⟨x, hx, rfl⟩
          exact (htan_iff x hx).mpr (hall x hx)
        rw [hSumD] at hzero
        nlinarith [hzero]

/-- With total mass exactly 1, `calculateShannonEntropy` takes its else
branch and the internal renormalization is the identity. -/
lemma shannonEntropy_of_sum_one (p : Entries ℚ) (hsum : sumQ p = 1) :
    calculateShannonEntropy p
      = (p.map (fun e => if 0 < e.2
          then -(((e.2 : ℚ) : ℝ) * Real.logb 2 ((e.2 : ℚ) : ℝ)) else 0)).sum := by
  show (if |sumQ p| < 1 / 1000000000 then (0:ℝ)
      else (p.map (fun e => if 0 < e.2
        then -(((e.2 / sumQ p : ℚ) : ℝ) * Real.logb 2 ((e.2 / sumQ p : ℚ) : ℝ))
        else 0)).sum) = _
  rw [hsum]
  rw [if_neg (by norm_num)]
  simp only [div_one]

/-- The per-entry entropy term is `negMulLog` in nats divided by `log 2`. -/
lemma entropy_term_eq_negMulLog (q : ℚ) (hq : 0 ≤ q) :
    (if 0 < q then -(((q : ℚ) : ℝ) * Real.logb 2 ((q : ℚ) : ℝ)) else 0)
      = Real.negMulLog ((q : ℚ) : ℝ) / Real.log 2 := by
  rcases eq_or_lt_of_le hq with hq0 | hqpos
  · rw [if_neg (by rw [← hq0]; exact lt_irrefl 0), ← hq0]
    simp [Real.negMulLog_zero]
  · rw [if_pos hqpos, Real.negMulLog, Real.logb]
    ring

/-- Entropy of a well-formed normalized PMF as a `negMulLog` sum over any
duplicate-free superset of its keys. -/
lemma shannonEntropy_superset (p : Entries ℚ) (K : List Str) (hwf : WFPMF1 p)
    (hK : K.Nodup) (hsub : ∀ k ∈ keysOf p, k ∈ K) :
    calculateShannonEntropy p
      = (K.map (fun k => Real.negMulLog ((getQ p k : ℚ) : ℝ))).sum / Real.log 2 := by
  rcases hwf with ⟨⟨hnodup, hnn⟩, hsum⟩
  rw [shannonEntropy_of_sum_one p hsum]
  rw [entry_fn_sum_by_keys p hnodup (fun q => if 0 < q
    then -(((q : ℚ) : ℝ) * Real.logb 2 ((q : ℚ) : ℝ)) else 0)]
  have hconv : (keysOf p).map (fun k => if 0 < getQ p k
      then -(((getQ p k : ℚ) : ℝ) * Real.logb 2 ((getQ p k : ℚ) : ℝ)) else 0)
      = (keysOf p).map (fun k => Real.negMulLog ((getQ p k : ℚ) : ℝ) / Real.log 2) := by
    apply List.map_congr_left
    intro k _
    exact entropy_term_eq_negMulLog (getQ p k) (getQ_nonneg p hnn k)
  rw [hconv, sum_map_div_reals]
  congr 1
  exact (sum_fn_getQ_over_superset p K hnodup hK hsub
    (fun q => Real.negMulLog ((q : ℚ) : ℝ)) (by simp [Real.negMulLog_zero])).symm

lemma mean_of_const (l : List ℝ) (c : ℝ) (hne : l ≠ []) (h : ∀ x ∈ l, x = c) :
    ∀ x ∈ l, x = l.sum / l.length := by
  have hn : (0:ℝ) < l.length := by
    have : 0 < l.length := List.length_pos.mpr hne
    exact_mod_cast this
  have hmap : l.map (fun x => x) = l.map (fun _ => c) := List.map_congr_left h
  have hsum : l.sum = l.length * c := by
    rw [← sum_map_id_real l, hmap, sum_map_const_real]
  intro x hx
  rw [h x hx, hsum]
  field_simp

/-- C5: for two or more well-formed normalized PMFs,
`calculateGeneralizedJensenShannonDivergence` is nonnegative and vanishes
exactly when all the input PMFs assign identical probability to every key. -/
theorem C5_gjs_nonneg_zero_iff (pmfs : List (Entries ℚ))
    (hlen : 2 ≤ pmfs.length) (hwf : ∀ p ∈ pmfs, WFPMF1 p) :
    0 ≤ calculateGeneralizedJensenShannonDivergence pmfs ∧
    (calculateGeneralizedJensenShannonDivergence pmfs = 0 ↔
      ∀ p ∈ pmfs, ∀ q ∈ pmfs, ∀ k, getQ p k = getQ q k) := by
  have hne : pmfs ≠ [] := by
    intro h
    rw [h] at hlen
    norm_num at hlen
  have hnpos : 0 < pmfs.length := lt_of_lt_of_le (by norm_num) hlen
  have hnQ : ((pmfs.length : ℚ)) ≠ 0 := by
    exact_mod_cast Nat.pos_iff_ne_zero.mp hnpos
  have hnR : (0:ℝ) < (pmfs.length : ℝ) := by exact_mod_cast hnpos
  have hlog2 : (0:ℝ) < Real.log 2 := Real.log_pos (by norm_num)
  set K := dedupFirst (pmfs.flatMap (fun p => keysOf p)) with hK_def
  have hKnodup : K.Nodup := nodup_dedupFirst _
  have hsubK : ∀ p ∈ pmfs, ∀ k ∈ keysOf p, k ∈ K := by
    intro p hp k hk
    rw [hK_def, mem_dedupFirst, List.mem_flatMap]
    exact ⟨p, hp, hk⟩
  have hGJS : calculateGeneralizedJensenShannonDivergence pmfs
      = max 0 (calculateShannonEntropy (K.map (fun k =>
            (k, (pmfs.map (fun p => getQ p k)).sum / (pmfs.length : ℚ))))
        - (pmfs.map (fun p => calculateShannonEntropy p)).sum / (pmfs.length : ℝ)) := by
    unfold calculateGeneralizedJensenShannonDivergence
    rw [if_neg (by omega)]
  have hmixnn : ∀ k, (0:ℚ) ≤ (pmfs.map (fun p => getQ p k)).sum / (pmfs.length : ℚ) := by
    intro k
    apply div_nonneg _ (by positivity)
    apply List.sum_nonneg
    intro x hx
    rcases List.mem_map.mp hx with ⟨p, hp, rfl⟩
    exact getQ_nonneg p (hwf p hp).1.2 k
  have hsumMix : sumQ (K.map (fun k =>
      (k, (pmfs.map (fun p => getQ p k)).sum / (pmfs.length : ℚ)))) = 1 := by
    unfold sumQ
    rw [List.map_map]
    have h1 : ((fun e : Str × ℚ => e.2) ∘ (fun k =>
        (k, (pmfs.map (fun p => getQ p k)).sum / (pmfs.length : ℚ))))
        = fun k => (pmfs.map (fun p => getQ p k)).sum / (pmfs.length : ℚ) := rfl
    rw [h1, list_sum_map_div, list_sum_comm]
    have h2 : pmfs.map (fun p => (K.map (fun k => getQ p k)).sum)
        = pmfs.map (fun _ => (1:ℚ)) := by
      apply List.map_congr_left
      intro p hp
      exact sum_getQ_over_superset_q p K (hwf p hp) hKnodup (hsubK p hp)
    rw [h2, sum_map_one, div_self hnQ]
  have hM_eq : calculateShannonEntropy (K.map (fun k =>
      (k, (pmfs.map (fun p => getQ p k)).sum / (pmfs.length : ℚ))))
      = (K.map (fun k => Real.negMulLog
          ((((pmfs.map (fun p => getQ p k)).sum / (pmfs.length : ℚ) : ℚ)) : ℝ))).sum
        / Real.log 2 := by
    rw [shannonEntropy_of_sum_one _ hsumMix, List.map_map]
    have h1 : K.map ((fun e : Str × ℚ => if 0 < e.2
        then -(((e.2 : ℚ) : ℝ) * Real.logb 2 ((e.2 : ℚ) : ℝ)) else 0) ∘ (fun k =>
          (k, (pmfs.map (fun p => getQ p k)).sum / (pmfs.length : ℚ))))
        = K.map (fun k => Real.negMulLog
            ((((pmfs.map (fun p => getQ p k)).sum / (pmfs.length : ℚ) : ℚ)) : ℝ)
          / Real.log 2) := by
      apply List.map_congr_left
      intro k _
      exact entropy_term_eq_negMulLog _ (hmixnn k)
    rw [h1, sum_map_div_reals]
  have hMean_eq : (pmfs.map (fun p => calculateShannonEntropy p)).sum / (pmfs.length : ℝ)
      = (K.map (fun k => (pmfs.map (fun p =>
          Real.negMulLog ((getQ p k : ℚ) : ℝ))).sum / (pmfs.length : ℝ))).sum
        / Real.log 2 := by
    have h1 : pmfs.map (fun p => calculateShannonEntropy p)
        = pmfs.map (fun p =>
            (K.map (fun k => Real.negMulLog ((getQ p k : ℚ) : ℝ))).sum / Real.log 2) := by
      apply List.map_congr_left
      intro p hp
      exact shannonEntropy_superset p K (hwf p hp) hKnodup (hsubK p hp)
    rw [h1, sum_map_div_reals,
      list_sum_comm pmfs K (fun p k => Real.negMulLog ((getQ p k : ℚ) : ℝ)),
      sum_map_div_reals K
        (fun k => (pmfs.map (fun p => Real.negMulLog ((getQ p k : ℚ) : ℝ))).sum)
        ((pmfs.length : ℝ))]
    ring
  have hcast : ∀ k, ((((pmfs.map (fun p => getQ p k)).sum / (pmfs.length : ℚ) : ℚ)) : ℝ)
      = (pmfs.map (fun p => ((getQ p k : ℚ) : ℝ))).sum / (pmfs.length : ℝ) := by
    intro k
    rw [Rat.cast_div, cast_list_sum_q, List.map_map, Rat.cast_natCast]
    rfl
  have hdiff : calculateShannonEntropy (K.map (fun k =>
      (k, (pmfs.map (fun p => getQ p k)).sum / (pmfs.length : ℚ))))
      - (pmfs.map (fun p => calculateShannonEntropy p)).sum / (pmfs.length : ℝ)
      = (K.map (fun k =>
          Real.negMulLog ((pmfs.map (fun p => ((getQ p k : ℚ) : ℝ))).sum / (pmfs.length : ℝ))
          - (pmfs.map (fun p =>
              Real.negMulLog ((getQ p k : ℚ) : ℝ))).sum / (pmfs.length : ℝ))).sum
        / Real.log 2 := by
    rw [hM_eq, hMean_eq]
    have h1 : K.map (fun k => Real.negMulLog
        ((((pmfs.map (fun p => getQ p k)).sum / (pmfs.length : ℚ) : ℚ)) : ℝ))
        = K.map (fun k => Real.negMulLog
            ((pmfs.map (fun p => ((getQ p k : ℚ) : ℝ))).sum / (pmfs.length : ℝ))) := by
      apply List.map_congr_left
      intro k _
      rw [hcast k]
    rw [h1, div_sub_div_same, ← sum_map_sub_reals]
  have hJen : ∀ k,
      0 ≤ Real.negMulLog ((pmfs.map (fun p => ((getQ p k : ℚ) : ℝ))).sum / (pmfs.length : ℝ))
          - (pmfs.map (fun p => Real.negMulLog ((getQ p k : ℚ) : ℝ))).sum / (pmfs.length : ℝ) ∧
      (Real.negMulLog ((pmfs.map (fun p => ((getQ p k : ℚ) : ℝ))).sum / (pmfs.length : ℝ))
          - (pmfs.map (fun p => Real.negMulLog ((getQ p k : ℚ) : ℝ))).sum / (pmfs.length : ℝ) = 0
        ↔ ∀ p ∈ pmfs, ((getQ p k : ℚ) : ℝ)
            = (pmfs.map (fun p => ((getQ p k : ℚ) : ℝ))).sum / (pmfs.length : ℝ)) := by
    intro k
    have hlnn : ∀ x ∈ pmfs.map (fun p => ((getQ p k : ℚ) : ℝ)), 0 ≤ x := by
      intro x hx
      rcases List.mem_map.mp hx with ⟨p, hp, rfl⟩
      exact_mod_cast getQ_nonneg p (hwf p hp).1.2 k
    have hlne : pmfs.map (fun p => ((getQ p k : ℚ) : ℝ)) ≠ [] := by
      simp [List.map_eq_nil_iff, hne]
    have hj := jensen_negMulLog_list _ hlnn hlne
    rw [List.length_map, List.map_map] at hj
    simp only [Function.comp_def, List.forall_mem_map] at hj
    constructor
    · linarith [hj.1]
    · rw [sub_eq_zero]
      constructor
      · intro h
        exact hj.2.mp h.symm
      · intro h
        exact (hj.2.mpr h).symm
  have hSum_nonneg : 0 ≤ (K.map (fun k =>
      Real.negMulLog ((pmfs.map (fun p => ((getQ p k : ℚ) : ℝ))).sum / (pmfs.length : ℝ))
      - (pmfs.map (fun p =>
          Real.negMulLog ((getQ p k : ℚ) : ℝ))).sum / (pmfs.length : ℝ))).sum := by
    apply List.sum_nonneg
    intro y hy
    rcases List.mem_map.mp hy with ⟨k, -, rfl⟩
    exact (hJen k).1
  refine ⟨?_, ?_⟩
  · rw [hGJS]
    exact le_max_left _ _
  · rw [hGJS, hdiff, max_eq_left_iff]
    have hdiv : (K.map (fun k =>
        Real.negMulLog ((pmfs.map (fun p => ((getQ p k : ℚ) : ℝ))).sum / (pmfs.length : ℝ))
        - (pmfs.map (fun p =>
            Real.negMulLog ((getQ p k : ℚ) : ℝ))).sum / (pmfs.length : ℝ))).sum
        / Real.log 2 ≤ 0
        ↔ (K.map (fun k =>
            Real.negMulLog ((pmfs.map (fun p => ((getQ p k : ℚ) : ℝ))).sum / (pmfs.length : ℝ))
            - (pmfs.map (fun p =>
                Real.negMulLog ((getQ p k : ℚ) : ℝ))).sum / (pmfs.length : ℝ))).sum = 0 := by
      constructor
      · intro h
        have h2 : (K.map (fun k =>
            Real.negMulLog ((pmfs.map (fun p => ((getQ p k : ℚ) : ℝ))).sum / (pmfs.length : ℝ))
            - (pmfs.map (fun p =>
                Real.negMulLog ((getQ p k : ℚ) : ℝ))).sum / (pmfs.length : ℝ))).sum ≤ 0 := by
          by_contra h3
          push_neg at h3
          have := div_pos h3 hlog2
          linarith
        linarith [hSum_nonneg]
      · intro h
        rw [h]
        simp
    rw [hdiv, list_sum_eq_zero_iff_real _ (by
      intro y hy
      rcases List.mem_map.mp hy with ⟨k, -, rfl⟩
      exact (hJen k).1)]
    constructor
    · intro hall p hp q hq k
      by_cases hkK : k ∈ K
      · have hDk := ((hJen k).2).mp (hall _ (List.mem_map.mpr ⟨k, hkK, rfl⟩))
        have e1 := hDk p hp
        have e2 := hDk q hq
        have : ((getQ p k : ℚ) : ℝ) = ((getQ q k : ℚ) : ℝ) := by rw [e1, e2]
        exact_mod_cast this
      · have hnot : ∀ r ∈ pmfs, k ∉ keysOf r := fun r hr hkr => hkK (hsubK r hr k hkr)
        rw [getQ_eq_zero_of_not_mem p k (hnot p hp),
          getQ_eq_zero_of_not_mem q k (hnot q hq)]
    · intro hall y hy
      rcases List.mem_map.mp hy with ⟨k, hkK, rfl⟩
      apply ((hJen k).2).mpr
      obtain ⟨p0, hp0⟩ := List.exists_mem_of_ne_nil pmfs hne
      have hconst : ∀ x ∈ pmfs.map (fun p => ((getQ p k : ℚ) : ℝ)),
          x = ((getQ p0 k : ℚ) : ℝ) := by
        intro x hx
        rcases List.mem_map.mp hx with ⟨p, hp, rfl⟩
        exact_mod_cast hall p hp p0 hp0 k
      have hlne : pmfs.map (fun p => ((getQ p k : ℚ) : ℝ)) ≠ [] := by
        simp [List.map_eq_nil_iff, hne]
      have hmean := mean_of_const _ _ hlne hconst
      intro p hp
      have h2 := hmean _ (List.mem_map.mpr ⟨p, hp, rfl⟩)
      rw [List.length_map] at h2
      exact h2

/-- Concrete instantiation of the C5 theorem at a pair of identical
one-point PMFs, where the divergence is 0. -/
theorem C5_gjs_nonneg_zero_iff_witness :
    (2 ≤ ([[(['a'], (1:ℚ))], [(['a'], (1:ℚ))]] : List (Entries ℚ)).length ∧
      ∀ p ∈ ([[(['a'], (1:ℚ))], [(['a'], (1:ℚ))]] : List (Entries ℚ)), WFPMF1 p) ∧
    calculateGeneralizedJensenShannonDivergence
      ([[(['a'], (1:ℚ))], [(['a'], (1:ℚ))]] : List (Entries ℚ)) = 0 :=
  ⟨⟨by simp, by
      intro p hp
      rcases List.mem_cons.mp hp with rfl | hp2
      · exact ⟨⟨by simp [keysOf], by simp⟩, by simp [sumQ]⟩
      · rcases List.mem_cons.mp hp2 with rfl | hp3
        · exact ⟨⟨by simp [keysOf], by simp⟩, by simp [sumQ]⟩
        · simp at hp3⟩,
   (C5_gjs_nonneg_zero_iff [[(['a'], (1:ℚ))], [(['a'], (1:ℚ))]]
      (by simp)
      (by
        intro p hp
        rcases List.mem_cons.mp hp with rfl | hp2
        · exact ⟨⟨by simp [keysOf], by simp⟩, by simp [sumQ]⟩
        · rcases List.mem_cons.mp hp2 with rfl | hp3
          · exact ⟨⟨by simp [keysOf], by simp⟩, by simp [sumQ]⟩
          · simp at hp3)).2.mpr (by
        intro p hp q hq k
        rcases List.mem_cons.mp hp with rfl | hp2
        · rcases List.mem_cons.mp hq with rfl | hq2
          · rfl
          · rcases List.mem_cons.mp hq2 with rfl | hq3
            · rfl
            · simp at hq3
        · rcases List.mem_cons.mp hp2 with rfl | hp3
          · rcases List.mem_cons.mp hq with rfl | hq2
            · rfl
            · rcases List.mem_cons.mp hq2 with rfl | hq3
              · rfl
              · simp at hq3
          · simp at hp3)⟩

-- ----------------------------------------------------------------
-- Symmetry of the four dependence measures (C6)
-- ----------------------------------------------------------------

lemma pearson_symm (data1 data2 : List Str) (hlen : data1.length = data2.length) :
    calculatePearsonCorrelation data1 data2 = calculatePearsonCorrelation data2 data1 := by
  simp only [calculatePearsonCorrelation]
  rw [hlen]
  have hcov : ((List.range data2.length).map (fun i =>
      ((data1.map jsNumD).getD i 0 - (data1.map jsNumD).sum / (data2.length : ℚ))
      * ((data2.map jsNumD).getD i 0 - (data2.map jsNumD).sum / (data2.length : ℚ)))).sum
      = ((List.range data2.length).map (fun i =>
      ((data2.map jsNumD).getD i 0 - (data2.map jsNumD).sum / (data2.length : ℚ))
      * ((data1.map jsNumD).getD i 0 - (data1.map jsNumD).sum / (data2.length : ℚ)))).sum := by
    apply congrArg
    apply List.map_congr_left
    intro i _
    ring
  rw [hcov]
  exact if_congr or_comm rfl (by rw [mul_comm])

lemma mi_transpose_symm (jointPMF m1 m2 : Entries ℚ)
    (h2 : ∀ e ∈ jointPMF, (splitComma e.1).length = 2) :
    calculateMutualInformation (transposePairPMF jointPMF) m2 m1
      = calculateMutualInformation jointPMF m1 m2 := by
  simp only [calculateMutualInformation, transposePairPMF, List.map_map]
  apply congrArg
  apply List.map_congr_left
  intro e he
  simp only [Function.comp_apply]
  have hlen2 := h2 e he
  rcases hsp : splitComma e.1 with - | ⟨p0, rest⟩
  · rw [hsp] at hlen2; simp at hlen2
  rcases hrest : rest with - | ⟨p1, rest2⟩
  · rw [hsp, hrest] at hlen2; simp at hlen2
  rcases hrest2 : rest2 with - | ⟨q, rest3⟩
  swap
  · rw [hsp, hrest, hrest2] at hlen2; simp at hlen2
  subst hrest hrest2
  have hf0 : ',' ∉ p0 := no_comma_mem_splitComma e.1 p0 (by rw [hsp]; simp)
  have hf1 : ',' ∉ p1 := no_comma_mem_splitComma e.1 p1 (by rw [hsp]; simp)
  have hsp2 : splitComma (join2 p1 p0) = [p1, p0] := by
    rw [← joinComma_pair]
    apply splitComma_joinComma [p1, p0] (by simp)
    intro x hx
    rcases List.mem_cons.mp hx with rfl | hx2
    · exact hf1
    · rcases List.mem_cons.mp hx2 with rfl | hx3
      · exact hf0
      · simp at hx3
  simp only [List.getD_cons_zero, List.getD_cons_succ]
  rw [hsp2]
  simp only [List.getD_cons_zero, List.getD_cons_succ, List.getElem?_cons_succ,
    List.getElem?_cons_zero]
  rw [mul_comm (getQ m2 p1) (getQ m1 p0)]
  exact if_congr (by tauto) rfl rfl

lemma dcorr_eq_core (data1 data2 : List Str) :
    calculateDistanceCorrelation data1 data2
      = if data1.length < 2 then (0:ℝ)
        else dcorrCore data1.length
          (dcCentered data1.length (fun i j =>
            dcDist (decide (detectVariableType data1 = VariableType.Numerical))
              (data1.getD i []) (data1.getD j [])))
          (dcCentered data1.length (fun i j =>
            dcDist (decide (detectVariableType data2 = VariableType.Numerical))
              (data2.getD i []) (data2.getD j []))) := rfl

lemma cramersV_eq_core (data1 data2 : List Str) :
    calculateCramersV data1 data2
      = if data1.length = 0 then (0:ℝ)
        else cramersVCore data1.length (dedupFirst data1) (dedupFirst data2)
          (fun l1 l2 => (((List.range data1.length).filter (fun i =>
            decide (data1.getD i [] = l1) && decide (data2.getD i [] = l2))).length : ℚ)) := rfl

lemma dcorrCore_symm (n : ℕ) (A B : ℕ → ℕ → ℚ) : dcorrCore n A B = dcorrCore n B A := by
  simp only [dcorrCore]
  have hAB : ((List.range n).map (fun i =>
      ((List.range n).map (fun j => A i j * B i j)).sum)).sum
      = ((List.range n).map (fun i =>
      ((List.range n).map (fun j => B i j * A i j)).sum)).sum := by
    apply congrArg
    apply List.map_congr_left
    intro i _
    apply congrArg
    apply List.map_congr_left
    intro j _
    ring
  rw [hAB]
  exact if_congr or_comm rfl (by
    rw [mul_comm
      (((List.range n).map (fun i =>
        ((List.range n).map (fun j => A i j * A i j)).sum)).sum / ((n : ℚ) * n))
      (((List.range n).map (fun i =>
        ((List.range n).map (fun j => B i j * B i j)).sum)).sum / ((n : ℚ) * n))])

lemma dcorr_symm (data1 data2 : List Str) (hlen : data1.length = data2.length) :
    calculateDistanceCorrelation data1 data2 = calculateDistanceCorrelation data2 data1 := by
  rw [dcorr_eq_core data1 data2, dcorr_eq_core data2 data1, hlen]
  exact if_congr Iff.rfl rfl (dcorrCore_symm _ _ _)

lemma cramersVCore_swap (n : ℕ) (L1 L2 : List Str) (cnt : Str → Str → ℚ) :
    cramersVCore n L1 L2 cnt = cramersVCore n L2 L1 (fun a b => cnt b a) := by
  simp only [cramersVCore]
  apply if_congr or_comm rfl
  rw [min_comm]
  have hchi : (L2.map (fun l2 => (L1.map (fun l1 =>
      let expected := (L1.map (fun l1 => cnt l1 l2)).sum * (L2.map (fun l2 => cnt l1 l2)).sum / (n : ℚ)
      if 0 < expected then (cnt l1 l2 - expected) ^ 2 / expected else 0)).sum)).sum
      = (L1.map (fun l1 => (L2.map (fun l2 =>
      let expected := (L2.map (fun l2 => cnt l1 l2)).sum * (L1.map (fun l1 => cnt l1 l2)).sum / (n : ℚ)
      if 0 < expected then (cnt l1 l2 - expected) ^ 2 / expected else 0)).sum)).sum := by
    rw [list_sum_comm L1 L2]
    apply congrArg
    apply List.map_congr_left
    intro l2 _
    apply congrArg
    apply List.map_congr_left
    intro l1 _
    rw [mul_comm ((L1.map (fun l1 => cnt l1 l2)).sum)]
  rw [hchi]

lemma cramersV_symm (data1 data2 : List Str) (hlen : data1.length = data2.length) :
    calculateCramersV data1 data2 = calculateCramersV data2 data1 := by
  rw [cramersV_eq_core data1 data2, cramersV_eq_core data2 data1, hlen]
  apply if_congr Iff.rfl rfl
  rw [cramersVCore_swap]
  have hcnt : (fun a b => (((List.range data2.length).filter (fun i =>
      decide (data1.getD i [] = b) && decide (data2.getD i [] = a))).length : ℚ))
      = (fun a b => (((List.range data2.length).filter (fun i =>
      decide (data2.getD i [] = a) && decide (data1.getD i [] = b))).length : ℚ)) := by
    funext a b
    congr 1
    apply congrArg
    apply List.filter_congr
    intro i _
    exact Bool.and_comm _ _
  exact congrArg (cramersVCore data2.length (dedupFirst data2) (dedupFirst data1)) hcnt

/-- C6: the four pairwise dependence measures are symmetric: Pearson
correlation, distance correlation and Cramers V under swapping the two
equal-length columns, and mutual information under transposing the joint
PMF keys and swapping the two marginals. -/
theorem C6_four_metrics_symmetric (data1 data2 : List Str) (jointPMF m1 m2 : Entries ℚ)
    (hlen : data1.length = data2.length)
    (h2 : ∀ e ∈ jointPMF, (splitComma e.1).length = 2) :
    calculatePearsonCorrelation data1 data2 = calculatePearsonCorrelation data2 data1 ∧
    calculateMutualInformation (transposePairPMF jointPMF) m2 m1
      = calculateMutualInformation jointPMF m1 m2 ∧
    calculateDistanceCorrelation data1 data2 = calculateDistanceCorrelation data2 data1 ∧
    calculateCramersV data1 data2 = calculateCramersV data2 data1 :=
  ⟨pearson_symm data1 data2 hlen, mi_transpose_symm jointPMF m1 m2 h2,
   dcorr_symm data1 data2 hlen, cramersV_symm data1 data2 hlen⟩

/-- Concrete instantiation of the C6 theorem at two-row columns and a
one-entry pair PMF. -/
theorem C6_four_metrics_symmetric_witness :
    ((([['1'], ['2']] : List Str).length = ([['3'], ['4']] : List Str).length) ∧
      ∀ e ∈ ([(['a', ',', 'b'], (1:ℚ))] : Entries ℚ), (splitComma e.1).length = 2) ∧
    calculatePearsonCorrelation [['1'], ['2']] [['3'], ['4']]
      = calculatePearsonCorrelation [['3'], ['4']] [['1'], ['2']] :=
  ⟨⟨rfl, by decide⟩,
   (C6_four_metrics_symmetric [['1'], ['2']] [['3'], ['4']] [(['a', ',', 'b'], 1)] [] []
      rfl (by decide)).1⟩

-- ----------------------------------------------------------------
-- Homogeneity check decision rule (C7)
-- ----------------------------------------------------------------

lemma mem_indexPairs (n : ℕ) (p : ℕ × ℕ) : p ∈ indexPairs n ↔ p.1 < p.2 ∧ p.2 < n := by
  unfold indexPairs
  rw [List.mem_flatMap]
  constructor
  · rintro ⟨i, hi, hp⟩
    rcases List.mem_map.mp hp with ⟨j, hj, rfl⟩
    rw [List.mem_filter, List.mem_range] at hj
    exact ⟨of_decide_eq_true hj.2, hj.1⟩
  · rintro ⟨h1, h2⟩
    refine ⟨p.1, List.mem_range.mpr (lt_trans h1 h2), ?_⟩
    apply List.mem_map.mpr
    refine ⟨p.2, ?_, rfl⟩
    rw [List.mem_filter, List.mem_range]
    exact ⟨h2, decide_eq_true h1⟩

lemma runHomogeneityCheck_lt2 (tpms : List LabeledTPM) (h : tpms.length < 2) :
    runHomogeneityCheck tpms = ⟨[], 0, True⟩ := by
  unfold runHomogeneityCheck
  rw [if_pos h]

lemma runHomogeneityCheck_ge2 (tpms : List LabeledTPM) (h : ¬tpms.length < 2) :
    runHomogeneityCheck tpms = ⟨(indexPairs tpms.length).map (fun p =>
      ⟨(tpms.getD p.1 default).label ++ " vs ".toList ++ (tpms.getD p.2 default).label,
        calculateHellingerDistanceTPM (tpms.getD p.1 default).tpm
          (tpms.getD p.2 default).tpm⟩),
      calculateGJS_TPM_Distance_normalized (tpms.map (fun t => t.tpm)),
      (∀ r ∈ (indexPairs tpms.length).map (fun p =>
        (⟨(tpms.getD p.1 default).label ++ " vs ".toList ++ (tpms.getD p.2 default).label,
          calculateHellingerDistanceTPM (tpms.getD p.1 default).tpm
            (tpms.getD p.2 default).tpm⟩ : HellingerResult)), r.distance ≤ 1/2) ∧
      calculateGJS_TPM_Distance_normalized (tpms.map (fun t => t.tpm)) ≤ 1/2⟩ := by
  unfold runHomogeneityCheck
  rw [if_neg h]

/-- C7: `runHomogeneityCheck` declares a panel homogeneous exactly when all
pairwise Hellinger distances between the step TPMs are at most 0.5 and the
normalized GJS distance is at most 0.5; with fewer than two TPMs it returns
an empty distance list, GJS distance 0 and a positive verdict. -/
theorem C7_homogeneity_check (tpms : List LabeledTPM) :
    (tpms.length < 2 →
      (runHomogeneityCheck tpms).hellingerDistances = [] ∧
      (runHomogeneityCheck tpms).gjsDistance = 0 ∧
      (runHomogeneityCheck tpms).isHomogeneous) ∧
    (2 ≤ tpms.length →
      ((runHomogeneityCheck tpms).isHomogeneous ↔
        (∀ i j, i < j → j < tpms.length →
          calculateHellingerDistanceTPM (tpms.getD i default).tpm
            (tpms.getD j default).tpm ≤ 1/2) ∧
        calculateGJS_TPM_Distance_normalized (tpms.map (fun t => t.tpm)) ≤ 1/2)) := by
  constructor
  · intro h
    rw [runHomogeneityCheck_lt2 tpms h]
    exact ⟨rfl, rfl, trivial⟩
  · intro h
    rw [runHomogeneityCheck_ge2 tpms (by omega)]
    show ((∀ r ∈ _, _) ∧ _) ↔ _
    constructor
    · rintro ⟨hall, hg⟩
      refine ⟨?_, hg⟩
      intro i j hij hj
      exact hall _ (List.mem_map.mpr ⟨(i, j), (mem_indexPairs _ _).mpr ⟨hij, hj⟩, rfl⟩)
    · rintro ⟨hij, hg⟩
      refine ⟨?_, hg⟩
      intro r hr
      rcases List.mem_map.mp hr with ⟨p, hp, rfl⟩
      have h2 := (mem_indexPairs _ _).mp hp
      exact hij p.1 p.2 h2.1 h2.2

/-- Concrete instantiation of the C7 theorem on an empty panel and on a
panel of two empty-step TPMs. -/
theorem C7_homogeneity_check_witness :
    ((([] : List LabeledTPM).length < 2 ∧
      ((runHomogeneityCheck ([] : List LabeledTPM)).hellingerDistances = [] ∧
       (runHomogeneityCheck ([] : List LabeledTPM)).gjsDistance = 0 ∧
       (runHomogeneityCheck ([] : List LabeledTPM)).isHomogeneous))) ∧
    ((2 ≤ ([⟨[], []⟩, ⟨[], []⟩] : List LabeledTPM).length) ∧
      ((runHomogeneityCheck ([⟨[], []⟩, ⟨[], []⟩] : List LabeledTPM)).isHomogeneous ↔
        (∀ i j, i < j → j < ([⟨[], []⟩, ⟨[], []⟩] : List LabeledTPM).length →
          calculateHellingerDistanceTPM
            (([⟨[], []⟩, ⟨[], []⟩] : List LabeledTPM).getD i default).tpm
            (([⟨[], []⟩, ⟨[], []⟩] : List LabeledTPM).getD j default).tpm ≤ 1/2) ∧
        calculateGJS_TPM_Distance_normalized
          (([⟨[], []⟩, ⟨[], []⟩] : List LabeledTPM).map (fun t => t.tpm)) ≤ 1/2)) :=
  ⟨⟨by decide, (C7_homogeneity_check []).1 (by decide)⟩,
   ⟨by decide, (C7_homogeneity_check [⟨[], []⟩, ⟨[], []⟩]).2 (by decide)⟩⟩

/-- C9: the Nominal branch of `pmfToDistribution` never reorders.  The
source's comparator calls `localeCompare` on `String(a.value)` with itself,
so the comparator value is always 0 and the entries stay in insertion order:
for the insertion order `b, a` the output is still `b, a`, even though
`a` precedes `b` in lexicographic string order. -/
theorem C9_nominal_sort_counterexample :
    (pmfToDistribution [(['b'], (1:ℚ)/2), (['a'], (1:ℚ)/2)]
        VariableType.Nominal []).map (fun p => p.value)
      = [JSVal.str ['b'], JSVal.str ['a']] ∧
    strLtB ['a'] ['b'] = true := by
  constructor
  · rfl
  · decide

-- ----------------------------------------------------------------
-- The stacked-rows TPM Hellinger distance (C10)
-- ----------------------------------------------------------------

lemma getEntry?_mem {α : Type} (m : Entries α) (k : Str) (v : α)
    (h : getEntry? m k = some v) : (k, v) ∈ m := by
  induction m with
  | nil => simp [getEntry?] at h
  | cons e rest ih =>
      rcases e with ⟨ke, ve⟩
      by_cases hk : ke = k
      · rw [getEntry?, if_pos hk] at h
        rcases Option.some.injEq _ _ ▸ h with rfl
        exact hk ▸ List.mem_cons_self _ _
      · rw [getEntry?, if_neg hk] at h
        exact List.mem_cons_of_mem _ (ih h)

lemma mem_sortStrs (l : List Str) (x : Str) : x ∈ sortStrs l ↔ x ∈ l :=
  (sortStable_perm _ l).mem_iff

lemma nodup_sortStrs (l : List Str) (h : l.Nodup) : (sortStrs l).Nodup :=
  ((sortStable_perm _ l).nodup_iff).mpr h

lemma tpmGetQ_nonneg (tpm : TPM) (h : ∀ e ∈ tpm, WFPMF1 e.2) (f t : Str) :
    0 ≤ tpmGetQ tpm f t := by
  unfold tpmGetQ
  cases hE : getEntry? tpm f with
  | none => simp [getQ, getEntry?]
  | some row =>
      simp only [Option.getD_some]
      exact getQ_nonneg row (h (f, row) (getEntry?_mem tpm f row hE)).1.2 t

lemma rowSum_le_one (tpm : TPM) (h : ∀ e ∈ tpm, WFPMF1 e.2) (f : Str)
    (K : List Str) (hK : K.Nodup)
    (hsub : ∀ k ∈ keysOf ((getEntry? tpm f).getD []), k ∈ K) :
    (K.map (fun t => ((tpmGetQ tpm f t : ℚ) : ℝ))).sum ≤ 1 := by
  unfold tpmGetQ
  cases hE : getEntry? tpm f with
  | none =>
      simp only [Option.getD_none]
      have : K.map (fun t => ((getQ [] t : ℚ) : ℝ)) = K.map (fun _ => (0:ℝ)) := by
        apply List.map_congr_left
        intro t _
        simp [getQ, getEntry?]
      rw [this, sum_map_const_real]
      norm_num
  | some row =>
      simp only [Option.getD_some]
      rw [hE] at hsub
      simp only [Option.getD_some] at hsub
      rw [sum_getQ_over_superset row K
        (h (f, row) (getEntry?_mem tpm f row hE)) hK hsub]

lemma hellingerTPM_unfold (tpm1 tpm2 : TPM) :
    calculateHellingerDistanceTPM tpm1 tpm2
      = if (sortStrs (dedupFirst (keysOf tpm1 ++ keysOf tpm2))).length = 0 ∨
          (sortStrs (dedupFirst ((dedupFirst (keysOf tpm1 ++ keysOf tpm2)).flatMap (fun f =>
            keysOf ((getEntry? tpm1 f).getD []) ++ keysOf ((getEntry? tpm2 f).getD []))))).length = 0
        then 0
        else (1 / Real.sqrt 2) * Real.sqrt
          (((sortStrs (dedupFirst (keysOf tpm1 ++ keysOf tpm2))).map (fun f =>
            ((sortStrs (dedupFirst ((dedupFirst (keysOf tpm1 ++ keysOf tpm2)).flatMap (fun g =>
              keysOf ((getEntry? tpm1 g).getD []) ++ keysOf ((getEntry? tpm2 g).getD []))))).map (fun t =>
              (Real.sqrt (tpmGetQ tpm1 f t) - Real.sqrt (tpmGetQ tpm2 f t)) ^ 2)).sum)).sum) := rfl

/-- C10: `calculateHellingerDistanceTPM` stacks all TPM rows into one
unnormalized vector, so for row-stochastic TPMs it is only bounded by the
square root of the number of from-states; it exceeds 1 on the concrete pair
(identity vs swap on two states), where it equals √2. -/
theorem C10_hellinger_tpm_bound_and_exceeds_one (tpm1 tpm2 : TPM)
    (h1 : ∀ e ∈ tpm1, WFPMF1 e.2) (h2 : ∀ e ∈ tpm2, WFPMF1 e.2) :
    calculateHellingerDistanceTPM tpm1 tpm2
      ≤ Real.sqrt ((dedupFirst (keysOf tpm1 ++ keysOf tpm2)).length) ∧
    1 < calculateHellingerDistanceTPM
        [(['a'], [(['a'], (1:ℚ))]), (['b'], [(['b'], (1:ℚ))])]
        [(['a'], [(['b'], (1:ℚ))]), (['b'], [(['a'], (1:ℚ))])] := by
  constructor
  · rw [hellingerTPM_unfold tpm1 tpm2]
    by_cases hc : (sortStrs (dedupFirst (keysOf tpm1 ++ keysOf tpm2))).length = 0 ∨
        (sortStrs (dedupFirst ((dedupFirst (keysOf tpm1 ++ keysOf tpm2)).flatMap (fun f =>
          keysOf ((getEntry? tpm1 f).getD []) ++ keysOf ((getEntry? tpm2 f).getD []))))).length = 0
    · rw [if_pos hc]
      positivity
    · rw [if_neg hc]
      have hTnodup : (sortStrs (dedupFirst ((dedupFirst (keysOf tpm1 ++ keysOf tpm2)).flatMap (fun f =>
          keysOf ((getEntry? tpm1 f).getD []) ++ keysOf ((getEntry? tpm2 f).getD []))))).Nodup :=
        nodup_sortStrs _ (nodup_dedupFirst _)
      have hsubT : ∀ f ∈ sortStrs (dedupFirst (keysOf tpm1 ++ keysOf tpm2)),
          (∀ k ∈ keysOf ((getEntry? tpm1 f).getD []),
            k ∈ sortStrs (dedupFirst ((dedupFirst (keysOf tpm1 ++ keysOf tpm2)).flatMap (fun g =>
              keysOf ((getEntry? tpm1 g).getD []) ++ keysOf ((getEntry? tpm2 g).getD []))))) ∧
          (∀ k ∈ keysOf ((getEntry? tpm2 f).getD []),
            k ∈ sortStrs (dedupFirst ((dedupFirst (keysOf tpm1 ++ keysOf tpm2)).flatMap (fun g =>
              keysOf ((getEntry? tpm1 g).getD []) ++ keysOf ((getEntry? tpm2 g).getD []))))) := by
        intro f hf
        rw [mem_sortStrs] at hf
        constructor
        · intro k hk
          rw [mem_sortStrs, mem_dedupFirst, List.mem_flatMap]
          exact ⟨f, hf, List.mem_append.mpr (Or.inl hk)⟩
        · intro k hk
          rw [mem_sortStrs, mem_dedupFirst, List.mem_flatMap]
          exact ⟨f, hf, List.mem_append.mpr (Or.inr hk)⟩
      have hinner : ∀ f ∈ sortStrs (dedupFirst (keysOf tpm1 ++ keysOf tpm2)),
          ((sortStrs (dedupFirst ((dedupFirst (keysOf tpm1 ++ keysOf tpm2)).flatMap (fun g =>
            keysOf ((getEntry? tpm1 g).getD []) ++ keysOf ((getEntry? tpm2 g).getD []))))).map (fun t =>
            (Real.sqrt (tpmGetQ tpm1 f t) - Real.sqrt (tpmGetQ tpm2 f t)) ^ 2)).sum ≤ 2 := by
        intro f hf
        have hterm : ∀ t ∈ sortStrs (dedupFirst ((dedupFirst (keysOf tpm1 ++ keysOf tpm2)).flatMap (fun g =>
            keysOf ((getEntry? tpm1 g).getD []) ++ keysOf ((getEntry? tpm2 g).getD [])))),
            (Real.sqrt (tpmGetQ tpm1 f t) - Real.sqrt (tpmGetQ tpm2 f t)) ^ 2
              ≤ ((tpmGetQ tpm1 f t : ℚ) : ℝ) + ((tpmGetQ tpm2 f t : ℚ) : ℝ) := by
          intro t _
          have hp1 : (0:ℝ) ≤ ((tpmGetQ tpm1 f t : ℚ) : ℝ) := by
            exact_mod_cast tpmGetQ_nonneg tpm1 h1 f t
          have hp2 : (0:ℝ) ≤ ((tpmGetQ tpm2 f t : ℚ) : ℝ) := by
            exact_mod_cast tpmGetQ_nonneg tpm2 h2 f t
          have e1 := Real.sq_sqrt hp1
          have e2 := Real.sq_sqrt hp2
          have hs : 0 ≤ Real.sqrt (tpmGetQ tpm1 f t) * Real.sqrt (tpmGetQ tpm2 f t) := by
            positivity
          nlinarith
        calc ((sortStrs (dedupFirst ((dedupFirst (keysOf tpm1 ++ keysOf tpm2)).flatMap (fun g =>
              keysOf ((getEntry? tpm1 g).getD []) ++ keysOf ((getEntry? tpm2 g).getD []))))).map (fun t =>
              (Real.sqrt (tpmGetQ tpm1 f t) - Real.sqrt (tpmGetQ tpm2 f t)) ^ 2)).sum
            ≤ ((sortStrs (dedupFirst ((dedupFirst (keysOf tpm1 ++ keysOf tpm2)).flatMap (fun g =>
              keysOf ((getEntry? tpm1 g).getD []) ++ keysOf ((getEntry? tpm2 g).getD []))))).map (fun t =>
              ((tpmGetQ tpm1 f t : ℚ) : ℝ) + ((tpmGetQ tpm2 f t : ℚ) : ℝ))).sum :=
              List.sum_le_sum hterm
          _ ≤ 2 := by
              rw [sum_map_add_reals]
              have hb1 := rowSum_le_one tpm1 h1 f _ hTnodup (hsubT f hf).1
              have hb2 := rowSum_le_one tpm2 h2 f _ hTnodup (hsubT f hf).2
              linarith
      have hS : (((sortStrs (dedupFirst (keysOf tpm1 ++ keysOf tpm2))).map (fun f =>
          ((sortStrs (dedupFirst ((dedupFirst (keysOf tpm1 ++ keysOf tpm2)).flatMap (fun g =>
            keysOf ((getEntry? tpm1 g).getD []) ++ keysOf ((getEntry? tpm2 g).getD []))))).map (fun t =>
            (Real.sqrt (tpmGetQ tpm1 f t) - Real.sqrt (tpmGetQ tpm2 f t)) ^ 2)).sum)).sum)
          ≤ 2 * ((dedupFirst (keysOf tpm1 ++ keysOf tpm2)).length : ℝ) := by
        calc (((sortStrs (dedupFirst (keysOf tpm1 ++ keysOf tpm2))).map (fun f =>
            ((sortStrs (dedupFirst ((dedupFirst (keysOf tpm1 ++ keysOf tpm2)).flatMap (fun g =>
              keysOf ((getEntry? tpm1 g).getD []) ++ keysOf ((getEntry? tpm2 g).getD []))))).map (fun t =>
              (Real.sqrt (tpmGetQ tpm1 f t) - Real.sqrt (tpmGetQ tpm2 f t)) ^ 2)).sum)).sum)
            ≤ ((sortStrs (dedupFirst (keysOf tpm1 ++ keysOf tpm2))).map (fun _ => (2:ℝ))).sum :=
              List.sum_le_sum hinner
          _ = 2 * ((dedupFirst (keysOf tpm1 ++ keysOf tpm2)).length : ℝ) := by
              rw [sum_map_const_real]
              have hlen : (sortStrs (dedupFirst (keysOf tpm1 ++ keysOf tpm2))).length
                  = (dedupFirst (keysOf tpm1 ++ keysOf tpm2)).length :=
                (sortStable_perm _ _).length_eq
              rw [hlen]
              ring
      have hfin : Real.sqrt (((sortStrs (dedupFirst (keysOf tpm1 ++ keysOf tpm2))).map (fun f =>
          ((sortStrs (dedupFirst ((dedupFirst (keysOf tpm1 ++ keysOf tpm2)).flatMap (fun g =>
            keysOf ((getEntry? tpm1 g).getD []) ++ keysOf ((getEntry? tpm2 g).getD []))))).map (fun t =>
            (Real.sqrt (tpmGetQ tpm1 f t) - Real.sqrt (tpmGetQ tpm2 f t)) ^ 2)).sum)).sum)
          ≤ Real.sqrt (2 * ((dedupFirst (keysOf tpm1 ++ keysOf tpm2)).length : ℝ)) :=
        Real.sqrt_le_sqrt hS
      calc (1 / Real.sqrt 2) * Real.sqrt (((sortStrs (dedupFirst (keysOf tpm1 ++ keysOf tpm2))).map (fun f =>
            ((sortStrs (dedupFirst ((dedupFirst (keysOf tpm1 ++ keysOf tpm2)).flatMap (fun g =>
              keysOf ((getEntry? tpm1 g).getD []) ++ keysOf ((getEntry? tpm2 g).getD []))))).map (fun t =>
              (Real.sqrt (tpmGetQ tpm1 f t) - Real.sqrt (tpmGetQ tpm2 f t)) ^ 2)).sum)).sum)
          ≤ (1 / Real.sqrt 2) * Real.sqrt (2 * ((dedupFirst (keysOf tpm1 ++ keysOf tpm2)).length : ℝ)) :=
            mul_le_mul_of_nonneg_left hfin (by positivity)
        _ = Real.sqrt ((dedupFirst (keysOf tpm1 ++ keysOf tpm2)).length : ℝ) := by
            rw [Real.sqrt_mul (by norm_num : (0:ℝ) ≤ 2)]
            have h2pos : (0:ℝ) < Real.sqrt 2 := Real.sqrt_pos.mpr (by norm_num)
            field_simp
  · rw [hellingerTPM_unfold]
    have e2 : sortStrs (dedupFirst ((dedupFirst
        (keysOf ([(['a'], [(['a'], (1:ℚ))]), (['b'], [(['b'], (1:ℚ))])] : TPM)
          ++ keysOf ([(['a'], [(['b'], (1:ℚ))]), (['b'], [(['a'], (1:ℚ))])] : TPM))).flatMap (fun f =>
        keysOf ((getEntry? ([(['a'], [(['a'], (1:ℚ))]), (['b'], [(['b'], (1:ℚ))])] : TPM) f).getD [])
          ++ keysOf ((getEntry? ([(['a'], [(['b'], (1:ℚ))]), (['b'], [(['a'], (1:ℚ))])] : TPM) f).getD []))))
        = [['a'], ['b']] := by decide
    have e1 : sortStrs (dedupFirst
        (keysOf ([(['a'], [(['a'], (1:ℚ))]), (['b'], [(['b'], (1:ℚ))])] : TPM)
          ++ keysOf ([(['a'], [(['b'], (1:ℚ))]), (['b'], [(['a'], (1:ℚ))])] : TPM)))
        = [['a'], ['b']] := by decide
    rw [e2, e1]
    rw [if_neg (by simp)]
    simp only [List.map_cons, List.map_nil, List.sum_cons, List.sum_nil]
    have hv1 : tpmGetQ ([(['a'], [(['a'], (1:ℚ))]), (['b'], [(['b'], (1:ℚ))])] : TPM) ['a'] ['a'] = 1 := by decide
    have hv2 : tpmGetQ ([(['a'], [(['a'], (1:ℚ))]), (['b'], [(['b'], (1:ℚ))])] : TPM) ['a'] ['b'] = 0 := by decide
    have hv3 : tpmGetQ ([(['a'], [(['a'], (1:ℚ))]), (['b'], [(['b'], (1:ℚ))])] : TPM) ['b'] ['a'] = 0 := by decide
    have hv4 : tpmGetQ ([(['a'], [(['a'], (1:ℚ))]), (['b'], [(['b'], (1:ℚ))])] : TPM) ['b'] ['b'] = 1 := by decide
    have hw1 : tpmGetQ ([(['a'], [(['b'], (1:ℚ))]), (['b'], [(['a'], (1:ℚ))])] : TPM) ['a'] ['a'] = 0 := by decide
    have hw2 : tpmGetQ ([(['a'], [(['b'], (1:ℚ))]), (['b'], [(['a'], (1:ℚ))])] : TPM) ['a'] ['b'] = 1 := by decide
    have hw3 : tpmGetQ ([(['a'], [(['b'], (1:ℚ))]), (['b'], [(['a'], (1:ℚ))])] : TPM) ['b'] ['a'] = 1 := by decide
    have hw4 : tpmGetQ ([(['a'], [(['b'], (1:ℚ))]), (['b'], [(['a'], (1:ℚ))])] : TPM) ['b'] ['b'] = 0 := by decide
    rw [hv1, hv2, hv3, hv4, hw1, hw2, hw3, hw4]
    norm_num [Real.sqrt_one, Real.sqrt_zero]
    have h4 : Real.sqrt 4 = 2 := by
      rw [show (4:ℝ) = 2^2 by norm_num]
      exact Real.sqrt_sq (by norm_num)
    rw [h4]
    have h2pos : (0:ℝ) < Real.sqrt 2 := Real.sqrt_pos.mpr (by norm_num)
    rw [inv_mul_eq_div, lt_div_iff h2pos, one_mul]
    calc Real.sqrt 2 < Real.sqrt 4 := Real.sqrt_lt_sqrt (by norm_num) (by norm_num)
      _ = 2 := h4

/-- Concrete instantiation of the C10 theorem: vacuously well-formed empty
TPMs for the bound, and the identity-vs-swap pair exceeding 1. -/
theorem C10_hellinger_tpm_bound_and_exceeds_one_witness :
    ((∀ e ∈ ([] : TPM), WFPMF1 e.2) ∧
      calculateHellingerDistanceTPM ([] : TPM) ([] : TPM)
        ≤ Real.sqrt ((dedupFirst (keysOf ([] : TPM) ++ keysOf ([] : TPM))).length)) ∧
    1 < calculateHellingerDistanceTPM
        [(['a'], [(['a'], (1:ℚ))]), (['b'], [(['b'], (1:ℚ))])]
        [(['a'], [(['b'], (1:ℚ))]), (['b'], [(['a'], (1:ℚ))])] :=
  ⟨⟨by simp, (C10_hellinger_tpm_bound_and_exceeds_one [] [] (by simp) (by simp)).1⟩,
   (C10_hellinger_tpm_bound_and_exceeds_one [] [] (by simp) (by simp)).2⟩

-- ----------------------------------------------------------------
-- Representative TPM selection (C8)
-- ----------------------------------------------------------------

lemma dedupFirst_foldl_no_new {α : Type} [DecidableEq α] (l acc : List α)
    (h : ∀ x ∈ l, x ∈ acc) :
    l.foldl (fun acc y => if y ∈ acc then acc else acc ++ [y]) acc = acc := by
  induction l with
  | nil => rfl
  | cons x xs ih =>
      simp only [List.foldl_cons]
      rw [if_pos (h x (List.mem_cons_self _ _))]
      exact ih (fun y hy => h y (List.mem_cons_of_mem _ hy))

lemma dedupFirst_append_subset {α : Type} [DecidableEq α] (l1 l2 : List α)
    (h : ∀ x ∈ l2, x ∈ l1) : dedupFirst (l1 ++ l2) = dedupFirst l1 := by
  unfold dedupFirst
  rw [List.foldl_append]
  apply dedupFirst_foldl_no_new
  intro x hx
  exact (mem_dedupFirst_foldl l1 [] x).mpr (Or.inr (h x hx))

lemma dedupFirst_foldl_of_disjoint {α : Type} [DecidableEq α] (l acc : List α)
    (hd : l.Nodup) (hdisj : ∀ x ∈ l, x ∉ acc) :
    l.foldl (fun acc y => if y ∈ acc then acc else acc ++ [y]) acc = acc ++ l := by
  induction l generalizing acc with
  | nil => simp
  | cons x xs ih =>
      simp only [List.foldl_cons]
      rw [if_neg (hdisj x (List.mem_cons_self _ _))]
      rw [ih (acc ++ [x]) (List.nodup_cons.mp hd).2]
      · simp
      · intro y hy hmem
        rcases List.mem_append.mp hmem with h1 | h1
        · exact hdisj y (List.mem_cons_of_mem _ hy) h1
        · rcases List.mem_singleton.mp h1 with rfl
          exact (List.nodup_cons.mp hd).1 hy

lemma dedupFirst_of_nodup {α : Type} [DecidableEq α] (l : List α) (h : l.Nodup) :
    dedupFirst l = l := by
  unfold dedupFirst
  rw [dedupFirst_foldl_of_disjoint l [] h (by simp)]
  simp

lemma dedupFirst_flatMap_const {α β : Type} [DecidableEq β] (l : List α) (K : List β)
    (f : α → List β) (hf : ∀ x ∈ l, f x = K) (hne : l ≠ []) :
    dedupFirst (l.flatMap f) = dedupFirst K := by
  cases l with
  | nil => exact absurd rfl hne
  | cons x xs =>
      rw [List.flatMap_cons, hf x (List.mem_cons_self _ _)]
      apply dedupFirst_append_subset
      intro y hy
      rcases List.mem_flatMap.mp hy with ⟨z, hz, hyz⟩
      rw [hf z (List.mem_cons_of_mem _ hz)] at hyz
      exact hyz

lemma sum_map_const_q {α : Type} (l : List α) (c : ℚ) :
    (l.map (fun _ => c)).sum = l.length * c := by
  induction l with
  | nil => simp
  | cons x xs ih => simp [ih]; ring

/-- Rebuilding a duplicate-free map from its keys and `getQ` restores the
map itself. -/
lemma entries_eq_map_keys (m : Entries ℚ) (h : (keysOf m).Nodup) :
    (keysOf m).map (fun k => (k, getQ m k)) = m := by
  induction m with
  | nil => rfl
  | cons e rest ih =>
      rw [keysOf_cons] at h ⊢
      have hne : e.1 ∉ keysOf rest := (List.nodup_cons.mp h).1
      have hrest := (List.nodup_cons.mp h).2
      simp only [List.map_cons]
      have hself : getQ (e :: rest) e.1 = e.2 := by
        rcases e with ⟨ke, ve⟩
        simp [getQ, getEntry?]
      have hcong : (keysOf rest).map (fun k => (k, getQ (e :: rest) k))
          = (keysOf rest).map (fun k => (k, getQ rest k)) := by
        apply List.map_congr_left
        intro k hk
        have hkne : e.1 ≠ k := fun hh => hne (hh ▸ hk)
        rcases e with ⟨ke, ve⟩
        simp [getQ, getEntry?, hkne]
      rw [hself, hcong, ih hrest]

lemma nodup_keysOf_foldl_setEntry {β : Type} (l : List β) (f : β → Str) (w : β → ℚ)
    (c : β → Prop) [DecidablePred c] (acc : Entries ℚ) (hacc : (keysOf acc).Nodup) :
    (keysOf (l.foldl (fun m b => if c b then setEntry m (f b) (w b) else m) acc)).Nodup := by
  induction l generalizing acc with
  | nil => simpa
  | cons b rest ih =>
      simp only [List.foldl_cons]
      by_cases hb : c b
      · rw [if_pos hb]
        exact ih _ (nodup_keysOf_setEntry acc (f b) (w b) hacc)
      · rw [if_neg hb]
        exact ih _ hacc

lemma nodup_keysOf_tpmToJointPmf (tpm : TPM) (F T : List Str) :
    (keysOf (tpmToJointPmf tpm F T)).Nodup := by
  have hinner : ∀ (f : Str) (acc : Entries ℚ), (keysOf acc).Nodup →
      (keysOf (T.foldl (fun m2 t => if 0 < tpmGetQ tpm f t
        then setEntry m2 (join2 f t) (tpmGetQ tpm f t) else m2) acc)).Nodup := by
    intro f acc hacc
    exact nodup_keysOf_foldl_setEntry T (fun t => join2 f t) (fun t => tpmGetQ tpm f t)
      (fun t => 0 < tpmGetQ tpm f t) acc hacc
  have houter : ∀ (acc : Entries ℚ), (keysOf acc).Nodup →
      (keysOf (F.foldl (fun m f => T.foldl (fun m2 t => if 0 < tpmGetQ tpm f t
        then setEntry m2 (join2 f t) (tpmGetQ tpm f t) else m2) m) acc)).Nodup := by
    induction F with
    | nil => intro acc hacc; simpa
    | cons f fs ih =>
        intro acc hacc
        simp only [List.foldl_cons]
        exact ih _ (hinner f acc hacc)
  have h0 := houter [] (by simp [keysOf])
  show (keysOf (if F.length ≠ 0
      then ((F.foldl (fun m f => T.foldl (fun m2 t => if 0 < tpmGetQ tpm f t
        then setEntry m2 (join2 f t) (tpmGetQ tpm f t) else m2) m) []).map
          (fun e => (e.1, e.2 / (F.length : ℚ))))
      else F.foldl (fun m f => T.foldl (fun m2 t => if 0 < tpmGetQ tpm f t
        then setEntry m2 (join2 f t) (tpmGetQ tpm f t) else m2) m) [])).Nodup
  by_cases hF : F.length ≠ 0
  · rw [if_pos hF, keysOf_map_div]
    exact h0
  · rw [if_neg hF]
    exact h0

lemma hellingerTPM_self (T : TPM) : calculateHellingerDistanceTPM T T = 0 := by
  rw [hellingerTPM_unfold T T]
  by_cases hc : (sortStrs (dedupFirst (keysOf T ++ keysOf T))).length = 0 ∨
      (sortStrs (dedupFirst ((dedupFirst (keysOf T ++ keysOf T)).flatMap (fun f =>
        keysOf ((getEntry? T f).getD []) ++ keysOf ((getEntry? T f).getD []))))).length = 0
  · rw [if_pos hc]
  · rw [if_neg hc]
    have hin : (sortStrs (dedupFirst (keysOf T ++ keysOf T))).map (fun f =>
        ((sortStrs (dedupFirst ((dedupFirst (keysOf T ++ keysOf T)).flatMap (fun g =>
          keysOf ((getEntry? T g).getD []) ++ keysOf ((getEntry? T g).getD []))))).map (fun t =>
          (Real.sqrt (tpmGetQ T f t) - Real.sqrt (tpmGetQ T f t)) ^ 2)).sum)
        = (sortStrs (dedupFirst (keysOf T ++ keysOf T))).map (fun _ => (0:ℝ)) := by
      apply List.map_congr_left
      intro f _
      have : (sortStrs (dedupFirst ((dedupFirst (keysOf T ++ keysOf T)).flatMap (fun g =>
          keysOf ((getEntry? T g).getD []) ++ keysOf ((getEntry? T g).getD []))))).map (fun t =>
          (Real.sqrt (tpmGetQ T f t) - Real.sqrt (tpmGetQ T f t)) ^ 2)
          = (sortStrs (dedupFirst ((dedupFirst (keysOf T ++ keysOf T)).flatMap (fun g =>
          keysOf ((getEntry? T g).getD []) ++ keysOf ((getEntry? T g).getD []))))).map (fun _ => (0:ℝ)) := by
        apply List.map_congr_left
        intro t _
        simp
      rw [this, sum_map_const_real]
      ring
    rw [hin, sum_map_const_real]
    simp

lemma gjs_all_eq (pmfs : List (Entries ℚ)) (Q : Entries ℚ)
    (hall : ∀ p ∈ pmfs, p = Q) (hnodup : (keysOf Q).Nodup) :
    calculateGeneralizedJensenShannonDivergence pmfs = 0 := by
  by_cases hlen : pmfs.length < 2
  · unfold calculateGeneralizedJensenShannonDivergence
    rw [if_pos hlen]
  · have hne : pmfs ≠ [] := by
      intro h
      rw [h] at hlen
      simp at hlen
    have hnQ : ((pmfs.length : ℚ)) ≠ 0 := by
      have h0 : 0 < pmfs.length := by omega
      exact_mod_cast Nat.pos_iff_ne_zero.mp h0
    have hnR : ((pmfs.length : ℝ)) ≠ 0 := by
      have h0 : 0 < pmfs.length := by omega
      exact_mod_cast Nat.pos_iff_ne_zero.mp h0
    have hGJS : calculateGeneralizedJensenShannonDivergence pmfs
        = max 0 (calculateShannonEntropy ((dedupFirst (pmfs.flatMap (fun p => keysOf p))).map (fun k =>
            (k, (pmfs.map (fun p => getQ p k)).sum / (pmfs.length : ℚ))))
          - (pmfs.map (fun p => calculateShannonEntropy p)).sum / (pmfs.length : ℝ)) := by
      unfold calculateGeneralizedJensenShannonDivergence
      rw [if_neg hlen]
    have hkeys : dedupFirst (pmfs.flatMap (fun p => keysOf p)) = keysOf Q := by
      rw [dedupFirst_flatMap_const pmfs (keysOf Q) _ (fun p hp => by rw [hall p hp]) hne,
        dedupFirst_of_nodup _ hnodup]
    have hmix : (dedupFirst (pmfs.flatMap (fun p => keysOf p))).map (fun k =>
        (k, (pmfs.map (fun p => getQ p k)).sum / (pmfs.length : ℚ))) = Q := by
      rw [hkeys]
      have hpt : ∀ k ∈ keysOf Q,
          (k, (pmfs.map (fun p => getQ p k)).sum / (pmfs.length : ℚ)) = (k, getQ Q k) := by
        intro k _
        have hc : pmfs.map (fun p => getQ p k) = pmfs.map (fun _ => getQ Q k) :=
          List.map_congr_left (fun p hp => by rw [hall p hp])
        rw [hc, sum_map_const_q, mul_comm, mul_div_assoc, div_self hnQ, mul_one]
      rw [List.map_congr_left hpt, entries_eq_map_keys Q hnodup]
    rw [hGJS, hmix]
    have hmean : pmfs.map (fun p => calculateShannonEntropy p)
        = pmfs.map (fun _ => calculateShannonEntropy Q) :=
      List.map_congr_left (fun p hp => by rw [hall p hp])
    rw [hmean, sum_map_const_real, mul_comm, mul_div_assoc, div_self hnR, mul_one,
      sub_self, max_self]

lemma gjsTPM_all_eq (tpms : List TPM) (T : TPM) (hall : ∀ x ∈ tpms, x = T) :
    calculateGJS_TPM_Distance_normalized tpms = 0 := by
  by_cases hlen : tpms.length < 2
  · unfold calculateGJS_TPM_Distance_normalized
    rw [if_pos hlen]
  · have hG : calculateGJS_TPM_Distance_normalized tpms
        = Real.sqrt (min (max (calculateGeneralizedJensenShannonDivergence
            (tpms.map (fun tpm => tpmToJointPmf tpm
              (sortStrs (dedupFirst (tpms.flatMap (fun tpm => keysOf tpm))))
              (sortStrs (dedupFirst (tpms.flatMap (fun tpm =>
                tpm.flatMap (fun row => keysOf row.2)))))))
            / Real.logb 2 (tpms.length : ℝ)) 0) 1) := by
      unfold calculateGJS_TPM_Distance_normalized
      rw [if_neg hlen]
    rw [hG]
    rw [gjs_all_eq (tpms.map (fun tpm => tpmToJointPmf tpm
        (sortStrs (dedupFirst (tpms.flatMap (fun tpm => keysOf tpm))))
        (sortStrs (dedupFirst (tpms.flatMap (fun tpm =>
          tpm.flatMap (fun row => keysOf row.2)))))))
      (tpmToJointPmf T
        (sortStrs (dedupFirst (tpms.flatMap (fun tpm => keysOf tpm))))
        (sortStrs (dedupFirst (tpms.flatMap (fun tpm =>
          tpm.flatMap (fun row => keysOf row.2))))))
      (by
        intro p hp
        rcases List.mem_map.mp hp with ⟨x, hx, rfl⟩
        rw [hall x hx])
      (nodup_keysOf_tpmToJointPmf _ _ _)]
    norm_num

/-- C8: `representativeTPM` is the first step TPM when the homogeneity check
passes (and the empty map when there are no step TPMs), otherwise the
entrywise uniform average of the step TPMs; and on a panel whose step TPMs
are all the same map the check passes and the representative equals every
step's TPM. -/
theorem C8_representative_tpm (timeLabels : List Str) (instanceData : List (List Str)) :
    ((homogeneityCheckOf timeLabels instanceData).isHomogeneous →
      representativeTPM timeLabels instanceData
        = (match (tpmsFirstOrder timeLabels instanceData).head? with
           | some x => x.tpm
           | none => [])) ∧
    (¬(homogeneityCheckOf timeLabels instanceData).isHomogeneous →
      representativeTPM timeLabels instanceData
        = averageTPMFirstOrder timeLabels instanceData) ∧
    (∀ T : TPM,
      (∀ x ∈ tpmsFirstOrder timeLabels instanceData, x.tpm = T) →
      ((homogeneityCheckOf timeLabels instanceData).isHomogeneous ∧
        ∀ x ∈ tpmsFirstOrder timeLabels instanceData,
          representativeTPM timeLabels instanceData = x.tpm)) := by
  refine ⟨?_, ?_, ?_⟩
  · intro h
    unfold representativeTPM
    rw [if_pos h]
  · intro h
    unfold representativeTPM
    rw [if_neg h]
  · intro T hT
    have hhom : (homogeneityCheckOf timeLabels instanceData).isHomogeneous := by
      unfold homogeneityCheckOf
      by_cases hlen : (tpmsFirstOrder timeLabels instanceData).length < 2
      · rw [runHomogeneityCheck_lt2 _ hlen]
        trivial
      · rw [runHomogeneityCheck_ge2 _ hlen]
        constructor
        · intro r hr
          rcases List.mem_map.mp hr with ⟨p, hp, rfl⟩
          have hmem := (mem_indexPairs _ _).mp hp
          have e1 : ((tpmsFirstOrder timeLabels instanceData).getD p.1 default).tpm = T :=
            hT _ (getD_mem_of_lt _ _ _ (lt_trans hmem.1 hmem.2))
          have e2 : ((tpmsFirstOrder timeLabels instanceData).getD p.2 default).tpm = T :=
            hT _ (getD_mem_of_lt _ _ _ hmem.2)
          show calculateHellingerDistanceTPM
            ((tpmsFirstOrder timeLabels instanceData).getD p.1 default).tpm
            ((tpmsFirstOrder timeLabels instanceData).getD p.2 default).tpm ≤ 1/2
          rw [e1, e2, hellingerTPM_self]
          norm_num
        · rw [gjsTPM_all_eq ((tpmsFirstOrder timeLabels instanceData).map (fun t => t.tpm)) T
            (by
              intro x hx
              rcases List.mem_map.mp hx with ⟨y, hy, rfl⟩
              exact hT y hy)]
          norm_num
    refine ⟨hhom, ?_⟩
    intro x hx
    unfold representativeTPM
    rw [if_pos hhom]
    rcases hhead : (tpmsFirstOrder timeLabels instanceData).head? with - | y
    · rw [List.head?_eq_none_iff] at hhead
      rw [hhead] at hx
      simp at hx
    · have hy : y ∈ tpmsFirstOrder timeLabels instanceData :=
        List.mem_of_mem_head? (by rw [hhead]; exact rfl)
      show y.tpm = x.tpm
      rw [hT y hy, hT x hx]

/-- Concrete instantiation of the C8 theorem on the empty panel, where the
check passes vacuously and there are no step TPMs. -/
theorem C8_representative_tpm_witness :
    ((∀ x ∈ tpmsFirstOrder [] [], x.tpm = ([] : TPM)) ∧
      (homogeneityCheckOf [] []).isHomogeneous) ∧
    (∀ x ∈ tpmsFirstOrder [] [], representativeTPM [] [] = x.tpm) :=
  ⟨⟨by simp [tpmsFirstOrder], ((C8_representative_tpm [] []).2.2 [] (by simp [tpmsFirstOrder])).1⟩,
   ((C8_representative_tpm [] []).2.2 [] (by simp [tpmsFirstOrder])).2⟩

-- ----------------------------------------------------------------
-- The dead sum-to-1 validation of parseTheoreticalModel (C1)
-- ----------------------------------------------------------------

/-- A single-row model with total probability 3 parses successfully: the
sum-to-1 validation of the source is an empty `if` block. -/
lemma parse_single_row_example :
    parseTheoreticalModel ⟨"m1".toList, "M1".toList, "X,Probability\nx,3".toList⟩ [['X']]
      = Sum.inr (addQ [] ['x'] ((digitsToNat ['3'] : ℕ) : ℚ)) := by
  have h1 : parseTheoreticalModel ⟨"m1".toList, "M1".toList, "X,Probability\nx,3".toList⟩ [['X']]
      = parseModelRows 2 1 ["x,3".toList] [] := rfl
  have h2 : parseModelRows 2 1 ["x,3".toList] []
      = (if ((digitsToNat ['3'] : ℕ) : ℚ) < 0
         then Sum.inl ("Invalid probability in row".toList)
         else parseModelRows 2 1 [] (addQ [] ['x'] ((digitsToNat ['3'] : ℕ) : ℚ))) := rfl
  rw [h1, h2, if_neg (by norm_num [digitsToNat])]
  rfl

/-- C1: `performFullAnalysis` attaches no error and computes all metrics for
every model whose distribution string parses to a nonempty PMF, regardless
of the probability total (the sum-to-1 validation in the source is an empty
`if` whose comment defers it to the UI); only a parse failure yields an
error-only record. -/
theorem C1_model_fit_ignores_total (vars : List RandomVariable) (model : TheoreticalModel) :
    (∀ pmf, parseTheoreticalModel model (varNamesOf vars) = Sum.inr pmf → pmf ≠ [] →
      modelFitFor vars model = some ⟨model.name, none,
        some (calculateHellingerDistance (getEmpiricalJointPMF vars) pmf),
        some (Real.sqrt (calculateGeneralizedJensenShannonDivergence
          [getEmpiricalJointPMF vars, pmf])),
        some (mseMetricsFor vars pmf)⟩) ∧
    (∀ err, parseTheoreticalModel model (varNamesOf vars) = Sum.inl err →
      modelFitFor vars model = some ⟨model.name, some err, none, none, none⟩) := by
  constructor
  · intro pmf hparse hne
    unfold modelFitFor
    rw [hparse]
    show (if pmf.length = 0 then none else _) = _
    rw [if_neg (by simpa using hne)]
  · intro err hparse
    unfold modelFitFor
    rw [hparse]

/-- C1 counterexample to the claimed behavior: a model summing to 3 (off by
2 > 1e-5) still parses, is not excluded, and its `ModelFitResult` carries no
error and all three metric fields. -/
theorem C1_dead_sum_check_counterexample :
    |sumQ (addQ [] ['x'] ((digitsToNat ['3'] : ℕ) : ℚ)) - 1| > 1/100000 ∧
    parseTheoreticalModel ⟨"m1".toList, "M1".toList, "X,Probability\nx,3".toList⟩
        (varNamesOf [⟨"x1".toList, "X".toList, [['x'], ['y']], VariableType.Nominal, []⟩])
      = Sum.inr (addQ [] ['x'] ((digitsToNat ['3'] : ℕ) : ℚ)) ∧
    (performFullAnalysisModelFit
        [⟨"x1".toList, "X".toList, [['x'], ['y']], VariableType.Nominal, []⟩]
        [⟨"m1".toList, "M1".toList, "X,Probability\nx,3".toList⟩]).length = 1 ∧
    ∀ r ∈ performFullAnalysisModelFit
        [⟨"x1".toList, "X".toList, [['x'], ['y']], VariableType.Nominal, []⟩]
        [⟨"m1".toList, "M1".toList, "X,Probability\nx,3".toList⟩],
      r.error = none ∧ r.hellingerDistance.isSome ∧ r.jensenShannonDistance.isSome ∧
        r.mse.isSome := by
  have hparse : parseTheoreticalModel ⟨"m1".toList, "M1".toList, "X,Probability\nx,3".toList⟩
      (varNamesOf [⟨"x1".toList, "X".toList, [['x'], ['y']], VariableType.Nominal, []⟩])
      = Sum.inr (addQ [] ['x'] ((digitsToNat ['3'] : ℕ) : ℚ)) := parse_single_row_example
  have hfit : modelFitFor [⟨"x1".toList, "X".toList, [['x'], ['y']], VariableType.Nominal, []⟩]
      ⟨"m1".toList, "M1".toList, "X,Probability\nx,3".toList⟩
      = some ⟨"M1".toList, none,
        some (calculateHellingerDistance
          (getEmpiricalJointPMF [⟨"x1".toList, "X".toList, [['x'], ['y']], VariableType.Nominal, []⟩])
          (addQ [] ['x'] ((digitsToNat ['3'] : ℕ) : ℚ))),
        some (Real.sqrt (calculateGeneralizedJensenShannonDivergence
          [getEmpiricalJointPMF [⟨"x1".toList, "X".toList, [['x'], ['y']], VariableType.Nominal, []⟩],
            addQ [] ['x'] ((digitsToNat ['3'] : ℕ) : ℚ)])),
        some (mseMetricsFor [⟨"x1".toList, "X".toList, [['x'], ['y']], VariableType.Nominal, []⟩]
          (addQ [] ['x'] ((digitsToNat ['3'] : ℕ) : ℚ)))⟩ := by
    unfold modelFitFor
    rw [hparse]
    show (if (addQ [] ['x'] ((digitsToNat ['3'] : ℕ) : ℚ)).length = 0 then none else _) = _
    rw [if_neg (by simp [addQ, setEntry])]
  refine ⟨by
    have h3 : ('3'.toNat - 48 : ℕ) = 3 := rfl
    norm_num [sumQ, addQ, setEntry, getQ, getEntry?, digitsToNat, h3], hparse, ?_, ?_⟩
  · unfold performFullAnalysisModelFit
    rw [List.filterMap_cons, hfit]
    simp
  · intro r hr
    unfold performFullAnalysisModelFit at hr
    rw [List.filterMap_cons, hfit] at hr
    simp only [List.filterMap_nil] at hr
    rcases List.mem_singleton.mp hr with rfl
    exact ⟨rfl, rfl, rfl, rfl⟩

/-- Concrete instantiation of the C1 theorem at the sum-3 model. -/
theorem C1_model_fit_ignores_total_witness :
    (parseTheoreticalModel ⟨"m1".toList, "M1".toList, "X,Probability\nx,3".toList⟩
        (varNamesOf [⟨"x1".toList, "X".toList, [['x'], ['y']], VariableType.Nominal, []⟩])
      = Sum.inr (addQ [] ['x'] ((digitsToNat ['3'] : ℕ) : ℚ)) ∧
     addQ [] ['x'] ((digitsToNat ['3'] : ℕ) : ℚ) ≠ []) ∧
    modelFitFor [⟨"x1".toList, "X".toList, [['x'], ['y']], VariableType.Nominal, []⟩]
        ⟨"m1".toList, "M1".toList, "X,Probability\nx,3".toList⟩
      = some ⟨"M1".toList, none,
        some (calculateHellingerDistance
          (getEmpiricalJointPMF [⟨"x1".toList, "X".toList, [['x'], ['y']], VariableType.Nominal, []⟩])
          (addQ [] ['x'] ((digitsToNat ['3'] : ℕ) : ℚ))),
        some (Real.sqrt (calculateGeneralizedJensenShannonDivergence
          [getEmpiricalJointPMF [⟨"x1".toList, "X".toList, [['x'], ['y']], VariableType.Nominal, []⟩],
            addQ [] ['x'] ((digitsToNat ['3'] : ℕ) : ℚ)])),
        some (mseMetricsFor [⟨"x1".toList, "X".toList, [['x'], ['y']], VariableType.Nominal, []⟩]
          (addQ [] ['x'] ((digitsToNat ['3'] : ℕ) : ℚ)))⟩ :=
  ⟨⟨parse_single_row_example, by simp [addQ, setEntry]⟩,
   (C1_model_fit_ignores_total
      [⟨"x1".toList, "X".toList, [['x'], ['y']], VariableType.Nominal, []⟩]
      ⟨"m1".toList, "M1".toList, "X,Probability\nx,3".toList⟩).1
     (addQ [] ['x'] ((digitsToNat ['3'] : ℕ) : ℚ))
     parse_single_row_example
     (by simp [addQ, setEntry])⟩
